import Mathlib

/-!
# Verification of the pedigree layout engine (`src/core/layout/PedigreeLayout.ts`)

This file is a shallow embedding, in Lean 4, of the layout engine of the
pedigree-draw repository, together with proofs and refutations of the
specification's claims about it.

Modelling conventions:

* TypeScript `number` positions (`x`, `y`) are modelled as `ℚ` (the code only
  ever adds, subtracts, halves and compares them, so rationals are exact);
  generation counters are modelled as `ℤ`.
* A JavaScript `Map` is modelled as an association list in insertion order:
  `set` on an existing key updates the entry in place, `set` on a fresh key
  appends, matching the iteration semantics of `Map`.
* A `Person` record's identity/link fields (`id`, `fatherId`, `motherId`,
  `spouseIds`, `childrenIds`) are the structure `Person`.  The derived fields
  the engine writes back onto person records (`x`, `y`, `generation`) are kept
  in a separate `PersonDerived` record: the engine reads the `generation`
  field only after `assignGenerations` has written it for every person in the
  same run (`buildFamilyUnits`, `sortGenerationsWithFamilyUnits`,
  `adjustParentPositions`), and never reads `x`/`y` from person records
  (only from its own `LayoutNode` map), so those reads are modelled by
  lookups in the freshly computed generation map, and the writebacks by an
  explicit final state update (`layoutRun`).
* The two `while (changed)` relaxation loops of `assignGenerations` have no
  iteration cap in the source; they are modelled with an explicit fuel
  parameter, returning `none` when the fuel is exhausted before a fixed point
  is reached.  `layout pedigree` terminating in the source corresponds to
  `layout opts fuel pedigree = some _` for some fuel.  All other loops in the
  source have explicit caps (5 or 10 iterations, and the safe-offset search
  is bounded by the desired offset), and are embedded structurally.
-/

namespace PedigreeLayout

/-- Layout options, `LayoutOptions` of `src/core/model/types.ts`. -/
structure LayoutOptions where
  nodeWidth : ℚ
  nodeHeight : ℚ
  horizontalSpacing : ℚ
  verticalSpacing : ℚ
  siblingSpacing : ℚ
  spouseSpacing : ℚ
deriving DecidableEq, Repr

/-- `DEFAULT_LAYOUT_OPTIONS` of `PedigreeLayout.ts`. -/
def DEFAULT_LAYOUT_OPTIONS : LayoutOptions :=
  { nodeWidth := 50, nodeHeight := 50, horizontalSpacing := 30
    verticalSpacing := 100, siblingSpacing := 40, spouseSpacing := 60 }

/-- The identity/link fields of a `Person` record (`src/core/model/types.ts`),
i.e. every field of a person the layout engine reads.  The derived fields
`x`, `y`, `generation` written by the engine live in `PersonDerived`. -/
structure Person where
  id : String
  fatherId : Option String
  motherId : Option String
  spouseIds : List String
  childrenIds : List String
deriving DecidableEq, Repr

/-- The derived fields the layout engine writes onto a `Person` record. -/
structure PersonDerived where
  x : Option ℚ
  y : Option ℚ
  generation : Option ℤ
deriving DecidableEq, Repr

/-- A `Relationship` record (the fields the layout engine reads). -/
structure Relationship where
  id : String
  person1Id : String
  person2Id : String
  childrenIds : List String
deriving DecidableEq, Repr

/-- A pedigree as seen by the layout engine: persons (in `Map` insertion
order) and relationships. -/
structure Pedigree where
  persons : List Person
  relationships : List Relationship
deriving DecidableEq, Repr

/-- A layout node (`LayoutNode` of `types.ts`): the person it positions plus
computed coordinates, generation and order-within-generation. -/
structure LayoutNode where
  person : Person
  x : ℚ
  y : ℚ
  generation : ℤ
  order : ℕ
deriving DecidableEq, Repr

/-- `FamilyUnit` of `types.ts`. -/
structure FamilyUnit where
  id : String
  parents : List String
  children : List String
  relationshipId : Option String
  generation : ℤ
  minWidth : ℚ
deriving DecidableEq, Repr

/-! ## Association-list maps (JavaScript `Map` semantics) -/

/-- Lookup in a string-keyed association list (`Map.get`). -/
def sget {α : Type} : List (String × α) → String → Option α
  | [], _ => none
  | e :: r, k => if e.1 = k then some e.2 else sget r k

/-- `Map.set`: update in place if the key is present (preserving its position
in iteration order), append otherwise. -/
def sset {α : Type} : List (String × α) → String → α → List (String × α)
  | [], k, v => [(k, v)]
  | e :: r, k, v => if e.1 = k then (k, v) :: r else e :: sset r k v

/-- Lookup in an integer-keyed association list. -/
def zget {α : Type} : List (ℤ × α) → ℤ → Option α
  | [], _ => none
  | e :: r, k => if e.1 = k then some e.2 else zget r k

/-- `Map.set` for integer keys. -/
def zset {α : Type} : List (ℤ × α) → ℤ → α → List (ℤ × α)
  | [], k, v => [(k, v)]
  | e :: r, k, v => if e.1 = k then (k, v) :: r else e :: zset r k v

/-- `pedigree.persons.get(id)` — a JS `Map` keyed by `person.id`. -/
def Pedigree.getPerson (ped : Pedigree) (pid : String) : Option Person :=
  ped.persons.find? (fun p => p.id = pid)

/-! ## `assignGenerations` (lines 526–638)

Step 1 is the recursive `calculateMinGeneration` with a per-top-call visited
set and a shared memo map; steps 2 and 3 are the two `while (changed)`
relaxation loops (modelled with fuel); step 4 normalizes by the global
minimum and builds the generation lists and the per-person generation map
(the `person.generation = gen` writeback). -/

/-- The state threaded through `calculateMinGeneration`: the computed value,
the visited set, and the `minGeneration` memo map. -/
abbrev MinGenState := ℤ × List String × List (String × ℤ)

/-- `calculateMinGeneration` (lines 535–556).  The recursion in the source
terminates because every non-trivial call adds a fresh id to the visited set
and only found persons recurse; the fuel (instantiated with
`persons.length + 1` by `assignGenerations`, an upper bound on the recursion
depth) makes that structural.  On fuel exhaustion we return the memoized
value like the visited-set branch does. -/
def calcMinGen (ped : Pedigree) :
    ℕ → String → List String → List (String × ℤ) → MinGenState
  | 0, pid, visited, mg => ((sget mg pid).getD 0, visited, mg)
  | n + 1, pid, visited, mg =>
    if pid ∈ visited then ((sget mg pid).getD 0, visited, mg)
    else
      let visited1 := pid :: visited
      match ped.getPerson pid with
      | none => (0, visited1, mg)
      | some person =>
        let s1 : MinGenState :=
          match person.fatherId with
          | some fid =>
            let r := calcMinGen ped n fid visited1 mg
            (max 0 (r.1 + 1), r.2.1, r.2.2)
          | none => (0, visited1, mg)
        let s2 : MinGenState :=
          match person.motherId with
          | some mid =>
            let r := calcMinGen ped n mid s1.2.1 s1.2.2
            (max s1.1 (r.1 + 1), r.2.1, r.2.2)
          | none => s1
        (s2.1, s2.2.1, sset s2.2.2 pid s2.1)

/-- The step-1 loop: `for person of persons: calculateMinGeneration(person.id,
new Set())`, threading the shared `minGeneration` map. -/
def runCalcAll (ped : Pedigree) : List (String × ℤ) :=
  ped.persons.foldl
    (fun mg p => (calcMinGen ped (ped.persons.length + 1) p.id [] mg).2.2) []

/-- One pass of the step-2 spouse-equalization loop (lines 565–581).
`currentMin` is read once per person, before that person's spouse loop,
exactly as in the source. -/
def pass2 (persons : List Person) (mg : List (String × ℤ)) :
    List (String × ℤ) × Bool :=
  persons.foldl
    (fun acc p =>
      let currentMin := (sget acc.1 p.id).getD 0
      p.spouseIds.foldl
        (fun acc2 spouseId =>
          let spouseMin := (sget acc2.1 spouseId).getD 0
          if spouseMin > currentMin then (sset acc2.1 p.id spouseMin, true)
          else if currentMin > spouseMin then (sset acc2.1 spouseId currentMin, true)
          else acc2)
        acc)
    (mg, false)

/-- The step-2 `while (changed)` loop, with fuel. -/
def loop2 (persons : List Person) :
    ℕ → List (String × ℤ) → Option (List (String × ℤ))
  | 0, _ => none
  | n + 1, mg =>
    let r := pass2 persons mg
    if r.2 then loop2 persons n r.1 else some r.1

/-- The children half of one step-3 pass (lines 585–596): `parentGen` is read
once per person before that person's children loop. -/
def pass3Children (persons : List Person) (mg : List (String × ℤ)) :
    List (String × ℤ) × Bool :=
  persons.foldl
    (fun acc p =>
      let parentGen := (sget acc.1 p.id).getD 0
      p.childrenIds.foldl
        (fun acc2 childId =>
          let childMin := (sget acc2.1 childId).getD 0
          if childMin ≤ parentGen then (sset acc2.1 childId (parentGen + 1), true)
          else acc2)
        acc)
    (mg, false)

/-- The spouse half of one step-3 pass (lines 597–609): on any discrepancy
both persons are set to the max. -/
def pass3Spouse (persons : List Person) (acc : List (String × ℤ) × Bool) :
    List (String × ℤ) × Bool :=
  persons.foldl
    (fun acc p =>
      let currentMin := (sget acc.1 p.id).getD 0
      p.spouseIds.foldl
        (fun acc2 spouseId =>
          let spouseMin := (sget acc2.1 spouseId).getD 0
          if spouseMin ≠ currentMin then
            let maxGen := max spouseMin currentMin
            (sset (sset acc2.1 p.id maxGen) spouseId maxGen, true)
          else acc2)
        acc)
    acc

/-- One full pass of the step-3 `while (changed)` body. -/
def pass3 (persons : List Person) (mg : List (String × ℤ)) :
    List (String × ℤ) × Bool :=
  pass3Spouse persons (pass3Children persons mg)

/-- The step-3 `while (changed)` loop, with fuel. -/
def loop3 (persons : List Person) :
    ℕ → List (String × ℤ) → Option (List (String × ℤ))
  | 0, _ => none
  | n + 1, mg =>
    let r := pass3 persons mg
    if r.2 then loop3 persons n r.1 else some r.1

/-- `Math.min(...allGens)` over the map's values, `0` when empty
(line 614 guards the empty case). -/
def minAllGens (mg : List (String × ℤ)) : ℤ :=
  match mg.map Prod.snd with
  | [] => 0
  | a :: r => r.foldl min a

/-- Step 4 (lines 612–635): normalize each entry by the global minimum,
build `personGenerations` and the per-generation person lists (skipping ids
with no person record, deduplicating within a generation list). -/
def normalizeGens (ped : Pedigree) (mg : List (String × ℤ)) :
    List (String × ℤ) × List (ℤ × List Person) :=
  let minGen := minAllGens mg
  mg.foldl
    (fun acc e =>
      let normalizedGen := e.2 - minGen
      let pg := sset acc.1 e.1 normalizedGen
      let gens :=
        match zget acc.2 normalizedGen with
        | none =>
          match ped.getPerson e.1 with
          | some person => zset acc.2 normalizedGen [person]
          | none => zset acc.2 normalizedGen []
        | some lst =>
          match ped.getPerson e.1 with
          | some person =>
            if (lst.find? (fun p => p.id = e.1)).isSome then acc.2
            else zset acc.2 normalizedGen (lst ++ [person])
          | none => acc.2
      (pg, gens))
    ([], [])

/-- `assignGenerations` (lines 526–638).  Returns the generation lists and
the `personGenerations` map (the generations written onto person records),
or `none` when the relaxation loops do not reach a fixed point within
`fuel` passes (the source loops forever in that case). -/
def assignGenerations (ped : Pedigree) (fuel : ℕ) :
    Option (List (ℤ × List Person) × List (String × ℤ)) :=
  let mg1 := runCalcAll ped
  match loop2 ped.persons fuel mg1 with
  | none => none
  | some mg2 =>
    match loop3 ped.persons fuel mg2 with
    | none => none
    | some mg3 =>
      let r := normalizeGens ped mg3
      some (r.2, r.1)

/-! ## Family units and generation ordering (lines 489–520, 1026–1107, 1169–1266) -/

/-- `buildFamilyUnits` (lines 1029–1083).  `pgen` is the `personGenerations`
map: `person1.generation ?? 0` reads the generation `assignGenerations` has
just written for every person, i.e. this map. -/
def buildFamilyUnits (ped : Pedigree) (pgen : List (String × ℤ)) :
    List FamilyUnit :=
  let fromRels :=
    (ped.relationships.foldl
      (fun (acc : List FamilyUnit × List String) rel =>
        if rel.id ∈ acc.2 then acc
        else
          let acc := (acc.1, rel.id :: acc.2)
          match ped.getPerson rel.person1Id, ped.getPerson rel.person2Id with
          | some _, some _ =>
            (acc.1 ++ [{ id := rel.id
                         parents := [rel.person1Id, rel.person2Id]
                         children := rel.childrenIds
                         relationshipId := some rel.id
                         generation := (sget pgen rel.person1Id).getD 0
                         minWidth := 0 }], acc.2)
          | _, _ => acc)
      ([], [])).1
  ped.persons.foldl
    (fun units person =>
      if person.childrenIds = [] then units
      else
        let coveredChildren :=
          units.foldl
            (fun cov unit =>
              if person.id ∈ unit.parents then cov ++ unit.children else cov)
            ([] : List String)
        let uncoveredChildren : List String :=
          person.childrenIds.filter (fun c => c ∉ coveredChildren)
        if uncoveredChildren.isEmpty then units
        else
          units ++ [{ id := "single-" ++ person.id
                      parents := [person.id]
                      children := uncoveredChildren
                      relationshipId := none
                      generation := (sget pgen person.id).getD 0
                      minWidth := 0 }])
    fromRels

/-- `calculateFamilyUnitWidth` (lines 1088–1107). -/
def calculateFamilyUnitWidth (opts : LayoutOptions) (unit : FamilyUnit) : ℚ :=
  let parentsWidth :=
    if unit.parents.length = 2 then opts.nodeWidth * 2 + opts.spouseSpacing
    else opts.nodeWidth
  let childrenWidth :=
    if unit.children.length > 0 then
      (unit.children.length : ℚ) * opts.nodeWidth
        + ((unit.children.length : ℚ) - 1) * opts.siblingSpacing
    else 0
  max parentsWidth childrenWidth + opts.horizontalSpacing * 2

/-- `findSharedPersons` (lines 1171–1192): persons appearing as a parent in
more than one family unit, with their unit lists. -/
def findSharedPersons (familyUnits : List FamilyUnit) :
    List (String × List FamilyUnit) :=
  let personToUnits :=
    familyUnits.foldl
      (fun acc unit =>
        unit.parents.foldl
          (fun acc2 parentId =>
            match sget acc2 parentId with
            | none => sset acc2 parentId [unit]
            | some l => sset acc2 parentId (l ++ [unit]))
          acc)
      []
  personToUnits.filter (fun e => e.2.length > 1)

/-- `sortGenerationWithFamilyUnits` (lines 1198–1266): shared persons first,
placed between their spouses; then remaining persons grouped with their
spouses. -/
def sortGenerationWithFamilyUnits (persons : List Person)
    (genSharedPersons : List (String × List FamilyUnit)) : List Person :=
  if persons.length ≤ 1 then persons
  else
    let afterShared :=
      genSharedPersons.foldl
        (fun (acc : List Person × List String) e =>
          let sharedId := e.1
          match persons.find? (fun p => p.id = sharedId) with
          | none => acc
          | some sharedPerson =>
            if sharedId ∈ acc.2 then acc
            else
              let spouses :=
                e.2.foldl
                  (fun sps unit =>
                    unit.parents.foldl
                      (fun sps2 parentId =>
                        if parentId ≠ sharedId then
                          match persons.find? (fun p => p.id = parentId) with
                          | some spouse =>
                            if spouse.id ∈ acc.2 then sps2 else sps2 ++ [spouse]
                          | none => sps2
                        else sps2)
                      sps)
                  []
              match spouses with
              | [] => (acc.1 ++ [sharedPerson], sharedId :: acc.2)
              | s0 :: srest =>
                (acc.1 ++ [s0, sharedPerson] ++ srest,
                 (srest.map Person.id) ++ [sharedId, s0.id] ++ acc.2))
        ([], [])
    (persons.foldl
      (fun (acc : List Person × List String) person =>
        if person.id ∈ acc.2 then acc
        else
          let start := (acc.1, person.id :: acc.2)
          let grouped :=
            person.spouseIds.foldl
              (fun (acc2 : List Person × List String) spouseId =>
                match persons.find? (fun p => p.id = spouseId) with
                | some spouse =>
                  if spouse.id ∈ acc2.2 then acc2
                  else (acc2.1 ++ [spouse], spouse.id :: acc2.2)
                | none => acc2)
              (start.1 ++ [person], start.2)
          grouped)
      afterShared).1

/-- `sortGenerationsWithFamilyUnits` (lines 491–520): per generation, filter
the family units and shared persons to that generation (via the written
`person.generation`, i.e. `pgen`) and sort. -/
def sortGenerationsWithFamilyUnits (generations : List (ℤ × List Person))
    (ped : Pedigree) (familyUnits : List FamilyUnit)
    (sharedPersons : List (String × List FamilyUnit)) (pgen : List (String × ℤ)) :
    List (ℤ × List Person) :=
  generations.map
    (fun e =>
      -- the source computes the generation's family units here but the
      -- sorting routine never reads its `familyUnits` parameter
      let _genFamilyUnits := familyUnits.filter (fun u => u.generation = e.1)
      let genSharedPersons :=
        sharedPersons.filter
          (fun sp =>
            match ped.getPerson sp.1 with
            | some _ => sget pgen sp.1 = some e.1
            | none => false)
      (e.1, sortGenerationWithFamilyUnits e.2 genSharedPersons))

/-! ## The layout-node map -/

/-- The `Map<string, LayoutNode>` the engine builds, as its value list in
insertion order (keys are the `person.id` of each node). -/
abbrev NodeMap := List LayoutNode

/-- `result.get(id)`. -/
def mapGet (m : NodeMap) (pid : String) : Option LayoutNode :=
  m.find? (fun n => n.person.id = pid)

/-- `result.set(node.person.id, node)`: replace in place or append. -/
def mapSet (m : NodeMap) (node : LayoutNode) : NodeMap :=
  if (m.find? (fun n => n.person.id = node.person.id)).isSome then
    m.map (fun n => if n.person.id = node.person.id then node else n)
  else m ++ [node]

/-- The nodes of one generation (`Array.from(positions.values()).filter`). -/
def filterGen (m : NodeMap) (gen : ℤ) : List LayoutNode :=
  m.filter (fun n => n.generation = gen)

/-- `.sort((a, b) => a.x - b.x)` — a stable sort by `x`. -/
def sortByX (l : List LayoutNode) : List LayoutNode :=
  l.insertionSort (fun a b => a.x ≤ b.x)

/-! ## Position assignment (lines 693–770) -/

/-- `getParentCenterX` (lines 757–770). -/
def getParentCenterX (person : Person) (positions : NodeMap) : Option ℚ :=
  let fatherNode := person.fatherId.bind (fun fid => mapGet positions fid)
  let motherNode := person.motherId.bind (fun mid => mapGet positions mid)
  match fatherNode, motherNode with
  | some f, some m => some ((f.x + m.x) / 2)
  | some f, none => some f.x
  | none, some m => some m.x
  | none, none => none

/-- The body of the per-person placement loop of `calculatePositions`
(lines 709–749), threading the running cursor and the result map. -/
def placeRow (opts : LayoutOptions) (gen : ℤ) (y : ℚ) (persons : List Person)
    (result : NodeMap) : NodeMap :=
  (persons.foldl
    (fun (acc : NodeMap × ℚ × Option Person × ℕ) person =>
      let result := acc.1
      let currentX := acc.2.1
      let prevPerson := acc.2.2.1
      let i := acc.2.2.2
      let spacing :=
        match prevPerson with
        | some prev =>
          if person.id ∈ prev.spouseIds ∨ prev.id ∈ person.spouseIds then
            opts.spouseSpacing
          else opts.horizontalSpacing
        | none => opts.horizontalSpacing
      let currentX := if i > 0 then currentX + spacing + opts.nodeWidth else currentX
      let currentX :=
        match getParentCenterX person result with
        | some parentX => if gen > 0 ∧ parentX ≥ currentX then parentX else currentX
        | none => currentX
      let node : LayoutNode :=
        { person := person, x := currentX, y := y, generation := gen, order := i }
      (mapSet result node, currentX, some person, i + 1))
    (result, 0, none, 0)).1

/-- `calculatePositions` (lines 693–752): rows in ascending generation
order, `y = gen * (nodeHeight + verticalSpacing)`. -/
def calculatePositions (opts : LayoutOptions)
    (generations : List (ℤ × List Person)) : NodeMap :=
  let genKeys := (generations.map Prod.fst).insertionSort (fun a b => a ≤ b)
  genKeys.foldl
    (fun result gen =>
      let persons := (zget generations gen).getD []
      let y := (gen : ℚ) * (opts.nodeHeight + opts.verticalSpacing)
      placeRow opts gen y persons result)
    []

/-! ## Collision detection and resolution (lines 1110–1166) -/

/-- Whether two adjacent nodes are declared spouses (either direction). -/
def areSpouses (a b : LayoutNode) : Prop :=
  b.person.id ∈ a.person.spouseIds ∨ a.person.id ∈ b.person.spouseIds

instance (a b : LayoutNode) : Decidable (areSpouses a b) := by
  unfold areSpouses; infer_instance

/-- The minimum required gap between adjacent nodes: node width plus spouse
or ordinary spacing (lines 1123–1125). -/
def minDist (opts : LayoutOptions) (a b : LayoutNode) : ℚ :=
  opts.nodeWidth + if areSpouses a b then opts.spouseSpacing else opts.horizontalSpacing

/-- The adjacent-pair scan of `detectCollisions` on a sorted row. -/
def hasCollision (opts : LayoutOptions) : List LayoutNode → Bool
  | [] => false
  | [_] => false
  | a :: b :: rest =>
    (b.x - a.x < minDist opts a b) || hasCollision opts (b :: rest)

/-- `detectCollisions` (lines 1112–1134). -/
def detectCollisions (opts : LayoutOptions) (positions : NodeMap) (gen : ℤ) : Bool :=
  hasCollision opts (sortByX (filterGen positions gen))

/-- The cascade of `resolveCollisions` on the sorted row, with a structural
bound (`resolveGo` instantiates it with the list length, which is exact):
a violating node and everything right of it are shifted right by the exact
deficit (lines 1145–1165; the in-place suffix shifts become a recursion on
the shifted tail). -/
def resolveGoAux (opts : LayoutOptions) : ℕ → List LayoutNode → List LayoutNode
  | 0, l => l
  | _ + 1, [] => []
  | _ + 1, [a] => [a]
  | n + 1, a :: b :: rest =>
    let d := minDist opts a b
    if b.x - a.x < d then
      let shift := d - (b.x - a.x)
      a :: resolveGoAux opts n
        ({ b with x := b.x + shift } :: rest.map (fun n => { n with x := n.x + shift }))
    else
      a :: resolveGoAux opts n (b :: rest)

/-- The adjacent-pair cascade of `resolveCollisions` on the sorted row. -/
def resolveGo (opts : LayoutOptions) (l : List LayoutNode) : List LayoutNode :=
  resolveGoAux opts l.length l

/-- Replace a node by its id-match in a resolved row, if present. -/
def replaceById (resolved : List LayoutNode) (n : LayoutNode) : LayoutNode :=
  match resolved.find? (fun r => r.person.id = n.person.id) with
  | some r => r
  | none => n

/-- Write a resolved row back into the map (the source mutates the shared
node objects in place; keys are unique, so this is replacement by id). -/
def updateNodes (m : NodeMap) (resolved : List LayoutNode) : NodeMap :=
  m.map (replaceById resolved)

/-- `resolveCollisions` (lines 1139–1166). -/
def resolveCollisions (opts : LayoutOptions) (positions : NodeMap) (gen : ℤ) :
    NodeMap :=
  updateNodes positions (resolveGo opts (sortByX (filterGen positions gen)))

/-- A `while (detectCollisions && maxIterations > 0)` loop (used with cap 5
in the adjustment passes and cap 10 in `layout`). -/
def resLoop (opts : LayoutOptions) : ℕ → NodeMap → ℤ → NodeMap
  | 0, m, _ => m
  | k + 1, m, gen =>
    if detectCollisions opts m gen then resLoop opts k (resolveCollisions opts m gen) gen
    else m

/-! ## Offset safety (lines 936–1002) -/

/-- The adjacent-gap test of `checkOffsetCollision` over plain sorted
x-coordinates, against the uniform `nodeWidth + horizontalSpacing` bound. -/
def xGapTooSmall (opts : LayoutOptions) : List ℚ → Bool
  | [] => false
  | [_] => false
  | a :: b :: rest =>
    (b - a < opts.nodeWidth + opts.horizontalSpacing) || xGapTooSmall opts (b :: rest)

/-- `checkOffsetCollision` (lines 938–978): simulate shifting the given
siblings by `offset` within their generation, re-sort by `x`, and test every
adjacent pair against `nodeWidth + horizontalSpacing` (spouse spacing is not
consulted here, and the `isSpouse` closure built in the source is never
called). -/
def checkOffsetCollision (opts : LayoutOptions) (siblings : List Person)
    (offset : ℚ) (positions : NodeMap) (generation : ℤ) : Bool :=
  let siblingIds := siblings.map Person.id
  let genNodes := sortByX (filterGen positions generation)
  let simulated :=
    genNodes.map
      (fun n => if n.person.id ∈ siblingIds then n.x + offset else n.x)
  let sorted := simulated.insertionSort (fun a b => a ≤ b)
  xGapTooSmall opts sorted

/-- The probe loop of `calculateSafeOffset`: test offsets `0, ±5, ±10, …`
up to the desired offset, keeping the last non-colliding one and stopping at
the first collision.  The iteration count is bounded by `|desired| / 5 + 1`,
which the fuel makes structural. -/
def safeGo (collides : ℚ → Bool) (desired step : ℚ) :
    ℕ → ℚ → ℚ → ℚ
  | 0, _, safe => safe
  | n + 1, t, safe =>
    if |t| < |desired| then
      if collides t then safe else safeGo collides desired step n (t + step) t
    else safe

/-- `calculateSafeOffset` (lines 983–1002). -/
def calculateSafeOffset (opts : LayoutOptions) (siblings : List Person)
    (desiredOffset : ℚ) (positions : NodeMap) (generation : ℤ) : ℚ :=
  let step : ℚ := if desiredOffset > 0 then 5 else -5
  safeGo (fun t => checkOffsetCollision opts siblings t positions generation)
    desiredOffset step ((|desiredOffset| / 5).ceil.toNat + 1) 0 0

/-! ## Sibling grouping (lines 1007–1024) -/

/-- `groupSiblings`: group a generation's persons by the string key
`` `${fatherId ?? ''}:${motherId ?? ''}` ``, returning the groups in
first-encounter order. -/
def groupSiblings (persons : List Person) : List (List Person) :=
  (persons.foldl
    (fun (parentMap : List (String × List Person)) person =>
      let parentKey := person.fatherId.getD "" ++ ":" ++ person.motherId.getD ""
      match sget parentMap parentKey with
      | none => sset parentMap parentKey [person]
      | some l => sset parentMap parentKey (l ++ [person]))
    []).map Prod.snd

/-! ## Parent/child centering passes (lines 775–933) -/

/-- Apply an x-offset to each listed sibling's node, where present
(lines 905–922 apply loops). -/
def applyOffset (siblings : List Person) (offset : ℚ) (positions : NodeMap) :
    NodeMap :=
  siblings.foldl
    (fun m s =>
      match mapGet m s.id with
      | some node => mapSet m { node with x := node.x + offset }
      | none => m)
    positions

/-- The per-person body of `adjustParentPositions` (lines 790–853), threading
the positions map and the `processedAsCouple` set. -/
def parentAdjustStep (opts : LayoutOptions) (ped : Pedigree)
    (pgen : List (String × ℤ)) (gen : ℤ) (acc : NodeMap × List String)
    (person : Person) : NodeMap × List String :=
  if person.id ∈ acc.2 then acc
  else if person.childrenIds.isEmpty then acc
  else
    match person.childrenIds.filterMap (mapGet acc.1) with
    | [] => acc
    | c0 :: crest =>
      let childXs := crest.map LayoutNode.x
      let childCenter := (childXs.foldl min c0.x + childXs.foldl max c0.x) / 2
      let spouse :=
        (person.spouseIds.filterMap ped.getPerson).find?
          (fun s =>
            sget pgen s.id = sget pgen person.id
              ∧ s.childrenIds.any (fun cid => cid ∈ person.childrenIds))
      match mapGet acc.1 person.id with
      | none => acc
      | some parentNode =>
        match spouse with
        | some sp =>
          match mapGet acc.1 sp.id with
          | none => (acc.1, sp.id :: acc.2)
          | some spouseNode =>
            let parentCenter := (parentNode.x + spouseNode.x) / 2
            let offset := childCenter - parentCenter
            let safeOffset := calculateSafeOffset opts [person, sp] offset acc.1 gen
            if |safeOffset| > 0 then
              (mapSet (mapSet acc.1 { parentNode with x := parentNode.x + safeOffset })
                { spouseNode with x := spouseNode.x + safeOffset }, sp.id :: acc.2)
            else if |offset| > 0 then
              (mapSet (mapSet acc.1 { parentNode with x := parentNode.x + offset })
                { spouseNode with x := spouseNode.x + offset }, sp.id :: acc.2)
            else (acc.1, sp.id :: acc.2)
        | none =>
          let offset := childCenter - parentNode.x
          let safeOffset := calculateSafeOffset opts [person] offset acc.1 gen
          if |safeOffset| > 0 then
            (mapSet acc.1 { parentNode with x := parentNode.x + safeOffset }, acc.2)
          else if |offset| > 0 then
            (mapSet acc.1 { parentNode with x := parentNode.x + offset }, acc.2)
          else (acc.1, acc.2)

/-- `adjustParentPositions` (lines 775–862): bottom generation to top,
center parents (or couples with shared children) over their children with a
collision-safe offset, falling back to the full offset when the safe offset
is zero; then up to 5 resolution iterations per generation. -/
def adjustParentPositions (opts : LayoutOptions)
    (generations : List (ℤ × List Person)) (positions : NodeMap)
    (ped : Pedigree) (pgen : List (String × ℤ)) : NodeMap :=
  let genKeys := (generations.map Prod.fst).insertionSort (fun a b => a ≤ b)
  genKeys.reverse.foldl
    (fun m gen =>
      let persons := (zget generations gen).getD []
      let m1 := (persons.foldl (parentAdjustStep opts ped pgen gen) (m, [])).1
      resLoop opts 5 m1 gen)
    positions

/-- The per-sibling-group body of `adjustChildrenPositions`
(lines 883–924). -/
def childAdjustGroup (opts : LayoutOptions) (gen : ℤ) (positions : NodeMap)
    (siblings : List Person) : NodeMap :=
  match siblings with
  | [] => positions
  | firstSibling :: _ =>
    match getParentCenterX firstSibling positions with
    | none => positions
    | some parentCenter =>
      match siblings.filterMap (fun s => mapGet positions s.id) with
      | [] => positions
      | sp0 :: sprest =>
        let currentCenter := (sp0.x + (sprest.getLastD sp0).x) / 2
        let offset := parentCenter - currentCenter
        if ¬ checkOffsetCollision opts siblings offset positions gen then
          applyOffset siblings offset positions
        else
          applyOffset siblings
            (calculateSafeOffset opts siblings offset positions gen) positions

/-- `adjustChildrenPositions` (lines 868–933): top to bottom, skipping the
first generation; center each sibling group under its parents' midpoint,
bounded by collision safety; then up to 5 resolution iterations per
generation. -/
def adjustChildrenPositions (opts : LayoutOptions)
    (generations : List (ℤ × List Person)) (positions : NodeMap) : NodeMap :=
  let genKeys := (generations.map Prod.fst).insertionSort (fun a b => a ≤ b)
  match genKeys with
  | [] => positions
  | _ :: restKeys =>
    restKeys.foldl
      (fun m gen =>
        let persons := (zget generations gen).getD []
        let m1 := (groupSiblings persons).foldl (childAdjustGroup opts gen) m
        resLoop opts 5 m1 gen)
      positions

/-! ## Global centering and the orchestrator (lines 433–486, 1271–1300) -/

/-- `centerLayout` (lines 1271–1300): translate all nodes so the horizontal
bounding box is centered on `x = 0` and the top row sits at `y = 50`. -/
def centerLayout (m : NodeMap) : NodeMap :=
  match m with
  | [] => []
  | n0 :: rest =>
    let minX := (rest.map LayoutNode.x).foldl min n0.x
    let maxX := (rest.map LayoutNode.x).foldl max n0.x
    let minY := (rest.map LayoutNode.y).foldl min n0.y
    let offsetX := -(minX + maxX) / 2
    let offsetY := -minY + 50
    (n0 :: rest).map (fun n => { n with x := n.x + offsetX, y := n.y + offsetY })

/-- `layout` (lines 433–486).  Returns the node map and the
`personGenerations` map written onto person records, or `none` when the
relaxation loops of `assignGenerations` never reach a fixed point (the
source hangs).  Note the source assigns `unit.minWidth` between building the
family units and sorting, but `minWidth` is never read afterwards, so that
mutation is omitted. -/
def layout (opts : LayoutOptions) (fuel : ℕ) (ped : Pedigree) :
    Option (NodeMap × List (String × ℤ)) :=
  if ped.persons.isEmpty then some ([], [])
  else
    match assignGenerations ped fuel with
    | none => none
    | some (generations, pgen) =>
      let familyUnits := buildFamilyUnits ped pgen
      let sharedPersons := findSharedPersons familyUnits
      let sortedGenerations :=
        sortGenerationsWithFamilyUnits generations ped familyUnits sharedPersons pgen
      let positions0 := calculatePositions opts sortedGenerations
      let positions1 := adjustParentPositions opts sortedGenerations positions0 ped pgen
      let positions2 := adjustChildrenPositions opts sortedGenerations positions1
      let genKeys := (generations.map Prod.fst).insertionSort (fun a b => a ≤ b)
      let positions3 := genKeys.foldl (fun m g => resLoop opts 10 m g) positions2
      some (centerLayout positions3, pgen)

/-! ## The mutable person records (`x`, `y`, `generation` writebacks) -/

/-- The application-owned state: person records (links plus derived fields)
and relationships. -/
structure PedigreeState where
  persons : List (Person × PersonDerived)
  relationships : List Relationship
deriving DecidableEq, Repr

/-- The derived-field writebacks of one layout run: `assignGenerations`
writes `person.generation` for every id in `personGenerations`
(lines 630–635), and every person's final `person.x`/`person.y` equal its
node's final coordinates (the last writes are `centerLayout`'s, lines
1296–1297, and every person has a node). -/
def writeback (st : PedigreeState) (nodes : NodeMap)
    (pgen : List (String × ℤ)) : PedigreeState :=
  { st with
    persons :=
      st.persons.map
        (fun pd =>
          (pd.1,
            { x := match mapGet nodes pd.1.id with
                   | some n => some n.x
                   | none => pd.2.x
              y := match mapGet nodes pd.1.id with
                   | some n => some n.y
                   | none => pd.2.y
              generation := match sget pgen pd.1.id with
                            | some g => some g
                            | none => pd.2.generation })) }

/-- One full `layout` call on the mutable state: run the engine on the link
fields (the engine reads only link fields and the generation values it wrote
itself earlier in the same run) and write the derived fields back. -/
def layoutRun (opts : LayoutOptions) (fuel : ℕ) (st : PedigreeState) :
    Option (NodeMap × PedigreeState) :=
  match layout opts fuel ⟨st.persons.map Prod.fst, st.relationships⟩ with
  | none => none
  | some (nodes, pgen) => some (nodes, writeback st nodes pgen)

/-! ## Basic association-list lemmas -/

theorem sget_sset_self {α : Type} (m : List (String × α)) (k : String) (v : α) :
    sget (sset m k v) k = some v := by
  induction m with
  | nil => simp [sget, sset]
  | cons e r ih =>
    by_cases h : e.1 = k
    · simp [sset, h, sget]
    · simp [sset, h, sget, ih]

theorem sget_sset_ne {α : Type} (m : List (String × α)) (k k' : String) (v : α)
    (h : k' ≠ k) : sget (sset m k v) k' = sget m k' := by
  induction m with
  | nil => simp [sget, sset, Ne.symm h]
  | cons e r ih =>
    by_cases he : e.1 = k
    · simp [sset, he, sget, Ne.symm h]
    · simp [sset, he, sget, ih]

/-! ## C2: cycles through `childrenIds`

Claim C2 says `layout` terminates on every pedigree, including circular
parent/child links.  The recursive `calculateMinGeneration` is indeed
guarded by a visited set, but the step-3 `while (changed)` loop of
`assignGenerations` (lines 584–610) has no iteration cap: when two persons
list each other in `childrenIds`, every pass raises one of the two minimum
generations, so the loop never reaches a fixed point and the source hangs.
The pedigree below is the witness: `a` and `b` are each other's children. -/

/-- Two persons listing each other in `childrenIds` (corrupted data of the
kind Scenario 5 of the spec describes). -/
def pedCyc : Pedigree :=
  { persons :=
      [{ id := "a", fatherId := none, motherId := none, spouseIds := [],
         childrenIds := ["b"] },
       { id := "b", fatherId := none, motherId := none, spouseIds := [],
         childrenIds := ["a"] }]
    relationships := [] }

/-- On `pedCyc`, every pass of the step-3 relaxation reports a change,
whatever the current minimum-generation map is. -/
theorem pass3_pedCyc_always_changed (mg : List (String × ℤ)) :
    (pass3 pedCyc.persons mg).2 = true := by
  have hab : ("a" : String) ≠ "b" := by decide
  rcases le_or_lt ((sget mg "b").getD 0) ((sget mg "a").getD 0) with h | h
  · simp [pass3, pass3Children, pass3Spouse, pedCyc, h,
      sget_sset_self, sget_sset_ne _ _ _ _ hab]
  · simp only [pass3, pass3Children, pass3Spouse, pedCyc, List.foldl]
    simp [not_le.mpr h, sget_sset_self, sget_sset_ne _ _ _ _ hab, h.le]

/-- The step-3 loop on `pedCyc` exhausts any amount of fuel. -/
theorem loop3_pedCyc_none (n : ℕ) (mg : List (String × ℤ)) :
    loop3 pedCyc.persons n mg = none := by
  induction n generalizing mg with
  | zero => rfl
  | succ n ih => simp [loop3, pass3_pedCyc_always_changed, ih]

/-- C2, refuted: on the circular-`childrenIds` pedigree `pedCyc`, `layout`
reaches a fixed point under no amount of fuel — the source's
`while (changed)` loop in `assignGenerations` step 3 never exits, so
`layout` hangs instead of terminating. -/
theorem layout_pedCyc_never_terminates :
    ¬ ∃ (n : ℕ) (r : NodeMap × List (String × ℤ)),
        layout DEFAULT_LAYOUT_OPTIONS n pedCyc = some r := by
  rintro ⟨n, r, h⟩
  have hassign : assignGenerations pedCyc n = none := by
    simp only [assignGenerations]
    cases hl2 : loop2 pedCyc.persons n (runCalcAll pedCyc) with
    | none => simp [hl2]
    | some mg2 => simp [hl2, loop3_pedCyc_none]
  have hnone : layout DEFAULT_LAYOUT_OPTIONS n pedCyc = none := by
    unfold layout
    rw [hassign]
    simp [pedCyc]
  rw [hnone] at h
  exact Option.noConfusion h

/-! ## C5: determinism and idempotence of `layout`

The engine writes `x`, `y`, `generation` back onto the shared person
records, but it never reads `x`/`y` from them, and it reads `generation`
only after `assignGenerations` has rewritten it for every person earlier in
the same run, so a second run on the updated records computes exactly the
same result. -/

/-- The writeback changes only derived fields: the link records are
untouched. -/
theorem writeback_links (st : PedigreeState) (nodes : NodeMap)
    (pgen : List (String × ℤ)) :
    (writeback st nodes pgen).persons.map Prod.fst = st.persons.map Prod.fst := by
  simp [writeback]

/-- Writing the same run's results back twice is the same as once. -/
theorem writeback_idem (st : PedigreeState) (nodes : NodeMap)
    (pgen : List (String × ℤ)) :
    writeback (writeback st nodes pgen) nodes pgen = writeback st nodes pgen := by
  simp only [writeback, List.map_map]
  congr 1
  apply List.map_congr_left
  intro pd _
  cases hx : mapGet nodes pd.1.id <;> cases hg : sget pgen pd.1.id <;>
    simp [Function.comp, hx, hg]

/-- C5: calling `layout` twice in succession on the same unchanged pedigree
is deterministic and idempotent — if the first call returns node map `out`
and leaves the person records in state `st'`, the second call returns the
same `out` (the same generation and the same `x`/`y` for every person) and
leaves the records unchanged, even though the first call wrote the derived
`x`/`y`/`generation` fields back onto them. -/
theorem layout_idempotent (opts : LayoutOptions) (fuel : ℕ)
    (st : PedigreeState) (out : NodeMap) (st' : PedigreeState)
    (h : layoutRun opts fuel st = some (out, st')) :
    layoutRun opts fuel st' = some (out, st') := by
  unfold layoutRun at h ⊢
  cases hl : layout opts fuel ⟨st.persons.map Prod.fst, st.relationships⟩ with
  | none => rw [hl] at h; exact Option.noConfusion h
  | some r =>
    obtain ⟨nodes, pgen⟩ := r
    rw [hl] at h
    injection h with h'
    have hout : out = nodes := (congrArg Prod.fst h').symm
    have hst' : st' = writeback st nodes pgen := (congrArg Prod.snd h').symm
    have hsame :
        (Pedigree.mk (st'.persons.map Prod.fst) st'.relationships) =
          Pedigree.mk (st.persons.map Prod.fst) st.relationships := by
      rw [hst']
      exact congrArg₂ Pedigree.mk (writeback_links st nodes pgen) rfl
    rw [hsame, hl]
    show some (nodes, writeback st' nodes pgen) = some (out, st')
    rw [hst', hout, writeback_idem]

/-- A concrete founder couple for the C5 witness. -/
def stCouple : PedigreeState :=
  { persons :=
      [({ id := "A", fatherId := none, motherId := none, spouseIds := ["B"],
          childrenIds := [] }, { x := none, y := none, generation := none }),
       ({ id := "B", fatherId := none, motherId := none, spouseIds := ["A"],
          childrenIds := [] }, { x := none, y := none, generation := none })]
    relationships := [] }

/-- The result of one `layout` run on `stCouple`. -/
def runCouple : NodeMap × PedigreeState :=
  (layoutRun DEFAULT_LAYOUT_OPTIONS 6 stCouple).getD ([], stCouple)

/-- Witness for C5 at the concrete couple pedigree. -/
theorem layout_idempotent_witness :
    layoutRun DEFAULT_LAYOUT_OPTIONS 6 runCouple.2 =
      some (runCouple.1, runCouple.2) :=
  layout_idempotent DEFAULT_LAYOUT_OPTIONS 6 stCouple runCouple.1 runCouple.2
    (by with_unfolding_all rfl)

/-! ## C9: dangling parent references

The claim says a dangling `fatherId` is skipped, i.e. treated like a `null`
father for generation assignment.  In the source, `calculateMinGeneration`
recurses into the missing id, the recursive call returns `0` (the
`if (!person) return 0` branch), and the caller still applies the `+ 1`:
`minGen = max(minGen, fatherMin + 1) ≥ 1`.  A dangling father therefore acts
as a generation-0 phantom parent, not as an absent one. -/

theorem sget_sset_isSome {α : Type} (m : List (String × α)) (k t : String)
    (v : α) (h : (sget m t).isSome) : (sget (sset m k v) t).isSome := by
  by_cases ht : t = k
  · subst ht; simp [sget_sset_self]
  · rwa [sget_sset_ne m k t v ht]

/-- In step 1, a key with no person record is never written: all writes of
`calculateMinGeneration` target ids whose person lookup succeeded. -/
theorem calcMinGen_preserves_no_entry (ped : Pedigree) (q : String)
    (h3 : ped.getPerson q = none) :
    ∀ (fuel : ℕ) (pid : String) (vis : List String) (mg : List (String × ℤ)),
      sget mg q = none → sget (calcMinGen ped fuel pid vis mg).2.2 q = none := by
  intro fuel
  induction fuel with
  | zero => intro pid vis mg h; simpa [calcMinGen] using h
  | succ n ih =>
    intro pid vis mg h
    by_cases hv : pid ∈ vis
    · simpa [calcMinGen, hv] using h
    · have hpq : ∀ person, ped.getPerson pid = some person → pid ≠ q := by
        intro person hp heq; rw [heq, h3] at hp; exact Option.noConfusion hp
      cases hp : ped.getPerson pid with
      | none => simpa [calcMinGen, hv, hp] using h
      | some person =>
        cases hf : person.fatherId with
        | none =>
          cases hm : person.motherId with
          | none =>
            simp [calcMinGen, hv, hp, hf, hm,
              sget_sset_ne _ _ _ _ (Ne.symm (hpq person hp)), h]
          | some mid =>
            simp only [calcMinGen, hv, if_false, hp, hf, hm]
            rw [sget_sset_ne _ _ _ _ (Ne.symm (hpq person hp))]
            exact ih mid _ mg h
        | some fid =>
          cases hm : person.motherId with
          | none =>
            simp only [calcMinGen, hv, if_false, hp, hf, hm]
            rw [sget_sset_ne _ _ _ _ (Ne.symm (hpq person hp))]
            exact ih fid _ mg h
          | some mid =>
            simp only [calcMinGen, hv, if_false, hp, hf, hm]
            rw [sget_sset_ne _ _ _ _ (Ne.symm (hpq person hp))]
            exact ih mid _ _ (ih fid _ mg h)

/-- A `calculateMinGeneration` call on an id with no person record returns
value `0` and leaves the map unchanged. -/
theorem calcMinGen_missing (ped : Pedigree) (q : String)
    (h3 : ped.getPerson q = none) (fuel : ℕ) (vis : List String)
    (mg : List (String × ℤ)) (h : sget mg q = none) :
    (calcMinGen ped fuel q vis mg).1 = 0
      ∧ (calcMinGen ped fuel q vis mg).2.2 = mg := by
  cases fuel with
  | zero => simp [calcMinGen, h]
  | succ n =>
    by_cases hv : q ∈ vis
    · simp [calcMinGen, hv, h]
    · simp [calcMinGen, hv, h3]

/-- Any value `calculateMinGeneration` stores under the id of a person whose
`fatherId` dangles is at least `1`: the phantom father contributes
`0 + 1`. -/
theorem calcMinGen_dangling_ge_one (ped : Pedigree) (tid : String) (tp : Person)
    (q : String) (h1 : ped.getPerson tid = some tp) (h2 : tp.fatherId = some q)
    (h3 : ped.getPerson q = none) :
    ∀ (fuel : ℕ) (pid : String) (vis : List String) (mg : List (String × ℤ)),
      sget mg q = none → (∀ v, sget mg tid = some v → 1 ≤ v) →
      ∀ v, sget (calcMinGen ped fuel pid vis mg).2.2 tid = some v → 1 ≤ v := by
  intro fuel
  induction fuel with
  | zero => intro pid vis mg hq htid v hv; exact htid v (by simpa [calcMinGen] using hv)
  | succ n ih =>
    intro pid vis mg hq htid v hv
    by_cases hvis : pid ∈ vis
    · exact htid v (by simpa [calcMinGen, hvis] using hv)
    · cases hp : ped.getPerson pid with
      | none => exact htid v (by simpa [calcMinGen, hvis, hp] using hv)
      | some person =>
        by_cases hpid : pid = tid
        · -- the final write targets `tid` itself; its value includes the
          -- dangling father's `0 + 1` contribution
          subst hpid
          have hperson : person = tp := by
            rw [h1] at hp; exact (Option.some.injEq _ _ ▸ hp.symm : _)
          subst hperson
          rcases calcMinGen_missing ped q h3 n (pid :: vis) mg hq with ⟨hq1, hq2⟩
          cases hm : person.motherId with
          | none =>
            simp only [calcMinGen, hvis, if_false, hp, h2, hm, hq1, hq2] at hv
            rw [sget_sset_self] at hv
            obtain rfl := Option.some.inj hv
            simp
          | some mid =>
            simp only [calcMinGen, hvis, if_false, hp, h2, hm, hq1, hq2] at hv
            rw [sget_sset_self] at hv
            obtain rfl := Option.some.inj hv
            have h01 : (1 : ℤ) ≤ max 0 (0 + 1) := by simp
            exact le_trans h01 (le_max_left _ _)
        · -- the final write targets some other id; recursive calls preserve
          -- the invariant
          cases hf : person.fatherId with
          | none =>
            cases hm : person.motherId with
            | none =>
              simp only [calcMinGen, hvis, if_false, hp, hf, hm] at hv
              rw [sget_sset_ne _ _ _ _ (Ne.symm hpid)] at hv
              exact htid v hv
            | some mid =>
              simp only [calcMinGen, hvis, if_false, hp, hf, hm] at hv
              rw [sget_sset_ne _ _ _ _ (Ne.symm hpid)] at hv
              exact ih mid _ mg hq htid v hv
          | some fid =>
            cases hm : person.motherId with
            | none =>
              simp only [calcMinGen, hvis, if_false, hp, hf, hm] at hv
              rw [sget_sset_ne _ _ _ _ (Ne.symm hpid)] at hv
              exact ih fid _ mg hq htid v hv
            | some mid =>
              simp only [calcMinGen, hvis, if_false, hp, hf, hm] at hv
              rw [sget_sset_ne _ _ _ _ (Ne.symm hpid)] at hv
              exact ih mid _ _
                (calcMinGen_preserves_no_entry ped q h3 n fid _ mg hq)
                (ih fid _ mg hq htid) v hv

/-- Step 1 never deletes an entry. -/
theorem calcMinGen_preserves_isSome (ped : Pedigree) (tid : String) :
    ∀ (fuel : ℕ) (pid : String) (vis : List String) (mg : List (String × ℤ)),
      (sget mg tid).isSome → (sget (calcMinGen ped fuel pid vis mg).2.2 tid).isSome := by
  intro fuel
  induction fuel with
  | zero => intro pid vis mg h; simpa [calcMinGen] using h
  | succ n ih =>
    intro pid vis mg h
    by_cases hvis : pid ∈ vis
    · simpa [calcMinGen, hvis] using h
    · cases hp : ped.getPerson pid with
      | none => simpa [calcMinGen, hvis, hp] using h
      | some person =>
        cases hf : person.fatherId with
        | none =>
          cases hm : person.motherId with
          | none =>
            simp only [calcMinGen, hvis, if_false, hp, hf, hm]
            exact sget_sset_isSome _ _ _ _ h
          | some mid =>
            simp only [calcMinGen, hvis, if_false, hp, hf, hm]
            exact sget_sset_isSome _ _ _ _ (ih mid _ mg h)
        | some fid =>
          cases hm : person.motherId with
          | none =>
            simp only [calcMinGen, hvis, if_false, hp, hf, hm]
            exact sget_sset_isSome _ _ _ _ (ih fid _ mg h)
          | some mid =>
            simp only [calcMinGen, hvis, if_false, hp, hf, hm]
            exact sget_sset_isSome _ _ _ _ (ih mid _ _ (ih fid _ mg h))

/-- A top-level `calculateMinGeneration` call on a person with a dangling
father stores an entry for that person. -/
theorem calcMinGen_dangling_writes (ped : Pedigree) (tid : String) (tp : Person)
    (q : String) (h1 : ped.getPerson tid = some tp) (h2 : tp.fatherId = some q)
    (h3 : ped.getPerson q = none) (n : ℕ) (vis : List String)
    (mg : List (String × ℤ)) (hvis : tid ∉ vis) (hq : sget mg q = none) :
    (sget (calcMinGen ped (n + 1) tid vis mg).2.2 tid).isSome := by
  rcases calcMinGen_missing ped q h3 n (tid :: vis) mg hq with ⟨hq1, hq2⟩
  cases hm : tp.motherId with
  | none =>
    simp [calcMinGen, hvis, h1, h2, hm, hq1, hq2, sget_sset_self]
  | some mid =>
    simp [calcMinGen, hvis, h1, h2, hm, hq1, hq2, sget_sset_self]

/-- C9, amended: a dangling `fatherId` is not skipped.  After step 1 of
`assignGenerations`, a person whose `fatherId` references an id with no
person record has minimum generation at least `1`: the missing parent is
treated as a generation-0 phantom (`calculateMinGeneration` returns `0` for
the missing id and the caller adds `1`), unlike a `null` father, which
imposes no constraint.  The pass tolerates the dangling reference without
failing, but the resulting generation can differ from the null-father
one. -/
theorem dangling_father_floor (ped : Pedigree) (tid : String) (tp : Person)
    (q : String) (h1 : ped.getPerson tid = some tp) (h2 : tp.fatherId = some q)
    (h3 : ped.getPerson q = none) :
    ∃ v, sget (runCalcAll ped) tid = some v ∧ 1 ≤ v := by
  have hmem : tp ∈ ped.persons ∧ tp.id = tid := by
    constructor
    · exact List.mem_of_find?_eq_some h1
    · have := List.find?_some h1
      simpa using this
  -- fold over the persons: before the target person's own top-level call we
  -- maintain the invariants; its call writes a value ≥ 1; afterwards every
  -- rewrite keeps the value ≥ 1 and the entry present
  have main :
      ∀ (l : List Person) (mg : List (String × ℤ)),
        sget mg q = none → (∀ v, sget mg tid = some v → 1 ≤ v) →
        ((∃ p ∈ l, p.id = tid) ∨ (sget mg tid).isSome) →
        ∃ v,
          sget (l.foldl
            (fun mg p => (calcMinGen ped (ped.persons.length + 1) p.id [] mg).2.2)
            mg) tid = some v ∧ 1 ≤ v := by
    intro l
    induction l with
    | nil =>
      intro mg hq htid hsome
      rcases hsome with ⟨p, hp, _⟩ | hsome
      · exact absurd hp (List.not_mem_nil p)
      · rcases Option.isSome_iff_exists.mp hsome with ⟨v, hv⟩
        exact ⟨v, by simpa using hv, htid v hv⟩
    | cons p r ih =>
      intro mg hq htid hsome
      have hq' := calcMinGen_preserves_no_entry ped q h3
        (ped.persons.length + 1) p.id [] mg hq
      have htid' := calcMinGen_dangling_ge_one ped tid tp q h1 h2 h3
        (ped.persons.length + 1) p.id [] mg hq htid
      by_cases hpt : p.id = tid
      · have hwrites :
            (sget (calcMinGen ped (ped.persons.length + 1) p.id [] mg).2.2
              tid).isSome := by
          rw [hpt]
          exact calcMinGen_dangling_writes ped tid tp q h1 h2 h3
            ped.persons.length [] mg (List.not_mem_nil tid) hq
        exact ih _ hq' htid' (Or.inr hwrites)
      · rcases hsome with ⟨p', hp', hp't⟩ | hsome
        · rcases List.mem_cons.mp hp' with rfl | hp'r
          · exact absurd hp't hpt
          · exact ih _ hq' htid' (Or.inl ⟨p', hp'r, hp't⟩)
        · exact ih _ hq' htid'
            (Or.inr (calcMinGen_preserves_isSome ped tid
              (ped.persons.length + 1) p.id [] mg hsome))
  exact main ped.persons [] rfl (by intro v hv; cases hv) (Or.inl ⟨tp, hmem.1, hmem.2⟩)

/-- A person with a dangling `fatherId` plus an unrelated founder. -/
def pedDanglingFather : Pedigree :=
  { persons :=
      [{ id := "A", fatherId := some "ghost", motherId := none, spouseIds := [],
         childrenIds := [] },
       { id := "B", fatherId := none, motherId := none, spouseIds := [],
         childrenIds := [] }]
    relationships := [] }

/-- The same pedigree with the dangling reference nulled out. -/
def pedNullFather : Pedigree :=
  { persons :=
      [{ id := "A", fatherId := none, motherId := none, spouseIds := [],
         childrenIds := [] },
       { id := "B", fatherId := none, motherId := none, spouseIds := [],
         childrenIds := [] }]
    relationships := [] }

/-- C9, refuted at a concrete input: with the dangling father, person `A`
ends at generation 1; with the reference nulled out, at generation 0 — the
dangling link is not treated like a null one. -/
theorem dangling_father_not_like_null :
    (layout DEFAULT_LAYOUT_OPTIONS 6 pedDanglingFather).map
        (fun r => sget r.2 "A") = some (some 1)
      ∧ (layout DEFAULT_LAYOUT_OPTIONS 6 pedNullFather).map
          (fun r => sget r.2 "A") = some (some 0)
      ∧ ¬ ((layout DEFAULT_LAYOUT_OPTIONS 6 pedDanglingFather).map
            (fun r => sget r.2 "A")
          = (layout DEFAULT_LAYOUT_OPTIONS 6 pedNullFather).map
              (fun r => sget r.2 "A")) := by
  refine ⟨by with_unfolding_all rfl, by with_unfolding_all rfl, ?_⟩
  intro h
  rw [show (layout DEFAULT_LAYOUT_OPTIONS 6 pedDanglingFather).map
        (fun r => sget r.2 "A") = some (some 1) from by with_unfolding_all rfl,
      show (layout DEFAULT_LAYOUT_OPTIONS 6 pedNullFather).map
        (fun r => sget r.2 "A") = some (some 0) from by with_unfolding_all rfl] at h
  exact absurd (Option.some.inj h) (by decide)

/-- Witness for the amended C9 statement on `pedDanglingFather`. -/
theorem dangling_father_floor_witness :
    ∃ v, sget (runCalcAll pedDanglingFather) "A" = some v ∧ 1 ≤ v :=
  dangling_father_floor pedDanglingFather "A"
    { id := "A", fatherId := some "ghost", motherId := none, spouseIds := [],
      childrenIds := [] } "ghost" (by with_unfolding_all rfl) rfl
    (by with_unfolding_all rfl)

/-! ## C8: the parent-centering shift and the safe-offset search

The safe-offset search itself is safe: its result is `0` or a probed offset
that does not collide, and its magnitude never exceeds the desired shift.
But `adjustParentPositions` (lines 828–839, 844–851) falls back to applying
the **full** desired offset whenever the safe search returns `0`, so the
claim that the applied shift never exceeds the collision-safe offset is
false. -/

/-- Invariant of the probe loop: the accumulated safe offset is `0` or a
non-colliding probed offset, and its magnitude is bounded by the desired
offset. -/
theorem safeGo_invariant (collides : ℚ → Bool) (desired step : ℚ) :
    ∀ (n : ℕ) (t safe : ℚ),
      (safe = 0 ∨ collides safe = false) → |safe| ≤ |desired| →
      ((safeGo collides desired step n t safe = 0
          ∨ collides (safeGo collides desired step n t safe) = false)
        ∧ |safeGo collides desired step n t safe| ≤ |desired|) := by
  intro n
  induction n with
  | zero => intro t safe h1 h2; exact ⟨h1, h2⟩
  | succ n ih =>
    intro t safe h1 h2
    by_cases ht : |t| < |desired|
    · by_cases hc : collides t
      · simpa [safeGo, ht, hc] using And.intro h1 h2
      · simpa [safeGo, ht, hc] using
          ih (t + step) t (Or.inr (by simpa using hc)) (le_of_lt ht)
    · simpa [safeGo, ht] using And.intro h1 h2

/-- C8, amended, first half: `calculateSafeOffset` returns `0` or an offset
verified by `checkOffsetCollision` not to collide, and never one larger in
magnitude than the desired offset. -/
theorem calculateSafeOffset_safe (opts : LayoutOptions) (siblings : List Person)
    (desiredOffset : ℚ) (positions : NodeMap) (generation : ℤ) :
    (calculateSafeOffset opts siblings desiredOffset positions generation = 0
        ∨ checkOffsetCollision opts siblings
            (calculateSafeOffset opts siblings desiredOffset positions generation)
            positions generation = false)
      ∧ |calculateSafeOffset opts siblings desiredOffset positions generation|
          ≤ |desiredOffset| := by
  unfold calculateSafeOffset
  exact safeGo_invariant _ desiredOffset _ _ 0 0 (Or.inl rfl) (by simp)

/-- The C8 pedigree: parent `P` with a far-away child `C`; neighbour `Q`
blocks every probed offset ≥ 5 in `P`'s generation, so the safe search
returns 0 and the fallback applies the full shift. -/
def pedC8 : Pedigree :=
  { persons :=
      [{ id := "P", fatherId := none, motherId := none, spouseIds := [],
         childrenIds := ["C"] },
       { id := "Q", fatherId := none, motherId := none, spouseIds := [],
         childrenIds := ["D", "E"] },
       { id := "D", fatherId := none, motherId := none, spouseIds := [],
         childrenIds := [] },
       { id := "E", fatherId := none, motherId := none, spouseIds := [],
         childrenIds := [] },
       { id := "C", fatherId := none, motherId := none, spouseIds := [],
         childrenIds := [] }], relationships := [] }

/-- The generation assignment of `pedC8` (the step the pipeline feeds into
the centering passes). -/
def agC8 : List (ℤ × List Person) × List (String × ℤ) :=
  (assignGenerations pedC8 6).getD ([], [])

/-- The family units of `pedC8`. -/
def fuC8 : List FamilyUnit := buildFamilyUnits pedC8 agC8.2

/-- The sorted generations of `pedC8`. -/
def sortedC8 : List (ℤ × List Person) :=
  sortGenerationsWithFamilyUnits agC8.1 pedC8 fuC8 (findSharedPersons fuC8) agC8.2

/-- The initial positions of `pedC8` (pipeline step 4). -/
def posC8 : NodeMap := calculatePositions DEFAULT_LAYOUT_OPTIONS sortedC8

/-- The person record of `P`. -/
def personP : Person :=
  { id := "P", fatherId := none, motherId := none, spouseIds := [],
    childrenIds := ["C"] }

/-- C8, refuted at a concrete input: before the parent-centering pass `P`
sits at `x = 0` and its only child `C` at `x = 160`, so the desired shift is
`160`; the collision-safe offset at that state is `0` (every probe ≥ 5 runs
into `Q`), yet after `adjustParentPositions` the node of `P` sits at
`x = 160` — the full desired shift was applied even though the safe search
stopped short of it, i.e. the applied shift exceeds the collision-safe
offset. -/
theorem parent_centering_applies_unsafe_full_shift :
    (mapGet posC8 "P").map LayoutNode.x = some 0
      ∧ (mapGet posC8 "C").map LayoutNode.x = some 160
      ∧ calculateSafeOffset DEFAULT_LAYOUT_OPTIONS [personP] 160 posC8 0 = 0
      ∧ (mapGet (adjustParentPositions DEFAULT_LAYOUT_OPTIONS sortedC8 posC8
            pedC8 agC8.2) "P").map LayoutNode.x = some 160 := by
  refine ⟨?_, ?_, ?_, ?_⟩ <;> with_unfolding_all rfl

/-! ## Core facts about `resolveCollisions` (used by C6 and C1)

One pass of the cascade leaves every adjacent pair of the generation's
sorted row at least its minimum required gap apart, so a single
`resolveCollisions` already makes `detectCollisions` false. -/

/-- The node's map key. -/
def nodePid (n : LayoutNode) : String := n.person.id

/-- Two nodes equal except possibly in `x` (the only field the cascade
changes). -/
def sameButX (a b : LayoutNode) : Prop :=
  b.person = a.person ∧ b.y = a.y ∧ b.generation = a.generation ∧ b.order = a.order

theorem sameButX_refl (a : LayoutNode) : sameButX a a := ⟨rfl, rfl, rfl, rfl⟩

theorem sameButX_trans {a b c : LayoutNode} (h1 : sameButX a b)
    (h2 : sameButX b c) : sameButX a c :=
  ⟨h2.1.trans h1.1, h2.2.1.trans h1.2.1, h2.2.2.1.trans h1.2.2.1,
    h2.2.2.2.trans h1.2.2.2⟩

theorem sameButX_shift (l : List LayoutNode) (s : ℚ) :
    List.Forall₂ sameButX l (l.map (fun n => { n with x := n.x + s })) := by
  induction l with
  | nil => simp
  | cons a r ih => exact List.Forall₂.cons (sameButX_refl _) ih

theorem forall₂_sameButX_trans {l₁ l₂ l₃ : List LayoutNode}
    (h1 : List.Forall₂ sameButX l₁ l₂) (h2 : List.Forall₂ sameButX l₂ l₃) :
    List.Forall₂ sameButX l₁ l₃ := by
  induction h1 generalizing l₃ with
  | nil => cases h2; exact List.Forall₂.nil
  | cons hab h ih =>
    cases h2 with
    | cons hbc h' => exact List.Forall₂.cons (sameButX_trans hab hbc) (ih h')

/-- `minDist` only looks at the persons, so it is invariant under coordinate
changes. -/
theorem minDist_person_congr (opts : LayoutOptions) {a a' b b' : LayoutNode}
    (ha : a'.person = a.person) (hb : b'.person = b.person) :
    minDist opts a' b' = minDist opts a b := by
  unfold minDist areSpouses
  simp only [ha, hb]

/-- `minDist` is invariant under `x` changes. -/
theorem minDist_congr (opts : LayoutOptions) {a a' b b' : LayoutNode}
    (ha : sameButX a a') (hb : sameButX b b') :
    minDist opts a' b' = minDist opts a b :=
  minDist_person_congr opts ha.1 hb.1

/-- The cascade never changes the head node. -/
theorem resolveGoAux_head (opts : LayoutOptions) (n : ℕ) (l : List LayoutNode) :
    (resolveGoAux opts n l).head? = l.head? := by
  cases n with
  | zero => rfl
  | succ n =>
    match l with
    | [] => rfl
    | [a] => rfl
    | a :: b :: rest =>
      by_cases h : b.x - a.x < minDist opts a b <;> simp [resolveGoAux, h]

/-- The cascade changes only `x` values. -/
theorem resolveGoAux_shape (opts : LayoutOptions) :
    ∀ (n : ℕ) (l : List LayoutNode),
      List.Forall₂ sameButX l (resolveGoAux opts n l) := by
  intro n
  induction n with
  | zero => intro l; exact List.forall₂_same.mpr (fun a _ => sameButX_refl a)
  | succ n ih =>
    intro l
    match l with
    | [] => exact List.Forall₂.nil
    | [a] => exact List.Forall₂.cons (sameButX_refl a) List.Forall₂.nil
    | a :: b :: rest =>
      by_cases h : b.x - a.x < minDist opts a b
      · simp only [resolveGoAux, h, if_true]
        refine List.Forall₂.cons (sameButX_refl a) ?_
        refine forall₂_sameButX_trans
          (show List.Forall₂ sameButX (b :: rest)
              ({ b with x := b.x + (minDist opts a b - (b.x - a.x)) } ::
                rest.map (fun nd =>
                  { nd with x := nd.x + (minDist opts a b - (b.x - a.x)) })) from
            List.Forall₂.cons ⟨rfl, rfl, rfl, rfl⟩ (sameButX_shift rest _)) (ih _)
      · simp only [resolveGoAux, h, if_false]
        exact List.Forall₂.cons (sameButX_refl a) (ih _)

/-- Adjacent-gap soundness on a row: every adjacent pair is at least its
minimum distance apart. -/
def gapsOK (opts : LayoutOptions) : List LayoutNode → Prop
  | [] => True
  | [_] => True
  | a :: b :: rest => minDist opts a b ≤ b.x - a.x ∧ gapsOK opts (b :: rest)

/-- After the cascade, every adjacent pair respects its minimum gap. -/
theorem resolveGoAux_gaps (opts : LayoutOptions) :
    ∀ (n : ℕ) (l : List LayoutNode), l.length ≤ n →
      gapsOK opts (resolveGoAux opts n l) := by
  intro n
  induction n with
  | zero =>
    intro l hl
    have : l = [] := List.length_eq_zero.mp (Nat.le_zero.mp hl)
    subst this; trivial
  | succ n ih =>
    intro l hl
    match l with
    | [] => trivial
    | [a] => trivial
    | a :: b :: rest =>
      by_cases h : b.x - a.x < minDist opts a b
      · simp only [resolveGoAux, h, if_true]
        set b' : LayoutNode :=
          { b with x := b.x + (minDist opts a b - (b.x - a.x)) } with hb'
        set rest' := rest.map
          (fun nd => { nd with x := nd.x + (minDist opts a b - (b.x - a.x)) })
          with hrest'
        have hlen : (b' :: rest').length ≤ n := by
          simp only [hrest', List.length_cons, List.length_map] at hl ⊢
          omega
        have hgaps := ih (b' :: rest') hlen
        have hhead := resolveGoAux_head opts n (b' :: rest')
        match hre : resolveGoAux opts n (b' :: rest') with
        | [] => simp [hre] at hhead
        | c :: cs =>
          rw [hre] at hgaps
          have hc : c = b' := by
            rw [hre] at hhead; simpa using hhead
          subst hc
          refine ⟨?_, hgaps⟩
          have : minDist opts a b' = minDist opts a b :=
            minDist_congr opts (sameButX_refl a) ⟨rfl, rfl, rfl, rfl⟩
          rw [this, hb']
          simp only []
          linarith
      · simp only [resolveGoAux, h, if_false]
        have hlen : (b :: rest).length ≤ n := by
          simp only [List.length_cons] at hl ⊢; omega
        have hgaps := ih (b :: rest) hlen
        have hhead := resolveGoAux_head opts n (b :: rest)
        match hre : resolveGoAux opts n (b :: rest) with
        | [] => simp [hre] at hhead
        | c :: cs =>
          rw [hre] at hgaps
          have hc : c = b := by
            rw [hre] at hhead; simpa using hhead
          subst hc
          exact ⟨le_of_not_lt h, hgaps⟩

/-- A row whose adjacent gaps are all satisfied reports no collision. -/
theorem gapsOK_hasCollision_false (opts : LayoutOptions) :
    ∀ l : List LayoutNode, gapsOK opts l → hasCollision opts l = false := by
  intro l
  induction l with
  | nil => intro _; rfl
  | cons a r ih =>
    match r with
    | [] => intro _; rfl
    | b :: rest =>
      intro h
      have h1 : ¬ (b.x - a.x < minDist opts a b) := not_lt.mpr h.1
      simp [hasCollision, h1, ih h.2]

instance : IsTotal LayoutNode (fun a b => a.x ≤ b.x) := ⟨fun a b => le_total a.x b.x⟩

instance : IsTrans LayoutNode (fun a b => a.x ≤ b.x) := ⟨fun _ _ _ h1 h2 => le_trans h1 h2⟩

instance : IsTrans LayoutNode (fun a b => a.x < b.x) := ⟨fun _ _ _ h1 h2 => lt_trans h1 h2⟩

instance : IsAntisymm LayoutNode (fun a b => a.x < b.x) :=
  ⟨fun _ _ h1 h2 => absurd h2 (lt_asymm h1)⟩

theorem sortByX_perm (l : List LayoutNode) : List.Perm (sortByX l) l :=
  List.perm_insertionSort _ l

theorem sortByX_sorted (l : List LayoutNode) :
    (sortByX l).Sorted (fun a b => a.x ≤ b.x) :=
  List.sorted_insertionSort _ l

/-- With positive required gaps, a gap-sound row is strictly increasing
in `x`. -/
theorem gapsOK_strict (opts : LayoutOptions)
    (h1 : 0 < opts.nodeWidth + opts.horizontalSpacing)
    (h2 : 0 < opts.nodeWidth + opts.spouseSpacing) :
    ∀ l : List LayoutNode, gapsOK opts l →
      l.Sorted (fun a b => a.x < b.x) := by
  have hpos : ∀ a b : LayoutNode, 0 < minDist opts a b := by
    intro a b
    unfold minDist
    by_cases h : areSpouses a b <;> simp [h, h1, h2]
  have chain : ∀ l : List LayoutNode, gapsOK opts l →
      l.Chain' (fun a b => a.x < b.x) := by
    intro l
    induction l with
    | nil => intro _; exact List.chain'_nil
    | cons a r ih =>
      match r with
      | [] => intro _; simp
      | b :: rest =>
        intro h
        refine List.Chain'.cons ?_ (ih h.2)
        have := hpos a b
        have := h.1
        linarith
  intro l h
  exact List.chain'_iff_pairwise.mp (chain l h)

/-- The `x` values of a strictly increasing row have no duplicates. -/
theorem strict_nodup_x (l : List LayoutNode)
    (h : l.Sorted (fun a b => a.x < b.x)) : (l.map LayoutNode.x).Nodup := by
  have hp : (l.map LayoutNode.x).Pairwise (fun a b => a < b) :=
    List.pairwise_map.mpr h
  exact hp.imp ne_of_lt

/-- A `≤`-sorted row with pairwise distinct `x` values is strictly
sorted. -/
theorem sorted_le_nodup_strict (l : List LayoutNode)
    (hs : l.Sorted (fun a b => a.x ≤ b.x)) (hn : (l.map LayoutNode.x).Nodup) :
    l.Sorted (fun a b => a.x < b.x) := by
  have hne : l.Pairwise (fun a b => a.x ≠ b.x) := List.pairwise_map.mp hn
  exact (hs.and hne).imp (fun h => lt_of_le_of_ne h.1 h.2)

/-- A `≤`-sorted permutation of a strictly sorted row is that row. -/
theorem sorted_perm_of_strict_eq (S L : List LayoutNode) (hp : List.Perm S L)
    (hs : S.Sorted (fun a b => a.x ≤ b.x))
    (hl : L.Sorted (fun a b => a.x < b.x)) : S = L := by
  have hnL : (L.map LayoutNode.x).Nodup := strict_nodup_x L hl
  have hnS : (S.map LayoutNode.x).Nodup := (hp.map LayoutNode.x).nodup_iff.mpr hnL
  exact List.eq_of_perm_of_sorted hp (sorted_le_nodup_strict S hs hnS) hl

/-- Key uniqueness of a node map (guaranteed by JS `Map` semantics and by
construction through `mapSet`). -/
def keysND (m : NodeMap) : Prop := (m.map nodePid).Nodup

theorem forall₂_pid {l l' : List LayoutNode} (h : List.Forall₂ sameButX l l') :
    l'.map nodePid = l.map nodePid := by
  induction h with
  | nil => rfl
  | cons hab _ ih =>
    simp only [List.map_cons, ih, List.cons.injEq, and_true]
    exact congrArg Person.id hab.1

theorem forall₂_mem {R : LayoutNode → LayoutNode → Prop}
    {l l' : List LayoutNode} (h : List.Forall₂ R l l') :
    ∀ b ∈ l', ∃ a ∈ l, R a b := by
  induction h with
  | nil => intro b hb; exact absurd hb (List.not_mem_nil b)
  | cons hab _ ih =>
    intro b hb
    rcases List.mem_cons.mp hb with rfl | hb'
    · exact ⟨_, List.mem_cons_self _ _, hab⟩
    · rcases ih b hb' with ⟨a, ha, hr⟩
      exact ⟨a, List.mem_cons_of_mem _ ha, hr⟩

theorem mem_filterGen {m : NodeMap} {g : ℤ} {n : LayoutNode} :
    n ∈ filterGen m g ↔ n ∈ m ∧ n.generation = g := by
  unfold filterGen
  simp [List.mem_filter]

theorem filterGen_pid_nodup {m : NodeMap} (g : ℤ) (hnd : keysND m) :
    ((filterGen m g).map nodePid).Nodup :=
  ((List.filter_sublist m).map nodePid).nodup hnd

/-- Replacing every element of a row by its id-match in a `sameButX`-related
row with unique ids reproduces that row. -/
theorem map_replace_eq :
    ∀ (S L : List LayoutNode), List.Forall₂ sameButX S L →
      ((S.map nodePid).Nodup) →
      S.map (replaceById L) = L := by
  intro S L h
  induction h with
  | nil => intro _; rfl
  | cons hab htail ih =>
    rename_i a r S₁ L₁
    intro hnd
    have hpid : r.person.id = a.person.id := congrArg Person.id hab.1
    simp only [List.map_cons]
    have hhead : replaceById (r :: L₁) a = r := by
      unfold replaceById
      rw [List.find?_cons_of_pos _ (by simp [hpid])]
    rw [hhead]
    have hand : (a :: S₁).map nodePid = a.person.id :: S₁.map nodePid := rfl
    have hnotin : a.person.id ∉ S₁.map nodePid := by
      rw [hand] at hnd
      exact (List.nodup_cons.mp hnd).1
    have htaileq : S₁.map (replaceById (r :: L₁)) = S₁.map (replaceById L₁) := by
      apply List.map_congr_left
      intro b hb
      have hbne : ¬ (r.person.id = b.person.id) := by
        rw [hpid]
        intro hc
        exact hnotin (hc ▸ List.mem_map_of_mem nodePid hb)
      unfold replaceById
      rw [List.find?_cons_of_neg _ (by simpa using hbne)]
    rw [htaileq, ih (List.nodup_cons.mp ((hand ▸ hnd : _)) ).2]

theorem updateNodes_pid_map (m : NodeMap) (L : List LayoutNode) :
    (updateNodes m L).map nodePid = m.map nodePid := by
  unfold updateNodes
  rw [List.map_map]
  apply List.map_congr_left
  intro n _
  unfold replaceById Function.comp
  cases h : L.find? (fun r => r.person.id = n.person.id) with
  | none => simp [h, nodePid]
  | some r =>
    have := List.find?_some h
    simp only [decide_eq_true_eq] at this
    simp [h, nodePid, this]

/-- Everything `resolveCollisions` needs about the written-back row, bundled:
the resolved map's row of generation `g` is a permutation of the cascade
output, other generations are untouched, and ids and generations are
pointwise unchanged. -/
theorem resolveCollisions_spec (opts : LayoutOptions) (m : NodeMap) (g : ℤ)
    (hnd : keysND m) :
    List.Perm (filterGen (resolveCollisions opts m g) g)
        (resolveGo opts (sortByX (filterGen m g)))
      ∧ (∀ g', g' ≠ g → filterGen (resolveCollisions opts m g) g' = filterGen m g')
      ∧ (resolveCollisions opts m g).map nodePid = m.map nodePid := by
  set L := sortByX (filterGen m g) with hL
  set L' := resolveGo opts L with hL'
  have hnd' : (m.map nodePid).Nodup := hnd
  have hF : List.Forall₂ sameButX L L' := resolveGoAux_shape opts L.length L
  have hLperm : List.Perm L (filterGen m g) := sortByX_perm _
  have hLpid : (L.map nodePid).Nodup :=
    ((hLperm.map nodePid).nodup_iff).mpr (filterGen_pid_nodup g hnd)
  have hL'pid : L'.map nodePid = L.map nodePid := forall₂_pid hF
  have hgenL : ∀ r ∈ L, r.generation = g := by
    intro r hr
    exact (mem_filterGen.mp (hLperm.mem_iff.mp hr)).2
  have hgenL' : ∀ r ∈ L', r.generation = g := by
    intro r hr
    rcases forall₂_mem hF r hr with ⟨a, ha, hrel⟩
    rw [hrel.2.2.1]
    exact hgenL a ha
  have hfr_none : ∀ n ∈ m, n.generation ≠ g →
      L'.find? (fun r => r.person.id = n.person.id) = none := by
    intro n hn hng
    rw [List.find?_eq_none]
    intro r hr
    simp only [decide_eq_true_eq]
    intro hpid
    have hmem0 : nodePid r ∈ L'.map nodePid := List.mem_map_of_mem nodePid hr
    rw [show nodePid r = nodePid n from hpid] at hmem0
    rw [hL'pid] at hmem0
    have hmem1 : nodePid n ∈ (filterGen m g).map nodePid :=
      (hLperm.map nodePid).mem_iff.mp hmem0
    rcases List.mem_map.mp hmem1 with ⟨a, ha, hapid⟩
    have haeq : a = n :=
      List.inj_on_of_nodup_map hnd' (mem_filterGen.mp ha).1 hn hapid
    exact hng (haeq ▸ (mem_filterGen.mp ha).2)
  have hfr_gen : ∀ n ∈ m, (replaceById L' n).generation = n.generation := by
    intro n hn
    unfold replaceById
    cases h : L'.find? (fun r => r.person.id = n.person.id) with
    | none => rfl
    | some r =>
      by_cases hng : n.generation = g
      · show r.generation = n.generation
        rw [hgenL' r (List.mem_of_find?_eq_some h), hng]
      · rw [hfr_none n hn hng] at h
        exact Option.noConfusion h
  have hfr_id : ∀ n ∈ m, n.generation ≠ g → replaceById L' n = n := by
    intro n hn hng
    unfold replaceById
    rw [hfr_none n hn hng]
  have hupd : resolveCollisions opts m g = m.map (replaceById L') := rfl
  refine ⟨?_, ?_, ?_⟩
  · rw [hupd]
    simp only [filterGen]
    rw [List.filter_map]
    have hfc : (m.filter ((fun (n : LayoutNode) => decide (n.generation = g)) ∘
        replaceById L')) = filterGen m g := by
      apply List.filter_congr
      intro n hn
      simp only [Function.comp]
      rw [hfr_gen n hn]
    rw [hfc]
    have hrep : L.map (replaceById L') = L' := map_replace_eq L L' hF hLpid
    exact (hLperm.symm.map (replaceById L')).trans (by rw [hrep])
  · intro g' hg'
    rw [hupd]
    simp only [filterGen]
    rw [List.filter_map]
    have hfc : (m.filter ((fun (n : LayoutNode) => decide (n.generation = g')) ∘
        replaceById L')) = filterGen m g' := by
      apply List.filter_congr
      intro n hn
      simp only [Function.comp]
      rw [hfr_gen n hn]
    rw [hfc]
    show (filterGen m g').map (replaceById L') = filterGen m g'
    have hid : ∀ n ∈ filterGen m g', replaceById L' n = id n := by
      intro n hn
      rcases mem_filterGen.mp hn with ⟨hnm, hng⟩
      exact hfr_id n hnm (fun hc => hg' (hng.symm.trans hc))
    rw [List.map_congr_left hid, List.map_id]
  · exact updateNodes_pid_map m L'

/-- The cascade is the identity on a row whose gaps are already
satisfied. -/
theorem resolveGoAux_id (opts : LayoutOptions) :
    ∀ (n : ℕ) (l : List LayoutNode), gapsOK opts l →
      resolveGoAux opts n l = l := by
  intro n
  induction n with
  | zero => intro l _; rfl
  | succ n ih =>
    intro l hl
    match l with
    | [] => rfl
    | [a] => rfl
    | a :: b :: rest =>
      have hnot : ¬ (b.x - a.x < minDist opts a b) := not_lt.mpr hl.1
      simp only [resolveGoAux, hnot, if_false]
      rw [ih (b :: rest) hl.2]

/-- Finding a member of a duplicate-free row by its own id returns it. -/
theorem find?_pid_self :
    ∀ (L : List LayoutNode) (r : LayoutNode), r ∈ L →
      (L.map nodePid).Nodup →
      L.find? (fun x => x.person.id = r.person.id) = some r := by
  intro L
  induction L with
  | nil => intro r hr; exact absurd hr (List.not_mem_nil r)
  | cons h t ih =>
    intro r hr hnd
    rcases List.mem_cons.mp hr with rfl | hrt
    · exact List.find?_cons_of_pos _ (by simp)
    · have hne : h.person.id ≠ r.person.id := by
        intro hc
        have hmem : nodePid r ∈ t.map nodePid := List.mem_map_of_mem nodePid hrt
        rw [show nodePid r = nodePid h from hc.symm] at hmem
        exact (List.nodup_cons.mp hnd).1 hmem
      rw [List.find?_cons_of_neg _ (by simpa using hne)]
      exact ih r hrt (List.nodup_cons.mp hnd).2

/-- C6: a single `resolveCollisions` call on one generation already makes
`detectCollisions` false for that generation, and a second call changes
nothing. -/
theorem resolveCollisions_idempotent (opts : LayoutOptions) (m : NodeMap)
    (g : ℤ) (hnd : keysND m)
    (h1 : 0 < opts.nodeWidth + opts.horizontalSpacing)
    (h2 : 0 < opts.nodeWidth + opts.spouseSpacing) :
    detectCollisions opts (resolveCollisions opts m g) g = false
      ∧ resolveCollisions opts (resolveCollisions opts m g) g
          = resolveCollisions opts m g := by
  obtain ⟨hperm, _, hpid⟩ := resolveCollisions_spec opts m g hnd
  set L := sortByX (filterGen m g) with hLdef
  set L' := resolveGo opts L with hL'def
  set m' := resolveCollisions opts m g with hm'def
  have hF : List.Forall₂ sameButX L L' := resolveGoAux_shape opts L.length L
  have hLperm : List.Perm L (filterGen m g) := sortByX_perm _
  have hLpid : (L.map nodePid).Nodup :=
    ((hLperm.map nodePid).nodup_iff).mpr (filterGen_pid_nodup g hnd)
  have hL'pid : (L'.map nodePid).Nodup := by
    rw [forall₂_pid hF]; exact hLpid
  have hgaps : gapsOK opts L' := resolveGoAux_gaps opts L.length L (le_refl _)
  have hstrict := gapsOK_strict opts h1 h2 L' hgaps
  have hSL : sortByX (filterGen m' g) = L' :=
    sorted_perm_of_strict_eq _ L' ((sortByX_perm _).trans hperm)
      (sortByX_sorted _) hstrict
  constructor
  · show hasCollision opts (sortByX (filterGen m' g)) = false
    rw [hSL]
    exact gapsOK_hasCollision_false opts L' hgaps
  · show updateNodes m' (resolveGo opts (sortByX (filterGen m' g))) = m'
    rw [hSL, show resolveGo opts L' = L' from resolveGoAux_id opts L'.length L' hgaps]
    have hm'map : m' = m.map (replaceById L') := rfl
    show m'.map (replaceById L') = m'
    rw [hm'map, List.map_map]
    apply List.map_congr_left
    intro n hn
    simp only [Function.comp]
    cases hfind : L'.find? (fun r => r.person.id = n.person.id) with
    | none =>
      have : replaceById L' n = n := by unfold replaceById; rw [hfind]
      rw [this, this]
    | some r =>
      have hr : replaceById L' n = r := by unfold replaceById; rw [hfind]
      rw [hr]
      have hrmem : r ∈ L' := List.mem_of_find?_eq_some hfind
      unfold replaceById
      rw [find?_pid_self L' r hrmem hL'pid]
  -- (the second component also shows re-running resolution is a no-op)

/-- A concrete colliding generation for the C6 witness: two non-spouse
founders 10px apart (the required gap is 80). -/
def nodesC6 : NodeMap :=
  [{ person := { id := "A", fatherId := none, motherId := none,
                 spouseIds := [], childrenIds := [] },
     x := 0, y := 0, generation := 0, order := 0 },
   { person := { id := "B", fatherId := none, motherId := none,
                 spouseIds := [], childrenIds := [] },
     x := 10, y := 0, generation := 0, order := 1 }]

/-- Witness for C6 at a concrete colliding row. -/
theorem resolveCollisions_idempotent_witness :
    detectCollisions DEFAULT_LAYOUT_OPTIONS
        (resolveCollisions DEFAULT_LAYOUT_OPTIONS nodesC6 0) 0 = false
      ∧ resolveCollisions DEFAULT_LAYOUT_OPTIONS
          (resolveCollisions DEFAULT_LAYOUT_OPTIONS nodesC6 0) 0
        = resolveCollisions DEFAULT_LAYOUT_OPTIONS nodesC6 0 :=
  resolveCollisions_idempotent DEFAULT_LAYOUT_OPTIONS nodesC6 0
    (show (nodesC6.map nodePid).Nodup by decide)
    (by norm_num [DEFAULT_LAYOUT_OPTIONS])
    (by norm_num [DEFAULT_LAYOUT_OPTIONS])

/-! ## `centerLayout` preserves collision-freedom (C1, step 8) -/

/-- The uniform translation `centerLayout` applies to every node. -/
def shiftNode (ox oy : ℚ) (n : LayoutNode) : LayoutNode :=
  { n with x := n.x + ox, y := n.y + oy }

theorem centerLayout_eq_map (m : NodeMap) :
    ∃ ox oy, centerLayout m = m.map (shiftNode ox oy) := by
  match m with
  | [] => exact ⟨0, 0, rfl⟩
  | n0 :: rest =>
    refine ⟨-(((rest.map LayoutNode.x).foldl min n0.x)
        + ((rest.map LayoutNode.x).foldl max n0.x)) / 2,
      -((rest.map LayoutNode.y).foldl min n0.y) + 50, ?_⟩
    rfl

theorem orderedInsert_shift (ox oy : ℚ) (a : LayoutNode) :
    ∀ l : List LayoutNode,
      (l.map (shiftNode ox oy)).orderedInsert (fun p q => p.x ≤ q.x)
          (shiftNode ox oy a)
        = (l.orderedInsert (fun p q => p.x ≤ q.x) a).map (shiftNode ox oy) := by
  intro l
  induction l with
  | nil => rfl
  | cons b t ih =>
    by_cases h : a.x ≤ b.x
    · have h' : (shiftNode ox oy a).x ≤ (shiftNode ox oy b).x := by
        simp only [shiftNode]
        exact add_le_add_right h ox
      simp [List.orderedInsert, h, h']
    · have h' : ¬ (shiftNode ox oy a).x ≤ (shiftNode ox oy b).x := by
        simp only [shiftNode]
        intro hc
        exact h (le_of_add_le_add_right hc)
      simp [List.orderedInsert, h, h', ih]

theorem sortByX_shift (ox oy : ℚ) :
    ∀ l : List LayoutNode,
      sortByX (l.map (shiftNode ox oy)) = (sortByX l).map (shiftNode ox oy) := by
  intro l
  induction l with
  | nil => rfl
  | cons a t ih =>
    have hstep : sortByX ((a :: t).map (shiftNode ox oy))
        = (sortByX (t.map (shiftNode ox oy))).orderedInsert
            (fun p q => p.x ≤ q.x) (shiftNode ox oy a) := rfl
    rw [hstep, ih, orderedInsert_shift]
    rfl

theorem hasCollision_shift (opts : LayoutOptions) (ox oy : ℚ) :
    ∀ l : List LayoutNode,
      hasCollision opts (l.map (shiftNode ox oy)) = hasCollision opts l := by
  intro l
  induction l with
  | nil => rfl
  | cons a t ih =>
    match t with
    | [] => rfl
    | b :: rest =>
      have hgap : (shiftNode ox oy b).x - (shiftNode ox oy a).x = b.x - a.x := by
        simp only [shiftNode]
        ring
      have hstep : hasCollision opts ((a :: b :: rest).map (shiftNode ox oy))
          = ((decide ((shiftNode ox oy b).x - (shiftNode ox oy a).x
              < minDist opts (shiftNode ox oy a) (shiftNode ox oy b)))
            || hasCollision opts ((b :: rest).map (shiftNode ox oy))) := rfl
      rw [hstep, hgap,
        minDist_person_congr opts (show (shiftNode ox oy a).person = a.person from rfl)
          (show (shiftNode ox oy b).person = b.person from rfl), ih]
      rfl

theorem filterGen_map_shift (ox oy : ℚ) (m : NodeMap) (g : ℤ) :
    filterGen (m.map (shiftNode ox oy)) g = (filterGen m g).map (shiftNode ox oy) := by
  unfold filterGen
  rw [List.filter_map]
  congr 1

/-- Global centering neither creates nor hides collisions. -/
theorem detect_centerLayout (opts : LayoutOptions) (m : NodeMap) (g : ℤ) :
    detectCollisions opts (centerLayout m) g = detectCollisions opts m g := by
  rcases centerLayout_eq_map m with ⟨ox, oy, hc⟩
  rw [hc]
  unfold detectCollisions
  rw [filterGen_map_shift, sortByX_shift, hasCollision_shift]

/-! ## Invariants threaded through the position-adjusting passes -/

/-- The second map has the same keys, in the same order, as the first. -/
def sameKeys (m m' : NodeMap) : Prop := m'.map nodePid = m.map nodePid

/-- Every generation value in the second map already occurs in the first. -/
def genSub (m m' : NodeMap) : Prop :=
  ∀ n' ∈ m', ∃ n ∈ m, n'.generation = n.generation

theorem sameKeys_refl (m : NodeMap) : sameKeys m m := rfl

theorem sameKeys_trans {m₁ m₂ m₃ : NodeMap} (h1 : sameKeys m₁ m₂)
    (h2 : sameKeys m₂ m₃) : sameKeys m₁ m₃ := h2.trans h1

theorem genSub_refl (m : NodeMap) : genSub m m := fun n hn => ⟨n, hn, rfl⟩

theorem genSub_trans {m₁ m₂ m₃ : NodeMap} (h1 : genSub m₁ m₂)
    (h2 : genSub m₂ m₃) : genSub m₁ m₃ := by
  intro n₃ h₃
  rcases h2 n₃ h₃ with ⟨n₂, hn₂, he₂⟩
  rcases h1 n₂ hn₂ with ⟨n₁, hn₁, he₁⟩
  exact ⟨n₁, hn₁, he₂.trans he₁⟩

theorem sameKeys_keysND {m m' : NodeMap} (h : sameKeys m m') (hnd : keysND m) :
    keysND m' := by
  show (m'.map nodePid).Nodup
  rw [h]
  exact hnd

/-- `mapGet` found implies membership of the found node. -/
theorem mapGet_mem {m : NodeMap} {pid : String} {n : LayoutNode}
    (h : mapGet m pid = some n) : n ∈ m ∧ n.person.id = pid := by
  refine ⟨List.mem_of_find?_eq_some h, ?_⟩
  have := List.find?_some h
  simpa using this

/-- Overwriting an existing key with an x-changed copy of its node keeps keys
and generations. -/
theorem mapSet_update_spec (m : NodeMap) (n0 : LayoutNode) (v : ℚ)
    (h : mapGet m n0.person.id = some n0) :
    sameKeys m (mapSet m { n0 with x := v })
      ∧ genSub m (mapSet m { n0 with x := v }) := by
  have hsome : (m.find? (fun n =>
      n.person.id = ({ n0 with x := v } : LayoutNode).person.id)).isSome := by
    rw [show (m.find? (fun n =>
      n.person.id = ({ n0 with x := v } : LayoutNode).person.id)) = some n0 from h]
    rfl
  have hmap : mapSet m { n0 with x := v }
      = m.map (fun n =>
          if n.person.id = n0.person.id then { n0 with x := v } else n) := by
    unfold mapSet
    rw [if_pos hsome]
  constructor
  · show _ = _
    rw [hmap, List.map_map]
    apply List.map_congr_left
    intro n _
    simp only [Function.comp]
    by_cases hc : n.person.id = n0.person.id
    · simp [hc, nodePid]
    · simp [hc]
  · intro n' hn'
    rw [hmap] at hn'
    rcases List.mem_map.mp hn' with ⟨n, hn, he⟩
    by_cases hc : n.person.id = n0.person.id
    · rw [if_pos hc] at he
      exact ⟨n0, (mapGet_mem h).1, by rw [← he]⟩
    · rw [if_neg hc] at he
      exact ⟨n, hn, by rw [← he]⟩

/-- `applyOffset` keeps keys and generations. -/
theorem applyOffset_spec (siblings : List Person) (offset : ℚ) :
    ∀ m : NodeMap, sameKeys m (applyOffset siblings offset m)
      ∧ genSub m (applyOffset siblings offset m) := by
  induction siblings with
  | nil => intro m; exact ⟨sameKeys_refl m, genSub_refl m⟩
  | cons s rest ih =>
    intro m
    have hstep : applyOffset (s :: rest) offset m
        = applyOffset rest offset
            (match mapGet m s.id with
              | some node => mapSet m { node with x := node.x + offset }
              | none => m) := rfl
    rw [hstep]
    cases hg : mapGet m s.id with
    | none =>
      rcases ih m with ⟨h1, h2⟩
      exact ⟨h1, h2⟩
    | some node =>
      have hid : node.person.id = s.id := (mapGet_mem hg).2
      have hset := mapSet_update_spec m node (node.x + offset) (hid ▸ hg)
      rcases ih (mapSet m { node with x := node.x + offset }) with ⟨h1, h2⟩
      exact ⟨sameKeys_trans hset.1 h1, genSub_trans hset.2 h2⟩

theorem mapGet_isSome_iff (m : NodeMap) (pid : String) :
    (mapGet m pid).isSome ↔ pid ∈ m.map nodePid := by
  unfold mapGet
  rw [List.find?_isSome]
  simp [nodePid, eq_comm]

theorem sameKeys_mapGet_isSome {m m' : NodeMap} (h : sameKeys m m')
    {pid : String} (hs : (mapGet m pid).isSome) : (mapGet m' pid).isSome := by
  rw [mapGet_isSome_iff] at hs ⊢
  rw [h]
  exact hs

/-- Overwriting a present key with a node of an already-present generation
keeps keys and generations. -/
theorem mapSet_found_spec (m : NodeMap) (node : LayoutNode)
    (hfound : (mapGet m node.person.id).isSome)
    (hgen : ∃ w ∈ m, node.generation = w.generation) :
    sameKeys m (mapSet m node) ∧ genSub m (mapSet m node) := by
  have hmap : mapSet m node
      = m.map (fun n => if n.person.id = node.person.id then node else n) := by
    unfold mapSet
    simp only [mapGet] at hfound
    rw [if_pos hfound]
  constructor
  · show _ = _
    rw [hmap, List.map_map]
    apply List.map_congr_left
    intro n _
    simp only [Function.comp]
    by_cases hc : n.person.id = node.person.id
    · simp [hc, nodePid]
    · simp [hc]
  · intro n' hn'
    rw [hmap] at hn'
    rcases List.mem_map.mp hn' with ⟨n, hn, he⟩
    by_cases hc : n.person.id = node.person.id
    · rw [if_pos hc] at he
      rcases hgen with ⟨w, hw, hwg⟩
      exact ⟨w, hw, by rw [← he]; exact hwg⟩
    · rw [if_neg hc] at he
      exact ⟨n, hn, by rw [← he]⟩

/-- Overwriting a key present in `m1` (a key-preserving descendant of `m`)
with a node whose generation occurs in `m` keeps keys and generations
relative to `m`. -/
theorem mapSet_found_spec_gen (m m1 : NodeMap) (node : LayoutNode)
    (hfound : (mapGet m1 node.person.id).isSome)
    (hk : sameKeys m m1) (hg : genSub m m1)
    (hgen : ∃ w ∈ m, node.generation = w.generation) :
    sameKeys m (mapSet m1 node) ∧ genSub m (mapSet m1 node) := by
  have hmap : mapSet m1 node
      = m1.map (fun n => if n.person.id = node.person.id then node else n) := by
    unfold mapSet
    simp only [mapGet] at hfound
    rw [if_pos hfound]
  constructor
  · show _ = _
    rw [hmap, List.map_map, ← hk]
    apply List.map_congr_left
    intro n _
    simp only [Function.comp]
    by_cases hc : n.person.id = node.person.id
    · simp [hc, nodePid]
    · simp [hc]
  · intro n' hn'
    rw [hmap] at hn'
    rcases List.mem_map.mp hn' with ⟨n, hn, he⟩
    by_cases hc : n.person.id = node.person.id
    · rw [if_pos hc] at he
      rcases hgen with ⟨w, hw, hwg⟩
      exact ⟨w, hw, by rw [← he]; exact hwg⟩
    · rw [if_neg hc] at he
      rcases hg n hn with ⟨w, hw, hwg⟩
      exact ⟨w, hw, by rw [← he]; exact hwg⟩

/-- `resolveCollisions` keeps keys. -/
theorem resolveCollisions_sameKeys (opts : LayoutOptions) (m : NodeMap) (g : ℤ) :
    sameKeys m (resolveCollisions opts m g) :=
  updateNodes_pid_map m _

/-- `resolveCollisions` introduces no new generation values. -/
theorem resolveCollisions_genSub (opts : LayoutOptions) (m : NodeMap) (g : ℤ) :
    genSub m (resolveCollisions opts m g) := by
  intro n' hn'
  have hupd : resolveCollisions opts m g
      = m.map (replaceById (resolveGo opts (sortByX (filterGen m g)))) := rfl
  rw [hupd] at hn'
  rcases List.mem_map.mp hn' with ⟨n, hn, he⟩
  set L := sortByX (filterGen m g) with hL
  set L' := resolveGo opts L with hL'
  subst he
  unfold replaceById
  cases hf : L'.find? (fun r => r.person.id = n.person.id) with
  | none => exact ⟨n, hn, rfl⟩
  | some r =>
    have hr : r ∈ L' := List.mem_of_find?_eq_some hf
    have hF : List.Forall₂ sameButX L L' := resolveGoAux_shape opts L.length L
    rcases forall₂_mem hF r hr with ⟨a, ha, hrel⟩
    have ham : a ∈ m := (mem_filterGen.mp ((sortByX_perm _).mem_iff.mp ha)).1
    exact ⟨a, ham, hrel.2.2.1⟩

/-- `resLoop` keeps keys, generations, and rows of other generations. -/
theorem resLoop_spec (opts : LayoutOptions) :
    ∀ (k : ℕ) (m : NodeMap) (g : ℤ), keysND m →
      sameKeys m (resLoop opts k m g) ∧ genSub m (resLoop opts k m g)
        ∧ ∀ g', g' ≠ g → filterGen (resLoop opts k m g) g' = filterGen m g' := by
  intro k
  induction k with
  | zero =>
    intro m g _
    exact ⟨sameKeys_refl m, genSub_refl m, fun _ _ => rfl⟩
  | succ k ih =>
    intro m g hnd
    by_cases hdet : detectCollisions opts m g
    · have hstep : resLoop opts (k + 1) m g
          = if detectCollisions opts m g then
              resLoop opts k (resolveCollisions opts m g) g
            else m := rfl
      rw [hstep, if_pos hdet]
      have hk1 := resolveCollisions_sameKeys opts m g
      have hg1 := resolveCollisions_genSub opts m g
      have hother := (resolveCollisions_spec opts m g hnd).2.1
      have hnd1 : keysND (resolveCollisions opts m g) := sameKeys_keysND hk1 hnd
      rcases ih (resolveCollisions opts m g) g hnd1 with ⟨hk2, hg2, hother2⟩
      exact ⟨sameKeys_trans hk1 hk2, genSub_trans hg1 hg2,
        fun g' hg' => (hother2 g' hg').trans (hother g' hg')⟩
    · have hstep : resLoop opts (k + 1) m g
          = if detectCollisions opts m g then
              resLoop opts k (resolveCollisions opts m g) g
            else m := rfl
      rw [hstep, if_neg hdet]
      exact ⟨sameKeys_refl m, genSub_refl m, fun _ _ => rfl⟩

/-- The per-person step of `adjustParentPositions` keeps keys and
generations. -/
theorem parentAdjustStep_spec (opts : LayoutOptions) (ped : Pedigree)
    (pgen : List (String × ℤ)) (gen : ℤ) (acc : NodeMap × List String)
    (person : Person) :
    sameKeys acc.1 (parentAdjustStep opts ped pgen gen acc person).1
      ∧ genSub acc.1 (parentAdjustStep opts ped pgen gen acc person).1 := by
  have triv : ∀ m : NodeMap, sameKeys m m ∧ genSub m m :=
    fun m => ⟨sameKeys_refl m, genSub_refl m⟩
  have upd1 : ∀ (m : NodeMap) (n0 : LayoutNode) (pid : String) (v : ℚ),
      mapGet m pid = some n0 →
      sameKeys m (mapSet m { n0 with x := v })
        ∧ genSub m (mapSet m { n0 with x := v }) := by
    intro m n0 pid v h
    have hid : n0.person.id = pid := (mapGet_mem h).2
    apply mapSet_found_spec_gen m m _ _ (sameKeys_refl m) (genSub_refl m)
    · exact ⟨n0, (mapGet_mem h).1, rfl⟩
    · show (mapGet m n0.person.id).isSome
      rw [hid, h]
      rfl
  have upd2 : ∀ (m m1 : NodeMap) (n0 : LayoutNode) (pid : String) (v : ℚ),
      mapGet m pid = some n0 → sameKeys m m1 → genSub m m1 →
      sameKeys m (mapSet m1 { n0 with x := v })
        ∧ genSub m (mapSet m1 { n0 with x := v }) := by
    intro m m1 n0 pid v h hk hg
    have hid : n0.person.id = pid := (mapGet_mem h).2
    apply mapSet_found_spec_gen m m1 _ _ hk hg
    · exact ⟨n0, (mapGet_mem h).1, rfl⟩
    · apply sameKeys_mapGet_isSome hk
      show (mapGet m n0.person.id).isSome
      rw [hid, h]
      rfl
  unfold parentAdjustStep
  split
  · exact triv acc.1
  · split
    · exact triv acc.1
    · split
      · exact triv acc.1
      · rename_i c0 crest heqc
        split
        · exact triv acc.1
        · rename_i parentNode heqp
          dsimp only
          split
          · rename_i sp heqsp
            split
            · exact triv acc.1
            · rename_i spouseNode heqs
              split
              · exact upd2 acc.1 _ spouseNode _ _ heqs
                  (upd1 acc.1 parentNode person.id _ heqp).1
                  (upd1 acc.1 parentNode person.id _ heqp).2
              · split
                · exact upd2 acc.1 _ spouseNode _ _ heqs
                    (upd1 acc.1 parentNode person.id _ heqp).1
                    (upd1 acc.1 parentNode person.id _ heqp).2
                · exact triv acc.1
          · split
            · exact upd1 acc.1 parentNode person.id _ heqp
            · split
              · exact upd1 acc.1 parentNode person.id _ heqp
              · exact triv acc.1

theorem parentFold_spec (opts : LayoutOptions) (ped : Pedigree)
    (pgen : List (String × ℤ)) (gen : ℤ) :
    ∀ (persons : List Person) (acc : NodeMap × List String),
      sameKeys acc.1 (persons.foldl (parentAdjustStep opts ped pgen gen) acc).1
        ∧ genSub acc.1 (persons.foldl (parentAdjustStep opts ped pgen gen) acc).1 := by
  intro persons
  induction persons with
  | nil => intro acc; exact ⟨sameKeys_refl acc.1, genSub_refl acc.1⟩
  | cons p rest ih =>
    intro acc
    have hstep := parentAdjustStep_spec opts ped pgen gen acc p
    have hrest := ih (parentAdjustStep opts ped pgen gen acc p)
    exact ⟨sameKeys_trans hstep.1 hrest.1, genSub_trans hstep.2 hrest.2⟩

theorem childAdjustGroup_spec (opts : LayoutOptions) (gen : ℤ)
    (positions : NodeMap) (siblings : List Person) :
    sameKeys positions (childAdjustGroup opts gen positions siblings)
      ∧ genSub positions (childAdjustGroup opts gen positions siblings) := by
  have triv : ∀ m : NodeMap, sameKeys m m ∧ genSub m m :=
    fun m => ⟨sameKeys_refl m, genSub_refl m⟩
  unfold childAdjustGroup
  split
  · exact triv positions
  · split
    · exact triv positions
    · split
      · exact triv positions
      · dsimp only
        split
        · exact applyOffset_spec _ _ positions
        · exact applyOffset_spec _ _ positions

theorem childGroupFold_spec (opts : LayoutOptions) (gen : ℤ) :
    ∀ (groups : List (List Person)) (m : NodeMap),
      sameKeys m (groups.foldl (childAdjustGroup opts gen) m)
        ∧ genSub m (groups.foldl (childAdjustGroup opts gen) m) := by
  intro groups
  induction groups with
  | nil => intro m; exact ⟨sameKeys_refl m, genSub_refl m⟩
  | cons gp rest ih =>
    intro m
    have hstep := childAdjustGroup_spec opts gen m gp
    have hrest := ih (childAdjustGroup opts gen m gp)
    exact ⟨sameKeys_trans hstep.1 hrest.1, genSub_trans hstep.2 hrest.2⟩

theorem adjustParentPositions_spec (opts : LayoutOptions)
    (generations : List (ℤ × List Person)) (ped : Pedigree)
    (pgen : List (String × ℤ)) :
    ∀ (ks : List ℤ) (m : NodeMap), keysND m →
      sameKeys m (ks.foldl
        (fun m gen =>
          resLoop opts 5
            ((((zget generations gen).getD []).foldl
              (parentAdjustStep opts ped pgen gen) (m, [])).1) gen) m)
      ∧ genSub m (ks.foldl
        (fun m gen =>
          resLoop opts 5
            ((((zget generations gen).getD []).foldl
              (parentAdjustStep opts ped pgen gen) (m, [])).1) gen) m) := by
  intro ks
  induction ks with
  | nil => intro m _; exact ⟨sameKeys_refl m, genSub_refl m⟩
  | cons k₀ kr ih =>
    intro m hnd
    have hfold := parentFold_spec opts ped pgen k₀ ((zget generations k₀).getD []) (m, [])
    set m1 := ((((zget generations k₀).getD []).foldl
      (parentAdjustStep opts ped pgen k₀) (m, [])).1) with hm1
    have hnd1 : keysND m1 := sameKeys_keysND hfold.1 hnd
    have hres := resLoop_spec opts 5 m1 k₀ hnd1
    set m2 := resLoop opts 5 m1 k₀ with hm2
    have hnd2 : keysND m2 := sameKeys_keysND hres.1 hnd1
    rcases ih m2 hnd2 with ⟨hk3, hg3⟩
    exact ⟨sameKeys_trans (sameKeys_trans hfold.1 hres.1) hk3,
      genSub_trans (genSub_trans hfold.2 hres.2.1) hg3⟩

theorem adjustChildrenPositions_spec (opts : LayoutOptions)
    (generations : List (ℤ × List Person)) :
    ∀ (ks : List ℤ) (m : NodeMap), keysND m →
      sameKeys m (ks.foldl
        (fun m gen =>
          resLoop opts 5
            ((groupSiblings ((zget generations gen).getD [])).foldl
              (childAdjustGroup opts gen) m) gen) m)
      ∧ genSub m (ks.foldl
        (fun m gen =>
          resLoop opts 5
            ((groupSiblings ((zget generations gen).getD [])).foldl
              (childAdjustGroup opts gen) m) gen) m) := by
  intro ks
  induction ks with
  | nil => intro m _; exact ⟨sameKeys_refl m, genSub_refl m⟩
  | cons k₀ kr ih =>
    intro m hnd
    have hfold := childGroupFold_spec opts k₀
      (groupSiblings ((zget generations k₀).getD [])) m
    set m1 := (groupSiblings ((zget generations k₀).getD [])).foldl
      (childAdjustGroup opts k₀) m with hm1
    have hnd1 : keysND m1 := sameKeys_keysND hfold.1 hnd
    have hres := resLoop_spec opts 5 m1 k₀ hnd1
    set m2 := resLoop opts 5 m1 k₀ with hm2
    have hnd2 : keysND m2 := sameKeys_keysND hres.1 hnd1
    rcases ih m2 hnd2 with ⟨hk3, hg3⟩
    exact ⟨sameKeys_trans (sameKeys_trans hfold.1 hres.1) hk3,
      genSub_trans (genSub_trans hfold.2 hres.2.1) hg3⟩

theorem detect_eq_of_filter_eq (opts : LayoutOptions) {m m' : NodeMap} {g : ℤ}
    (h : filterGen m g = filterGen m' g) :
    detectCollisions opts m g = detectCollisions opts m' g := by
  unfold detectCollisions
  rw [h]

theorem resLoop_of_detect_false (opts : LayoutOptions) (k : ℕ) (m : NodeMap)
    (g : ℤ) (h : detectCollisions opts m g = false) : resLoop opts k m g = m := by
  cases k with
  | zero => rfl
  | succ k =>
    have hstep : resLoop opts (k + 1) m g
        = if detectCollisions opts m g then
            resLoop opts k (resolveCollisions opts m g) g
          else m := rfl
    rw [hstep, h]
    rfl

/-- One `while (detect && max > 0)` loop with at least one permitted
iteration leaves its generation collision-free. -/
theorem resLoop_detect_false (opts : LayoutOptions) (k : ℕ) (m : NodeMap)
    (g : ℤ) (hnd : keysND m)
    (h1 : 0 < opts.nodeWidth + opts.horizontalSpacing)
    (h2 : 0 < opts.nodeWidth + opts.spouseSpacing) :
    detectCollisions opts (resLoop opts (k + 1) m g) g = false := by
  have hstep : resLoop opts (k + 1) m g
      = if detectCollisions opts m g then
          resLoop opts k (resolveCollisions opts m g) g
        else m := rfl
  by_cases hdet : detectCollisions opts m g
  · rw [hstep, if_pos hdet]
    have hres := (resolveCollisions_idempotent opts m g hnd h1 h2).1
    rw [resLoop_of_detect_false opts k _ g hres]
    exact hres
  · rw [hstep, if_neg hdet]
    exact Bool.not_eq_true _ ▸ (Bool.of_not_eq_true hdet)

/-- The step-7 loop of `layout`: after folding the 10-iteration resolution
loop over the sorted generation keys, every visited generation is
collision-free, untouched generations keep their rows, and keys and
generations survive. -/
theorem resFold_spec (opts : LayoutOptions)
    (h1 : 0 < opts.nodeWidth + opts.horizontalSpacing)
    (h2 : 0 < opts.nodeWidth + opts.spouseSpacing) :
    ∀ (ks : List ℤ) (m : NodeMap), keysND m →
      sameKeys m (ks.foldl (fun m g => resLoop opts 10 m g) m)
        ∧ (∀ g, g ∉ ks →
            filterGen (ks.foldl (fun m g => resLoop opts 10 m g) m) g = filterGen m g)
        ∧ (∀ g ∈ ks,
            detectCollisions opts (ks.foldl (fun m g => resLoop opts 10 m g) m) g
              = false) := by
  intro ks
  induction ks with
  | nil =>
    intro m _
    exact ⟨sameKeys_refl m, fun _ _ => rfl, fun g hg => absurd hg (List.not_mem_nil g)⟩
  | cons k₀ kr ih =>
    intro m hnd
    have hres := resLoop_spec opts 10 m k₀ hnd
    set m1 := resLoop opts 10 m k₀ with hm1
    have hnd1 : keysND m1 := sameKeys_keysND hres.1 hnd
    rcases ih m1 hnd1 with ⟨hk2, hfil2, hdet2⟩
    have hfold : (k₀ :: kr).foldl (fun m g => resLoop opts 10 m g) m
        = kr.foldl (fun m g => resLoop opts 10 m g) m1 := rfl
    refine ⟨?_, ?_, ?_⟩
    · rw [hfold]
      exact sameKeys_trans hres.1 hk2
    · intro g hg
      rw [hfold, hfil2 g (fun hc => hg (List.mem_cons_of_mem _ hc)),
        hres.2.2 g (fun hc => hg (hc ▸ List.mem_cons_self _ _))]
    · intro g hg
      rw [hfold]
      by_cases hgkr : g ∈ kr
      · exact hdet2 g hgkr
      · have hgk₀ : g = k₀ := by
          rcases List.mem_cons.mp hg with h | h
          · exact h
          · exact absurd h hgkr
        subst hgk₀
        rw [detect_eq_of_filter_eq opts (hfil2 g hgkr)]
        exact resLoop_detect_false opts 9 m g hnd h1 h2

/-- Every node's generation lies in `ks`. -/
def gensIn (m : NodeMap) (ks : List ℤ) : Prop := ∀ n ∈ m, n.generation ∈ ks

theorem gensIn_of_genSub {m m' : NodeMap} {ks : List ℤ} (h : genSub m m')
    (hg : gensIn m ks) : gensIn m' ks := by
  intro n' hn'
  rcases h n' hn' with ⟨n, hn, he⟩
  rw [he]
  exact hg n hn

theorem gensIn_filter_nil {m : NodeMap} {ks : List ℤ} (hg : gensIn m ks)
    {g : ℤ} (hgk : g ∉ ks) : filterGen m g = [] := by
  unfold filterGen
  rw [List.filter_eq_nil_iff]
  intro n hn
  simp only [decide_eq_true_eq]
  intro hc
  exact hgk (hc ▸ hg n hn)

theorem mapSet_keysND (m : NodeMap) (node : LayoutNode) (hnd : keysND m) :
    keysND (mapSet m node) := by
  unfold mapSet
  by_cases hf : (m.find? (fun n => n.person.id = node.person.id)).isSome
  · rw [if_pos hf]
    show (List.map nodePid _).Nodup
    rw [List.map_map]
    have : (m.map (nodePid ∘ fun n =>
        if n.person.id = node.person.id then node else n)) = m.map nodePid := by
      apply List.map_congr_left
      intro n _
      simp only [Function.comp]
      by_cases hc : n.person.id = node.person.id
      · simp [hc, nodePid]
      · simp [hc]
    rw [this]
    exact hnd
  · rw [if_neg hf]
    show (List.map nodePid (m ++ [node])).Nodup
    rw [List.map_append]
    rw [List.nodup_append]
    refine ⟨hnd, List.nodup_singleton _, ?_⟩
    intro a ha hb
    have hb' : a = nodePid node := by simpa using hb
    subst hb'
    rcases List.mem_map.mp ha with ⟨n, hn, hpid⟩
    apply hf
    rw [List.find?_isSome]
    exact ⟨n, hn, by simpa using (show n.person.id = node.person.id from hpid)⟩

theorem mapSet_mem (m : NodeMap) (node : LayoutNode) :
    ∀ n' ∈ mapSet m node, n' ∈ m ∨ n' = node := by
  intro n' hn'
  unfold mapSet at hn'
  by_cases hf : (m.find? (fun n => n.person.id = node.person.id)).isSome
  · rw [if_pos hf] at hn'
    rcases List.mem_map.mp hn' with ⟨n, hn, he⟩
    by_cases hc : n.person.id = node.person.id
    · rw [if_pos hc] at he
      exact Or.inr he.symm
    · rw [if_neg hc] at he
      exact Or.inl (he ▸ hn)
  · rw [if_neg hf] at hn'
    rcases List.mem_append.mp hn' with h | h
    · exact Or.inl h
    · exact Or.inr (by simpa using h)

theorem placeRow_spec (opts : LayoutOptions) (gen : ℤ) (y : ℚ)
    (ks : List ℤ) (hgen : gen ∈ ks) :
    ∀ (persons : List Person) (m : NodeMap), keysND m → gensIn m ks →
      keysND (placeRow opts gen y persons m)
        ∧ gensIn (placeRow opts gen y persons m) ks := by
  suffices h : ∀ (persons : List Person)
      (acc : NodeMap × ℚ × Option Person × ℕ), keysND acc.1 → gensIn acc.1 ks →
      keysND (persons.foldl
        (fun (acc : NodeMap × ℚ × Option Person × ℕ) person =>
          let result := acc.1
          let currentX := acc.2.1
          let prevPerson := acc.2.2.1
          let i := acc.2.2.2
          let spacing :=
            match prevPerson with
            | some prev =>
              if person.id ∈ prev.spouseIds ∨ prev.id ∈ person.spouseIds then
                opts.spouseSpacing
              else opts.horizontalSpacing
            | none => opts.horizontalSpacing
          let currentX := if i > 0 then currentX + spacing + opts.nodeWidth else currentX
          let currentX :=
            match getParentCenterX person result with
            | some parentX => if gen > 0 ∧ parentX ≥ currentX then parentX else currentX
            | none => currentX
          let node : LayoutNode :=
            { person := person, x := currentX, y := y, generation := gen, order := i }
          (mapSet result node, currentX, some person, i + 1)) acc).1
        ∧ gensIn (persons.foldl _ acc).1 ks by
    intro persons m hnd hg
    exact h persons (m, 0, none, 0) hnd hg
  intro persons
  induction persons with
  | nil => intro acc hnd hg; exact ⟨hnd, hg⟩
  | cons p rest ih =>
    intro acc hnd hg
    apply ih
    · exact mapSet_keysND _ _ hnd
    · intro n' hn'
      rcases mapSet_mem _ _ n' hn' with h | h
      · exact hg n' h
      · rw [h]
        exact hgen

theorem calculatePositions_spec (opts : LayoutOptions)
    (generations : List (ℤ × List Person)) :
    keysND (calculatePositions opts generations)
      ∧ gensIn (calculatePositions opts generations)
          ((generations.map Prod.fst).insertionSort (fun a b => a ≤ b)) := by
  set ks0 := (generations.map Prod.fst).insertionSort (fun a b => a ≤ b) with hks0
  suffices h : ∀ (ks : List ℤ), (∀ k ∈ ks, k ∈ ks0) → ∀ m, keysND m → gensIn m ks0 →
      keysND (ks.foldl
        (fun result gen =>
          placeRow opts gen ((gen : ℚ) * (opts.nodeHeight + opts.verticalSpacing))
            ((zget generations gen).getD []) result) m)
        ∧ gensIn (ks.foldl
          (fun result gen =>
            placeRow opts gen ((gen : ℚ) * (opts.nodeHeight + opts.verticalSpacing))
              ((zget generations gen).getD []) result) m) ks0 by
    have := h ks0 (fun k hk => hk) [] (by exact List.nodup_nil)
      (fun n hn => absurd hn (List.not_mem_nil n))
    exact this
  intro ks
  induction ks with
  | nil => intro _ m hnd hg; exact ⟨hnd, hg⟩
  | cons k₀ kr ih =>
    intro hsub m hnd hg
    have hstep := placeRow_spec opts k₀
      ((k₀ : ℚ) * (opts.nodeHeight + opts.verticalSpacing)) ks0
      (hsub k₀ (List.mem_cons_self _ _)) ((zget generations k₀).getD []) m hnd hg
    exact ih (fun k hk => hsub k (List.mem_cons_of_mem _ hk)) _ hstep.1 hstep.2

/-- Sorting a generation keeps the generation keys. -/
theorem sortGens_keys (generations : List (ℤ × List Person)) (ped : Pedigree)
    (familyUnits : List FamilyUnit) (sharedPersons : List (String × List FamilyUnit))
    (pgen : List (String × ℤ)) :
    (sortGenerationsWithFamilyUnits generations ped familyUnits sharedPersons pgen).map
        Prod.fst = generations.map Prod.fst := by
  unfold sortGenerationsWithFamilyUnits
  rw [List.map_map]
  rfl

/-- C1: for every pedigree on which `layout` returns (and any positive
spacing options), every generation of the returned node map passes the
collision check: `detectCollisions` is false for every generation. -/
theorem layout_no_collisions (opts : LayoutOptions) (fuel : ℕ) (ped : Pedigree)
    (m : NodeMap) (pg : List (String × ℤ))
    (h1 : 0 < opts.nodeWidth + opts.horizontalSpacing)
    (h2 : 0 < opts.nodeWidth + opts.spouseSpacing)
    (h : layout opts fuel ped = some (m, pg)) :
    ∀ g : ℤ, detectCollisions opts m g = false := by
  intro g
  unfold layout at h
  by_cases hemp : ped.persons.isEmpty
  · rw [if_pos hemp] at h
    injection h with h'
    have hm : m = [] := (congrArg Prod.fst h').symm
    rw [hm]
    rfl
  · rw [if_neg hemp] at h
    cases hassign : assignGenerations ped fuel with
    | none => rw [hassign] at h; exact Option.noConfusion h
    | some r =>
      obtain ⟨generations, pgen⟩ := r
      rw [hassign] at h
      injection h with h'
      have hm : m = centerLayout
          (((generations.map Prod.fst).insertionSort (fun a b => a ≤ b)).foldl
            (fun m g => resLoop opts 10 m g)
            (adjustChildrenPositions opts
              (sortGenerationsWithFamilyUnits generations ped
                (buildFamilyUnits ped pgen)
                (findSharedPersons (buildFamilyUnits ped pgen)) pgen)
              (adjustParentPositions opts
                (sortGenerationsWithFamilyUnits generations ped
                  (buildFamilyUnits ped pgen)
                  (findSharedPersons (buildFamilyUnits ped pgen)) pgen)
                (calculatePositions opts
                  (sortGenerationsWithFamilyUnits generations ped
                    (buildFamilyUnits ped pgen)
                    (findSharedPersons (buildFamilyUnits ped pgen)) pgen))
                ped pgen))) := (congrArg Prod.fst h').symm
      set sortedGens := sortGenerationsWithFamilyUnits generations ped
        (buildFamilyUnits ped pgen)
        (findSharedPersons (buildFamilyUnits ped pgen)) pgen with hsg
      set ks := (generations.map Prod.fst).insertionSort (fun a b => a ≤ b) with hks
      have hkeys0 := calculatePositions_spec opts sortedGens
      have hkseq : (sortedGens.map Prod.fst).insertionSort (fun a b => a ≤ b) = ks := by
        rw [hsg, sortGens_keys]
      rw [hkseq] at hkeys0
      set p0 := calculatePositions opts sortedGens with hp0
      -- the parent pass
      have hpar : adjustParentPositions opts sortedGens p0 ped pgen
          = ((sortedGens.map Prod.fst).insertionSort (fun a b => a ≤ b)).reverse.foldl
            (fun m gen =>
              resLoop opts 5
                ((((zget sortedGens gen).getD []).foldl
                  (parentAdjustStep opts ped pgen gen) (m, [])).1) gen) p0 := rfl
      have hparspec := adjustParentPositions_spec opts sortedGens ped pgen
        ((sortedGens.map Prod.fst).insertionSort (fun a b => a ≤ b)).reverse p0
        hkeys0.1
      rw [← hpar] at hparspec
      set p1 := adjustParentPositions opts sortedGens p0 ped pgen with hp1
      have hnd1 : keysND p1 := sameKeys_keysND hparspec.1 hkeys0.1
      have hg1 : gensIn p1 ks := gensIn_of_genSub hparspec.2 hkeys0.2
      -- the child pass
      have hchild : adjustChildrenPositions opts sortedGens p1
          = match (sortedGens.map Prod.fst).insertionSort (fun a b => a ≤ b) with
            | [] => p1
            | _ :: restKeys =>
              restKeys.foldl
                (fun m gen =>
                  resLoop opts 5
                    ((groupSiblings ((zget sortedGens gen).getD [])).foldl
                      (childAdjustGroup opts gen) m) gen) p1 := rfl
      have hchildspec : sameKeys p1 (adjustChildrenPositions opts sortedGens p1)
          ∧ genSub p1 (adjustChildrenPositions opts sortedGens p1) := by
        rw [hchild]
        cases hks' : (sortedGens.map Prod.fst).insertionSort (fun a b => a ≤ b) with
        | nil => exact ⟨sameKeys_refl p1, genSub_refl p1⟩
        | cons k₀ restKeys =>
          have := adjustChildrenPositions_spec opts sortedGens restKeys p1 hnd1
          exact ⟨this.1, this.2⟩
      set p2 := adjustChildrenPositions opts sortedGens p1 with hp2
      have hnd2 : keysND p2 := sameKeys_keysND hchildspec.1 hnd1
      have hg2 : gensIn p2 ks := gensIn_of_genSub hchildspec.2 hg1
      -- step 7 and step 8
      have hfold := resFold_spec opts h1 h2 ks p2 hnd2
      rw [hm, detect_centerLayout]
      by_cases hgks : g ∈ ks
      · exact hfold.2.2 g hgks
      · have hfil : filterGen (ks.foldl (fun m g => resLoop opts 10 m g) p2) g
            = filterGen p2 g := hfold.2.1 g hgks
        rw [show detectCollisions opts
            (ks.foldl (fun m g => resLoop opts 10 m g) p2) g
          = detectCollisions opts p2 g from detect_eq_of_filter_eq opts hfil]
        unfold detectCollisions
        rw [gensIn_filter_nil hg2 hgks]
        rfl

/-- The `layout` result on the C8 pedigree (which does hit the resolution
path), reused as the C1 witness input. -/
def layC8 : NodeMap × List (String × ℤ) :=
  (layout DEFAULT_LAYOUT_OPTIONS 6 pedC8).getD ([], [])

/-- Witness for C1 at a concrete pedigree. -/
theorem layout_no_collisions_witness :
    detectCollisions DEFAULT_LAYOUT_OPTIONS layC8.1 0 = false
      ∧ detectCollisions DEFAULT_LAYOUT_OPTIONS layC8.1 1 = false :=
  ⟨layout_no_collisions DEFAULT_LAYOUT_OPTIONS 6 pedC8 layC8.1 layC8.2
      (by norm_num [DEFAULT_LAYOUT_OPTIONS]) (by norm_num [DEFAULT_LAYOUT_OPTIONS])
      (by with_unfolding_all rfl) 0,
    layout_no_collisions DEFAULT_LAYOUT_OPTIONS 6 pedC8 layC8.1 layC8.2
      (by norm_num [DEFAULT_LAYOUT_OPTIONS]) (by norm_num [DEFAULT_LAYOUT_OPTIONS])
      (by with_unfolding_all rfl) 1⟩

/-! ## Key facts about the string-keyed maps of `assignGenerations` -/

/-- Key uniqueness of an association-list map. -/
def skeysND {α : Type} (m : List (String × α)) : Prop := (m.map Prod.fst).Nodup

theorem sget_none_iff {α : Type} (m : List (String × α)) (k : String) :
    sget m k = none ↔ k ∉ m.map Prod.fst := by
  induction m with
  | nil => simp [sget]
  | cons e r ih =>
    by_cases he : e.1 = k
    · simp [sget, he]
    · simp [sget, he, ih, Ne.symm he]

theorem sget_isSome_iff {α : Type} (m : List (String × α)) (k : String) :
    (sget m k).isSome ↔ k ∈ m.map Prod.fst := by
  rw [← not_iff_not]
  simp only [Option.not_isSome_iff_eq_none]
  exact sget_none_iff m k

theorem sset_keys_of_mem {α : Type} (m : List (String × α)) (k : String) (v : α)
    (h : k ∈ m.map Prod.fst) : (sset m k v).map Prod.fst = m.map Prod.fst := by
  induction m with
  | nil => simp at h
  | cons e r ih =>
    by_cases he : e.1 = k
    · simp [sset, he]
    · have h' : k ∈ r.map Prod.fst := by
        rcases List.mem_cons.mp h with hc | hc
        · exact absurd hc.symm he
        · exact hc
      simp [sset, he, ih h']

theorem sset_keys_of_not_mem {α : Type} (m : List (String × α)) (k : String)
    (v : α) (h : k ∉ m.map Prod.fst) :
    (sset m k v).map Prod.fst = m.map Prod.fst ++ [k] := by
  induction m with
  | nil => simp [sset]
  | cons e r ih =>
    by_cases he : e.1 = k
    · exact absurd (he ▸ List.mem_map_of_mem Prod.fst (List.mem_cons_self e r)) (he ▸ h)
    · have h' : k ∉ r.map Prod.fst := fun hc => h (List.mem_cons_of_mem _ hc)
      simp [sset, he, ih h']

theorem sset_skeysND {α : Type} (m : List (String × α)) (k : String) (v : α)
    (h : skeysND m) : skeysND (sset m k v) := by
  by_cases hk : k ∈ m.map Prod.fst
  · show ((sset m k v).map Prod.fst).Nodup
    rw [sset_keys_of_mem m k v hk]
    exact h
  · show ((sset m k v).map Prod.fst).Nodup
    rw [sset_keys_of_not_mem m k v hk, List.nodup_append]
    exact ⟨h, List.nodup_singleton _, by
      intro a ha hb
      have : a = k := by simpa using hb
      exact hk (this ▸ ha)⟩

theorem sget_mem {α : Type} :
    ∀ (m : List (String × α)) (k : String) (v : α),
      sget m k = some v → (k, v) ∈ m := by
  intro m
  induction m with
  | nil => intro k v h; exact Option.noConfusion h
  | cons e r ih =>
    intro k v h
    by_cases he : e.1 = k
    · rw [show sget (e :: r) k = some e.2 from by simp [sget, he]] at h
      have : e = (k, v) := by
        obtain ⟨e1, e2⟩ := e
        simp at he
        obtain rfl := he
        simpa using (Option.some.inj h) ▸ rfl
      exact this ▸ List.mem_cons_self e r
    · rw [show sget (e :: r) k = sget r k from by simp [sget, he]] at h
      exact List.mem_cons_of_mem _ (ih k v h)

theorem mem_sget {α : Type} :
    ∀ (m : List (String × α)) (k : String) (v : α),
      (k, v) ∈ m → skeysND m → sget m k = some v := by
  intro m
  induction m with
  | nil => intro k v h; exact absurd h (List.not_mem_nil _)
  | cons e r ih =>
    intro k v h hnd
    rcases List.mem_cons.mp h with rfl | hr
    · simp [sget]
    · have hne : e.1 ≠ k := by
        intro hc
        have : k ∈ r.map Prod.fst := by
          exact List.mem_map_of_mem Prod.fst hr
      -- e.1 = k contradicts nodup since (k, v) ∈ r
        have hnd' := (List.nodup_cons.mp hnd).1
        exact hnd' (hc ▸ this)
      simp only [sget, hne, if_false]
      exact ih k v hr (List.nodup_cons.mp hnd).2

/-- A property preserved by every `sset` is preserved by any fold whose
steps only `sset` the map component. -/
theorem fold_map_preserve {γ : Type} (P : List (String × ℤ) → Prop)
    (step : (List (String × ℤ) × Bool) → γ → (List (String × ℤ) × Bool))
    (hstep : ∀ acc x, P acc.1 → P (step acc x).1) :
    ∀ (l : List γ) (acc : List (String × ℤ) × Bool),
      P acc.1 → P (l.foldl step acc).1 := by
  intro l
  induction l with
  | nil => intro acc h; exact h
  | cons x r ih => intro acc h; exact ih (step acc x) (hstep acc x h)

/-- Once a pass has flagged a change, the flag stays set. -/
theorem fold_changed_mono {γ : Type}
    (step : (List (String × ℤ) × Bool) → γ → (List (String × ℤ) × Bool))
    (hstep : ∀ acc x, acc.2 = true → (step acc x).2 = true) :
    ∀ (l : List γ) (acc : List (String × ℤ) × Bool),
      acc.2 = true → (l.foldl step acc).2 = true := by
  intro l
  induction l with
  | nil => intro acc h; exact h
  | cons x r ih => intro acc h; exact ih (step acc x) (hstep acc x h)

/-- `P` holds of the map after one step-2 pass whenever it is `sset`-stable. -/
theorem pass2_preserve (P : List (String × ℤ) → Prop)
    (hP : ∀ m k v, P m → P (sset m k v)) (persons : List Person)
    (mg : List (String × ℤ)) (h : P mg) : P (pass2 persons mg).1 := by
  unfold pass2
  apply fold_map_preserve P _ _ persons (mg, false) h
  intro acc p hacc
  apply fold_map_preserve P _ _ p.spouseIds acc hacc
  intro acc2 sid hacc2
  dsimp only
  split
  · exact hP _ _ _ hacc2
  · split
    · exact hP _ _ _ hacc2
    · exact hacc2

theorem pass3Children_preserve (P : List (String × ℤ) → Prop)
    (hP : ∀ m k v, P m → P (sset m k v)) (persons : List Person)
    (mg : List (String × ℤ)) (h : P mg) : P (pass3Children persons mg).1 := by
  unfold pass3Children
  apply fold_map_preserve P _ _ persons (mg, false) h
  intro acc p hacc
  apply fold_map_preserve P _ _ p.childrenIds acc hacc
  intro acc2 cid hacc2
  dsimp only
  split
  · exact hP _ _ _ hacc2
  · exact hacc2

theorem pass3Spouse_preserve (P : List (String × ℤ) → Prop)
    (hP : ∀ m k v, P m → P (sset m k v)) (persons : List Person)
    (acc : List (String × ℤ) × Bool) (h : P acc.1) :
    P (pass3Spouse persons acc).1 := by
  unfold pass3Spouse
  apply fold_map_preserve P _ _ persons acc h
  intro acc p hacc
  apply fold_map_preserve P _ _ p.spouseIds acc hacc
  intro acc2 sid hacc2
  dsimp only
  split
  · exact hP _ _ _ (hP _ _ _ hacc2)
  · exact hacc2

theorem pass3_preserve (P : List (String × ℤ) → Prop)
    (hP : ∀ m k v, P m → P (sset m k v)) (persons : List Person)
    (mg : List (String × ℤ)) (h : P mg) : P (pass3 persons mg).1 :=
  pass3Spouse_preserve P hP persons _ (pass3Children_preserve P hP persons mg h)

theorem loop2_preserve (P : List (String × ℤ) → Prop)
    (hP : ∀ m k v, P m → P (sset m k v)) :
    ∀ (fuel : ℕ) (persons : List Person) (mg mg' : List (String × ℤ)),
      P mg → loop2 persons fuel mg = some mg' → P mg' := by
  intro fuel
  induction fuel with
  | zero => intro persons mg mg' _ h; exact Option.noConfusion h
  | succ n ih =>
    intro persons mg mg' hP0 h
    have hstep : loop2 persons (n + 1) mg
        = if (pass2 persons mg).2 then loop2 persons n (pass2 persons mg).1
          else some (pass2 persons mg).1 := rfl
    rw [hstep] at h
    by_cases hc : (pass2 persons mg).2
    · rw [if_pos hc] at h
      exact ih persons _ mg' (pass2_preserve P hP persons mg hP0) h
    · rw [if_neg hc] at h
      injection h with h'
      exact h' ▸ pass2_preserve P hP persons mg hP0

theorem loop3_preserve (P : List (String × ℤ) → Prop)
    (hP : ∀ m k v, P m → P (sset m k v)) :
    ∀ (fuel : ℕ) (persons : List Person) (mg mg' : List (String × ℤ)),
      P mg → loop3 persons fuel mg = some mg' → P mg' := by
  intro fuel
  induction fuel with
  | zero => intro persons mg mg' _ h; exact Option.noConfusion h
  | succ n ih =>
    intro persons mg mg' hP0 h
    have hstep : loop3 persons (n + 1) mg
        = if (pass3 persons mg).2 then loop3 persons n (pass3 persons mg).1
          else some (pass3 persons mg).1 := rfl
    rw [hstep] at h
    by_cases hc : (pass3 persons mg).2
    · rw [if_pos hc] at h
      exact ih persons _ mg' (pass3_preserve P hP persons mg hP0) h
    · rw [if_neg hc] at h
      injection h with h'
      exact h' ▸ pass3_preserve P hP persons mg hP0

/-- `calculateMinGeneration` preserves any `sset`-stable map property. -/
theorem calcMinGen_preserve (P : List (String × ℤ) → Prop)
    (hP : ∀ m k v, P m → P (sset m k v)) (ped : Pedigree) :
    ∀ (fuel : ℕ) (pid : String) (vis : List String) (mg : List (String × ℤ)),
      P mg → P (calcMinGen ped fuel pid vis mg).2.2 := by
  intro fuel
  induction fuel with
  | zero => intro pid vis mg h; exact h
  | succ n ih =>
    intro pid vis mg h
    by_cases hvis : pid ∈ vis
    · simpa [calcMinGen, hvis] using h
    · cases hp : ped.getPerson pid with
      | none => simpa [calcMinGen, hvis, hp] using h
      | some person =>
        cases hf : person.fatherId with
        | none =>
          cases hm : person.motherId with
          | none => simp only [calcMinGen, hvis, if_false, hp, hf, hm]; exact hP _ _ _ h
          | some mid =>
            simp only [calcMinGen, hvis, if_false, hp, hf, hm]
            exact hP _ _ _ (ih mid _ mg h)
        | some fid =>
          cases hm : person.motherId with
          | none =>
            simp only [calcMinGen, hvis, if_false, hp, hf, hm]
            exact hP _ _ _ (ih fid _ mg h)
          | some mid =>
            simp only [calcMinGen, hvis, if_false, hp, hf, hm]
            exact hP _ _ _ (ih mid _ _ (ih fid _ mg h))

/-- A top-level `calculateMinGeneration` call on a found person writes an
entry for it. -/
theorem calcMinGen_writes_found (ped : Pedigree) (pid : String)
    (person : Person) (hp : ped.getPerson pid = some person) (n : ℕ)
    (vis : List String) (mg : List (String × ℤ)) (hvis : pid ∉ vis) :
    (sget (calcMinGen ped (n + 1) pid vis mg).2.2 pid).isSome := by
  cases hf : person.fatherId with
  | none =>
    cases hm : person.motherId with
    | none => simp [calcMinGen, hvis, hp, hf, hm, sget_sset_self]
    | some mid => simp [calcMinGen, hvis, hp, hf, hm, sget_sset_self]
  | some fid =>
    cases hm : person.motherId with
    | none => simp [calcMinGen, hvis, hp, hf, hm, sget_sset_self]
    | some mid => simp [calcMinGen, hvis, hp, hf, hm, sget_sset_self]

/-- Step 1 covers every person: after `runCalcAll` the map has an entry for
every person id. -/
theorem runCalcAll_covers (ped : Pedigree) :
    ∀ p ∈ ped.persons, (sget (runCalcAll ped) p.id).isSome := by
  suffices h : ∀ (l : List Person) (mg : List (String × ℤ)),
      (∀ p ∈ l, p ∈ ped.persons) →
      ∀ p ∈ ped.persons,
        (p ∈ l ∨ (sget mg p.id).isSome) →
        (sget (l.foldl
          (fun mg q => (calcMinGen ped (ped.persons.length + 1) q.id [] mg).2.2)
          mg) p.id).isSome by
    intro p hp
    exact h ped.persons [] (fun _ hq => hq) p hp (Or.inl hp)
  intro l
  induction l with
  | nil =>
    intro mg _ p _ hor
    rcases hor with h | h
    · exact absurd h (List.not_mem_nil p)
    · exact h
  | cons q r ih =>
    intro mg hsub p hp hor
    have hq : (ped.getPerson q.id).isSome := by
      rw [Pedigree.getPerson, List.find?_isSome]
      exact ⟨q, hsub q (List.mem_cons_self _ _), by simp⟩
    rcases Option.isSome_iff_exists.mp hq with ⟨qq, hqq⟩
    apply ih _ (fun x hx => hsub x (List.mem_cons_of_mem _ hx)) p hp
    rcases hor with hl | hs
    · rcases List.mem_cons.mp hl with rfl | hrl
      · exact Or.inr (calcMinGen_writes_found ped p.id qq hqq
          ped.persons.length [] mg (List.not_mem_nil _))
      · exact Or.inl hrl
    · exact Or.inr (calcMinGen_preserves_isSome ped p.id
        (ped.persons.length + 1) q.id [] mg hs)

/-- Step 1 produces a map with unique keys. -/
theorem runCalcAll_skeysND (ped : Pedigree) : skeysND (runCalcAll ped) := by
  suffices h : ∀ (l : List Person) (mg : List (String × ℤ)), skeysND mg →
      skeysND (l.foldl
        (fun mg q => (calcMinGen ped (ped.persons.length + 1) q.id [] mg).2.2) mg) by
    exact h ped.persons [] (by exact List.nodup_nil)
  intro l
  induction l with
  | nil => intro mg h; exact h
  | cons q r ih =>
    intro mg h
    exact ih _ (calcMinGen_preserve skeysND
      (fun m k v hk => sset_skeysND m k v hk) ped _ q.id [] mg h)

/-! ## Node-level transport: the adjustment and resolution passes only move
nodes horizontally, so ids and generations of nodes trace back to the
initially placed map. -/

/-- Every node of the second map has a same-id, same-generation node in the
first. -/
def nodeSub (m m' : NodeMap) : Prop :=
  ∀ n' ∈ m', ∃ n ∈ m, nodePid n = nodePid n' ∧ n.generation = n'.generation

theorem nodeSub_refl (m : NodeMap) : nodeSub m m := fun n hn => ⟨n, hn, rfl, rfl⟩

theorem nodeSub_trans {m₁ m₂ m₃ : NodeMap} (h1 : nodeSub m₁ m₂)
    (h2 : nodeSub m₂ m₃) : nodeSub m₁ m₃ := by
  intro n₃ h₃
  rcases h2 n₃ h₃ with ⟨n₂, hn₂, hp₂, hg₂⟩
  rcases h1 n₂ hn₂ with ⟨n₁, hn₁, hp₁, hg₁⟩
  exact ⟨n₁, hn₁, hp₁.trans hp₂, hg₁.trans hg₂⟩

theorem mapSet_nodeSub {m m1 : NodeMap} (node : LayoutNode) (h : nodeSub m m1)
    (hw : ∃ w ∈ m, nodePid w = nodePid node ∧ w.generation = node.generation) :
    nodeSub m (mapSet m1 node) := by
  intro n' hn'
  rcases mapSet_mem m1 node n' hn' with hmem | rfl
  · exact h n' hmem
  · exact hw

theorem applyOffset_nodeSub (siblings : List Person) (offset : ℚ) :
    ∀ {m m1 : NodeMap}, nodeSub m m1 →
      nodeSub m (applyOffset siblings offset m1) := by
  induction siblings with
  | nil => intro m m1 h; exact h
  | cons s rest ih =>
    intro m m1 h
    have hstep : applyOffset (s :: rest) offset m1
        = applyOffset rest offset
            (match mapGet m1 s.id with
              | some node => mapSet m1 { node with x := node.x + offset }
              | none => m1) := rfl
    rw [hstep]
    cases hg : mapGet m1 s.id with
    | none => exact ih h
    | some node =>
      apply ih
      apply mapSet_nodeSub _ h
      exact h node (mapGet_mem hg).1

theorem resolveCollisions_nodeSub (opts : LayoutOptions) (m : NodeMap) (g : ℤ) :
    nodeSub m (resolveCollisions opts m g) := by
  intro n' hn'
  have hupd : resolveCollisions opts m g
      = m.map (replaceById (resolveGo opts (sortByX (filterGen m g)))) := rfl
  rw [hupd] at hn'
  rcases List.mem_map.mp hn' with ⟨n, hn, he⟩
  subst he
  show ∃ w ∈ m, nodePid w = nodePid (replaceById _ n)
    ∧ w.generation = (replaceById _ n).generation
  unfold replaceById
  cases hf : (resolveGo opts (sortByX (filterGen m g))).find?
      (fun r => r.person.id = n.person.id) with
  | none => exact ⟨n, hn, rfl, rfl⟩
  | some r =>
    have hrmem : r ∈ resolveGo opts (sortByX (filterGen m g)) :=
      List.mem_of_find?_eq_some hf
    have hshape : List.Forall₂ sameButX (sortByX (filterGen m g))
        (resolveGo opts (sortByX (filterGen m g))) :=
      resolveGoAux_shape opts _ _
    rcases forall₂_mem hshape r hrmem with ⟨a, ha, hab⟩
    have ham : a ∈ m := (mem_filterGen.mp ((sortByX_perm _).mem_iff.mp ha)).1
    exact ⟨a, ham, congrArg Person.id hab.1.symm, hab.2.2.1.symm⟩

theorem resLoop_nodeSub (opts : LayoutOptions) :
    ∀ (k : ℕ) (m : NodeMap) (g : ℤ), nodeSub m (resLoop opts k m g) := by
  intro k
  induction k with
  | zero => intro m g; exact nodeSub_refl m
  | succ k ih =>
    intro m g
    have hstep : resLoop opts (k + 1) m g
        = if detectCollisions opts m g then
            resLoop opts k (resolveCollisions opts m g) g
          else m := rfl
    rw [hstep]
    by_cases hdet : detectCollisions opts m g
    · rw [if_pos hdet]
      exact nodeSub_trans (resolveCollisions_nodeSub opts m g)
        (ih (resolveCollisions opts m g) g)
    · rw [if_neg hdet]
      exact nodeSub_refl m

theorem parentAdjustStep_nodeSub (opts : LayoutOptions) (ped : Pedigree)
    (pgen : List (String × ℤ)) (gen : ℤ) (acc : NodeMap × List String)
    (person : Person) :
    nodeSub acc.1 (parentAdjustStep opts ped pgen gen acc person).1 := by
  have upd1 : ∀ (m : NodeMap) (n0 : LayoutNode) (pid : String) (v : ℚ),
      mapGet m pid = some n0 → nodeSub m (mapSet m { n0 with x := v }) :=
    fun m n0 pid v h =>
      mapSet_nodeSub _ (nodeSub_refl m) ⟨n0, (mapGet_mem h).1, rfl, rfl⟩
  have upd2 : ∀ (m m1 : NodeMap) (n0 : LayoutNode) (pid : String) (v : ℚ),
      mapGet m pid = some n0 → nodeSub m m1 →
      nodeSub m (mapSet m1 { n0 with x := v }) :=
    fun m m1 n0 pid v h hs =>
      mapSet_nodeSub _ hs ⟨n0, (mapGet_mem h).1, rfl, rfl⟩
  unfold parentAdjustStep
  split
  · exact nodeSub_refl acc.1
  · split
    · exact nodeSub_refl acc.1
    · split
      · exact nodeSub_refl acc.1
      · rename_i c0 crest heqc
        split
        · exact nodeSub_refl acc.1
        · rename_i parentNode heqp
          dsimp only
          split
          · rename_i sp heqsp
            split
            · exact nodeSub_refl acc.1
            · rename_i spouseNode heqs
              split
              · exact upd2 acc.1 _ spouseNode _ _ heqs
                  (upd1 acc.1 parentNode person.id _ heqp)
              · split
                · exact upd2 acc.1 _ spouseNode _ _ heqs
                    (upd1 acc.1 parentNode person.id _ heqp)
                · exact nodeSub_refl acc.1
          · split
            · exact upd1 acc.1 parentNode person.id _ heqp
            · split
              · exact upd1 acc.1 parentNode person.id _ heqp
              · exact nodeSub_refl acc.1

theorem parentFold_nodeSub (opts : LayoutOptions) (ped : Pedigree)
    (pgen : List (String × ℤ)) (gen : ℤ) :
    ∀ (persons : List Person) (acc : NodeMap × List String),
      nodeSub acc.1 (persons.foldl (parentAdjustStep opts ped pgen gen) acc).1 := by
  intro persons
  induction persons with
  | nil => intro acc; exact nodeSub_refl acc.1
  | cons p rest ih =>
    intro acc
    exact nodeSub_trans (parentAdjustStep_nodeSub opts ped pgen gen acc p)
      (ih (parentAdjustStep opts ped pgen gen acc p))

theorem childAdjustGroup_nodeSub (opts : LayoutOptions) (gen : ℤ)
    (positions : NodeMap) (siblings : List Person) :
    nodeSub positions (childAdjustGroup opts gen positions siblings) := by
  unfold childAdjustGroup
  split
  · exact nodeSub_refl positions
  · split
    · exact nodeSub_refl positions
    · split
      · exact nodeSub_refl positions
      · dsimp only
        split
        · exact applyOffset_nodeSub _ _ (nodeSub_refl positions)
        · exact applyOffset_nodeSub _ _ (nodeSub_refl positions)

theorem childGroupFold_nodeSub (opts : LayoutOptions) (gen : ℤ) :
    ∀ (groups : List (List Person)) (m : NodeMap),
      nodeSub m (groups.foldl (childAdjustGroup opts gen) m) := by
  intro groups
  induction groups with
  | nil => intro m; exact nodeSub_refl m
  | cons gp rest ih =>
    intro m
    exact nodeSub_trans (childAdjustGroup_nodeSub opts gen m gp)
      (ih (childAdjustGroup opts gen m gp))

theorem adjustParentPositions_nodeSub (opts : LayoutOptions)
    (generations : List (ℤ × List Person)) (ped : Pedigree)
    (pgen : List (String × ℤ)) :
    ∀ (ks : List ℤ) (m : NodeMap),
      nodeSub m (ks.foldl
        (fun m gen =>
          resLoop opts 5
            ((((zget generations gen).getD []).foldl
              (parentAdjustStep opts ped pgen gen) (m, [])).1) gen) m) := by
  intro ks
  induction ks with
  | nil => intro m; exact nodeSub_refl m
  | cons g rest ih =>
    intro m
    refine nodeSub_trans (nodeSub_trans ?_ (resLoop_nodeSub opts 5 _ g)) (ih _)
    exact parentFold_nodeSub opts ped pgen g _ (m, [])

theorem adjustChildrenPositions_nodeSub (opts : LayoutOptions)
    (generations : List (ℤ × List Person)) :
    ∀ (ks : List ℤ) (m : NodeMap),
      nodeSub m (ks.foldl
        (fun m gen =>
          resLoop opts 5
            ((groupSiblings ((zget generations gen).getD [])).foldl
              (childAdjustGroup opts gen) m) gen) m) := by
  intro ks
  induction ks with
  | nil => intro m; exact nodeSub_refl m
  | cons g rest ih =>
    intro m
    refine nodeSub_trans (nodeSub_trans ?_ (resLoop_nodeSub opts 5 _ g)) (ih _)
    exact childGroupFold_nodeSub opts g _ m

theorem resFold_nodeSub (opts : LayoutOptions) :
    ∀ (ks : List ℤ) (m : NodeMap),
      nodeSub m (ks.foldl (fun m g => resLoop opts 10 m g) m) := by
  intro ks
  induction ks with
  | nil => intro m; exact nodeSub_refl m
  | cons g rest ih =>
    intro m
    exact nodeSub_trans (resLoop_nodeSub opts 10 m g) (ih _)

theorem centerLayout_nodeSub (m : NodeMap) : nodeSub m (centerLayout m) := by
  rcases centerLayout_eq_map m with ⟨ox, oy, he⟩
  rw [he]
  intro n' hn'
  rcases List.mem_map.mp hn' with ⟨n, hn, he'⟩
  exact ⟨n, hn, by rw [← he']; rfl, by rw [← he']; rfl⟩

/-! ## Fixed points of the step-3 relaxation loop -/

/-- When one children sweep over a person's `childrenIds` reports no change,
the map is untouched and every child already sits strictly below the read
parent generation. -/
theorem pass3Children_inner_fix (parentGen : ℤ) :
    ∀ (cids : List String) (acc : List (String × ℤ) × Bool)
      (m' : List (String × ℤ)),
      cids.foldl
        (fun acc2 childId =>
          let childMin := (sget acc2.1 childId).getD 0
          if childMin ≤ parentGen then (sset acc2.1 childId (parentGen + 1), true)
          else acc2) acc = (m', false) →
      acc = (m', false) ∧ ∀ c ∈ cids, ¬((sget m' c).getD 0 ≤ parentGen) := by
  intro cids
  induction cids with
  | nil =>
    intro acc m' h
    exact ⟨h, by intro c hc; exact absurd hc (List.not_mem_nil c)⟩
  | cons c r ih =>
    intro acc m' h
    rw [List.foldl_cons] at h
    rcases ih _ m' h with ⟨hstep, hrest⟩
    by_cases hc : (sget acc.1 c).getD 0 ≤ parentGen
    · rw [show (let childMin := (sget acc.1 c).getD 0;
        if childMin ≤ parentGen then (sset acc.1 c (parentGen + 1), true)
        else acc) = (sset acc.1 c (parentGen + 1), true) from by
          dsimp only; rw [if_pos hc]] at hstep
      exact absurd (congrArg Prod.snd hstep) (by simp)
    · rw [show (let childMin := (sget acc.1 c).getD 0;
        if childMin ≤ parentGen then (sset acc.1 c (parentGen + 1), true)
        else acc) = acc from by dsimp only; rw [if_neg hc]] at hstep
      refine ⟨hstep, ?_⟩
      intro c' hc'
      rcases List.mem_cons.mp hc' with rfl | hr
      · rw [show m' = acc.1 from (congrArg Prod.fst hstep).symm]
        exact hc
      · exact hrest c' hr

/-- A no-change children half-pass leaves the map untouched and certifies
the child/parent constraint for every `childrenIds` link. -/
theorem pass3Children_fix :
    ∀ (persons : List Person) (acc : List (String × ℤ) × Bool)
      (m' : List (String × ℤ)),
      persons.foldl
        (fun acc p =>
          let parentGen := (sget acc.1 p.id).getD 0
          p.childrenIds.foldl
            (fun acc2 childId =>
              let childMin := (sget acc2.1 childId).getD 0
              if childMin ≤ parentGen then
                (sset acc2.1 childId (parentGen + 1), true)
              else acc2)
            acc) acc = (m', false) →
      acc = (m', false) ∧ ∀ p ∈ persons, ∀ c ∈ p.childrenIds,
        ¬((sget m' c).getD 0 ≤ (sget m' p.id).getD 0) := by
  intro persons
  induction persons with
  | nil =>
    intro acc m' h
    exact ⟨h, by intro p hp; exact absurd hp (List.not_mem_nil p)⟩
  | cons p r ih =>
    intro acc m' h
    rw [List.foldl_cons] at h
    rcases ih _ m' h with ⟨hstep, hrest⟩
    rcases pass3Children_inner_fix _ _ _ _ hstep with ⟨hacc, hkids⟩
    refine ⟨hacc, ?_⟩
    intro p' hp' c hc
    rcases List.mem_cons.mp hp' with rfl | hr
    · have hm : acc.1 = m' := congrArg Prod.fst hacc
      rw [← hm]
      exact hm ▸ hkids c hc
    · exact hrest p' hr c hc

/-- When one spouse sweep over a person's `spouseIds` reports no change, the
map is untouched and every spouse generation already equals the read person
generation. -/
theorem pass3Spouse_inner_fix (currentMin : ℤ) (pid : String) :
    ∀ (sids : List String) (acc : List (String × ℤ) × Bool)
      (m' : List (String × ℤ)),
      sids.foldl
        (fun acc2 spouseId =>
          let spouseMin := (sget acc2.1 spouseId).getD 0
          if spouseMin ≠ currentMin then
            let maxGen := max spouseMin currentMin
            (sset (sset acc2.1 pid maxGen) spouseId maxGen, true)
          else acc2) acc = (m', false) →
      acc = (m', false) ∧ ∀ s ∈ sids, (sget m' s).getD 0 = currentMin := by
  intro sids
  induction sids with
  | nil =>
    intro acc m' h
    exact ⟨h, by intro s hs; exact absurd hs (List.not_mem_nil s)⟩
  | cons s r ih =>
    intro acc m' h
    rw [List.foldl_cons] at h
    rcases ih _ m' h with ⟨hstep, hrest⟩
    by_cases hc : (sget acc.1 s).getD 0 ≠ currentMin
    · rw [show (let spouseMin := (sget acc.1 s).getD 0;
        if spouseMin ≠ currentMin then
          (sset (sset acc.1 pid (max spouseMin currentMin)) s
            (max spouseMin currentMin), true)
        else acc) = (sset (sset acc.1 pid (max ((sget acc.1 s).getD 0) currentMin))
          s (max ((sget acc.1 s).getD 0) currentMin), true) from by
          dsimp only; rw [if_pos hc]] at hstep
      exact absurd (congrArg Prod.snd hstep) (by simp)
    · rw [show (let spouseMin := (sget acc.1 s).getD 0;
        if spouseMin ≠ currentMin then
          (sset (sset acc.1 pid (max spouseMin currentMin)) s
            (max spouseMin currentMin), true)
        else acc) = acc from by dsimp only; rw [if_neg hc]] at hstep
      refine ⟨hstep, ?_⟩
      intro s' hs'
      rcases List.mem_cons.mp hs' with rfl | hr
      · rw [show m' = acc.1 from (congrArg Prod.fst hstep).symm]
        exact not_ne_iff.mp hc
      · exact hrest s' hr

/-- A no-change spouse half-pass leaves the map untouched and certifies the
spouse-equality constraint for every `spouseIds` link. -/
theorem pass3Spouse_fix :
    ∀ (persons : List Person) (acc : List (String × ℤ) × Bool)
      (m' : List (String × ℤ)),
      pass3Spouse persons acc = (m', false) →
      acc = (m', false) ∧ ∀ p ∈ persons, ∀ s ∈ p.spouseIds,
        (sget m' s).getD 0 = (sget m' p.id).getD 0 := by
  intro persons
  induction persons with
  | nil =>
    intro acc m' h
    exact ⟨h, by intro p hp; exact absurd hp (List.not_mem_nil p)⟩
  | cons p r ih =>
    intro acc m' h
    rw [show pass3Spouse (p :: r) acc = pass3Spouse r
      (p.spouseIds.foldl
        (fun acc2 spouseId =>
          let spouseMin := (sget acc2.1 spouseId).getD 0
          if spouseMin ≠ (sget acc.1 p.id).getD 0 then
            let maxGen := max spouseMin ((sget acc.1 p.id).getD 0)
            (sset (sset acc2.1 p.id maxGen) spouseId maxGen, true)
          else acc2) acc) from rfl] at h
    rcases ih _ m' h with ⟨hstep, hrest⟩
    rcases pass3Spouse_inner_fix _ _ _ _ _ hstep with ⟨hacc, hsps⟩
    refine ⟨hacc, ?_⟩
    intro p' hp' s hs
    rcases List.mem_cons.mp hp' with rfl | hr
    · have hm : acc.1 = m' := congrArg Prod.fst hacc
      rw [hsps s hs, hm]
    · exact hrest p' hr s hs

/-- The spouse half-pass keeps an already-raised change flag. -/
theorem pass3Spouse_mono (persons : List Person)
    (acc : List (String × ℤ) × Bool) (h : acc.2 = true) :
    (pass3Spouse persons acc).2 = true := by
  unfold pass3Spouse
  apply fold_changed_mono _ _ persons acc h
  intro acc p hacc
  apply fold_changed_mono _ _ p.spouseIds acc hacc
  intro acc2 sid hacc2
  dsimp only
  split
  · rfl
  · exact hacc2

/-- A full step-3 pass that reports no change leaves the map untouched, and
the map then satisfies the per-`childrenIds` parent constraint and spouse
generation equality. -/
theorem pass3_fix (persons : List Person) (mg m' : List (String × ℤ))
    (h : pass3 persons mg = (m', false)) :
    mg = m'
      ∧ (∀ p ∈ persons, ∀ c ∈ p.childrenIds,
          ¬((sget m' c).getD 0 ≤ (sget m' p.id).getD 0))
      ∧ (∀ p ∈ persons, ∀ s ∈ p.spouseIds,
          (sget m' s).getD 0 = (sget m' p.id).getD 0) := by
  unfold pass3 at h
  have hc2 : (pass3Children persons mg).2 = false := by
    by_contra hb
    have := pass3Spouse_mono persons (pass3Children persons mg)
      (Bool.of_not_eq_false hb)
    rw [h] at this
    exact Bool.false_ne_true this
  have hcpair : pass3Children persons mg = ((pass3Children persons mg).1, false) := by
    rw [← hc2]
  rw [hcpair] at h
  rcases pass3Spouse_fix persons _ m' h with ⟨hacc, hsp⟩
  have hc1 : (pass3Children persons mg).1 = m' := congrArg Prod.fst hacc
  have hcfix : pass3Children persons mg = (m', false) := by rw [hcpair, hc1]
  rcases pass3Children_fix persons (mg, false) m' hcfix with ⟨hmg, hch⟩
  exact ⟨congrArg Prod.fst hmg, hch, hsp⟩

/-- Whatever map the step-3 loop returns is a fixed point of the pass. -/
theorem loop3_fix :
    ∀ (fuel : ℕ) (persons : List Person) (mg mgOut : List (String × ℤ)),
      loop3 persons fuel mg = some mgOut →
      pass3 persons mgOut = (mgOut, false) := by
  intro fuel
  induction fuel with
  | zero => intro persons mg mgOut h; exact Option.noConfusion h
  | succ n ih =>
    intro persons mg mgOut h
    have hstep : loop3 persons (n + 1) mg
        = if (pass3 persons mg).2 then loop3 persons n (pass3 persons mg).1
          else some (pass3 persons mg).1 := rfl
    rw [hstep] at h
    by_cases hc : (pass3 persons mg).2
    · rw [if_pos hc] at h
      exact ih persons _ mgOut h
    · rw [if_neg hc] at h
      injection h with h1
      have hp : pass3 persons mg = (mgOut, false) := by
        rw [show pass3 persons mg
          = ((pass3 persons mg).1, (pass3 persons mg).2) from rfl, h1,
          Bool.not_eq_true] at *
        rw [hc]
      have := pass3_fix persons mg mgOut hp
      rw [← this.1] at hp ⊢
      exact hp

/-! ## What normalization produces -/

/-- The body of the step-4 normalization fold, with the pre-computed global
minimum as a parameter (`normalizeGens` is definitionally the fold of this
step over the map). -/
def normStep (ped : Pedigree) (c : ℤ)
    (acc : List (String × ℤ) × List (ℤ × List Person)) (e : String × ℤ) :
    List (String × ℤ) × List (ℤ × List Person) :=
  let normalizedGen := e.2 - c
  let pg := sset acc.1 e.1 normalizedGen
  let gens :=
    match zget acc.2 normalizedGen with
    | none =>
      match ped.getPerson e.1 with
      | some person => zset acc.2 normalizedGen [person]
      | none => zset acc.2 normalizedGen []
    | some lst =>
      match ped.getPerson e.1 with
      | some person =>
        if (lst.find? (fun p => p.id = e.1)).isSome then acc.2
        else zset acc.2 normalizedGen (lst ++ [person])
      | none => acc.2
  (pg, gens)

theorem normalizeGens_eq (ped : Pedigree) (mg : List (String × ℤ)) :
    normalizeGens ped mg = mg.foldl (normStep ped (minAllGens mg)) ([], []) := rfl

/-- The `personGenerations` component of the fold ignores the generation
lists: it is a plain fold of `sset`s. -/
theorem normFold_fst (ped : Pedigree) (c : ℤ) :
    ∀ (l : List (String × ℤ)) (acc : List (String × ℤ) × List (ℤ × List Person)),
      (l.foldl (normStep ped c) acc).1
        = l.foldl (fun pg e => sset pg e.1 (e.2 - c)) acc.1 := by
  intro l
  induction l with
  | nil => intro acc; rfl
  | cons e r ih =>
    intro acc
    rw [List.foldl_cons, List.foldl_cons, ih]
    rfl

theorem fold_sset_sub_not_mem (c : ℤ) :
    ∀ (l : List (String × ℤ)) (pg : List (String × ℤ)) (k : String),
      k ∉ l.map Prod.fst →
      sget (l.foldl (fun pg e => sset pg e.1 (e.2 - c)) pg) k = sget pg k := by
  intro l
  induction l with
  | nil => intro pg k _; rfl
  | cons e r ih =>
    intro pg k hk
    rw [List.map_cons, List.mem_cons] at hk
    push_neg at hk
    rw [List.foldl_cons, ih _ k hk.2, sget_sset_ne _ _ _ _ hk.1]

theorem fold_sset_sub_mem (c : ℤ) :
    ∀ (l : List (String × ℤ)) (pg : List (String × ℤ)) (k : String) (v : ℤ),
      (l.map Prod.fst).Nodup → (k, v) ∈ l →
      sget (l.foldl (fun pg e => sset pg e.1 (e.2 - c)) pg) k = some (v - c) := by
  intro l
  induction l with
  | nil => intro pg k v _ hm; exact absurd hm (List.not_mem_nil _)
  | cons e r ih =>
    intro pg k v hnd hm
    rw [List.map_cons, List.nodup_cons] at hnd
    rw [List.foldl_cons]
    rcases List.mem_cons.mp hm with rfl | hr
    · rw [fold_sset_sub_not_mem c r _ k hnd.1, sget_sset_self]
    · exact ih _ k v hnd.2 hr

/-- Per-entry value of the written `personGenerations` map: the stored
minimum minus the global minimum. -/
theorem normalizeGens_pg (ped : Pedigree) (mg : List (String × ℤ))
    (hnd : skeysND mg) (k : String) (v : ℤ) (h : sget mg k = some v) :
    sget (normalizeGens ped mg).1 k = some (v - minAllGens mg) := by
  rw [normalizeGens_eq, normFold_fst]
  exact fold_sset_sub_mem _ mg [] k v hnd (sget_mem mg k v h)

/-- Ids with no entry in the minimum-generation map get none in
`personGenerations` either. -/
theorem normalizeGens_pg_none (ped : Pedigree) (mg : List (String × ℤ))
    (k : String) (h : sget mg k = none) :
    sget (normalizeGens ped mg).1 k = none := by
  rw [normalizeGens_eq, normFold_fst]
  rw [fold_sset_sub_not_mem _ mg [] k ((sget_none_iff mg k).mp h)]
  rfl

/-- `Math.min(...allGens)` bounds every stored value from below. -/
theorem minAllGens_le (mg : List (String × ℤ)) :
    ∀ (k : String) (v : ℤ), (k, v) ∈ mg → minAllGens mg ≤ v := by
  have haux : ∀ (r : List ℤ) (a : ℤ),
      r.foldl min a ≤ a ∧ ∀ x ∈ r, r.foldl min a ≤ x := by
    intro r
    induction r with
    | nil => intro a; exact ⟨le_refl a, by intro x hx; exact absurd hx (List.not_mem_nil x)⟩
    | cons b r ih =>
      intro a
      rw [List.foldl_cons]
      refine ⟨(ih (min a b)).1.trans (min_le_left a b), ?_⟩
      intro x hx
      rcases List.mem_cons.mp hx with rfl | hr
      · exact (ih (min a x)).1.trans (min_le_right a x)
      · exact (ih (min a b)).2 x hr
  intro k v hm
  have hv : v ∈ mg.map Prod.snd := List.mem_map.mpr ⟨(k, v), hm, rfl⟩
  unfold minAllGens
  cases hms : mg.map Prod.snd with
  | nil => rw [hms] at hv; exact absurd hv (List.not_mem_nil v)
  | cons a r =>
    rw [hms] at hv
    rcases List.mem_cons.mp hv with rfl | hr
    · exact (haux r v).1
    · exact (haux r a).2 v hr

/-! ## The generation lists built by normalization -/

theorem zget_zset_self {α : Type} (m : List (ℤ × α)) (k : ℤ) (v : α) :
    zget (zset m k v) k = some v := by
  induction m with
  | nil => simp [zget, zset]
  | cons e r ih =>
    by_cases h : e.1 = k
    · simp [zget, zset, h]
    · simp [zget, zset, h, ih]

theorem zget_zset_ne {α : Type} (m : List (ℤ × α)) (k k' : ℤ) (v : α)
    (h : k' ≠ k) : zget (zset m k v) k' = zget m k' := by
  induction m with
  | nil => simp [zget, zset, Ne.symm h]
  | cons e r ih =>
    by_cases he : e.1 = k
    · simp [zget, zset, he, Ne.symm h]
    · simp only [zset, if_neg he, zget, ih]

theorem getPerson_id {ped : Pedigree} {k : String} {q : Person}
    (h : ped.getPerson k = some q) : q.id = k := by
  have := List.find?_some h
  simpa using this

theorem getPerson_mem {ped : Pedigree} {k : String} {q : Person}
    (h : ped.getPerson k = some q) : q ∈ ped.persons :=
  List.mem_of_find?_eq_some h

/-- One normalization step only grows the generation lists. -/
theorem normStep_gens_mono (ped : Pedigree) (c : ℤ)
    (acc : List (String × ℤ) × List (ℤ × List Person)) (e : String × ℤ)
    (g : ℤ) (lst : List Person) (h : zget acc.2 g = some lst) :
    ∃ lst', zget (normStep ped c acc e).2 g = some lst' ∧ ∀ q ∈ lst, q ∈ lst' := by
  unfold normStep
  dsimp only
  split
  · rename_i heqz
    have hg : g ≠ e.2 - c := by
      intro hge
      rw [hge, heqz] at h
      exact Option.noConfusion h
    split
    · exact ⟨lst, by rw [zget_zset_ne _ _ _ _ hg]; exact h, fun q hq => hq⟩
    · exact ⟨lst, by rw [zget_zset_ne _ _ _ _ hg]; exact h, fun q hq => hq⟩
  · rename_i l0 heqz
    split
    · split
      · exact ⟨lst, h, fun q hq => hq⟩
      · rename_i person heqp hf
        by_cases hg : g = e.2 - c
        · subst hg
          rw [heqz] at h
          injection h with h'
          subst h'
          exact ⟨l0 ++ [person], zget_zset_self _ _ _,
            fun q hq => List.mem_append_left _ hq⟩
        · exact ⟨lst, by rw [zget_zset_ne _ _ _ _ hg]; exact h, fun q hq => hq⟩
    · exact ⟨lst, h, fun q hq => hq⟩

theorem normFold_gens_mono (ped : Pedigree) (c : ℤ) :
    ∀ (l : List (String × ℤ)) (acc : List (String × ℤ) × List (ℤ × List Person))
      (g : ℤ) (lst : List Person), zget acc.2 g = some lst →
      ∃ lst', zget (l.foldl (normStep ped c) acc).2 g = some lst'
        ∧ ∀ q ∈ lst, q ∈ lst' := by
  intro l
  induction l with
  | nil => intro acc g lst h; exact ⟨lst, h, fun q hq => hq⟩
  | cons e r ih =>
    intro acc g lst h
    rcases normStep_gens_mono ped c acc e g lst h with ⟨lst1, h1, hsub1⟩
    rcases ih (normStep ped c acc e) g lst1 h1 with ⟨lst2, h2, hsub2⟩
    exact ⟨lst2, h2, fun q hq => hsub2 q (hsub1 q hq)⟩

/-- Every map entry whose id has a person record ends up (by id) in the
generation list of its normalized generation. -/
theorem normFold_gens_covers (ped : Pedigree) (c : ℤ) :
    ∀ (l : List (String × ℤ)) (acc : List (String × ℤ) × List (ℤ × List Person))
      (k : String) (v : ℤ),
      ((k, v) ∈ l ∨ ∃ lst, zget acc.2 (v - c) = some lst ∧ ∃ q ∈ lst, q.id = k) →
      (ped.getPerson k).isSome →
      ∃ lst, zget (l.foldl (normStep ped c) acc).2 (v - c) = some lst
        ∧ ∃ q ∈ lst, q.id = k := by
  intro l
  induction l with
  | nil =>
    intro acc k v hor _
    rcases hor with h | h
    · exact absurd h (List.not_mem_nil _)
    · exact h
  | cons e r ih =>
    intro acc k v hor hps
    rw [List.foldl_cons]
    rcases hor with hl | hs
    · rcases List.mem_cons.mp hl with he | hr
      · rcases Option.isSome_iff_exists.mp hps with ⟨q, hq⟩
        apply ih _ k v _ hps
        refine Or.inr ?_
        have hke : e = (k, v) := he.symm
        subst hke
        show ∃ lst, zget (normStep ped c acc (k, v)).2 ((k, v).2 - c) = some lst
          ∧ ∃ q' ∈ lst, q'.id = k
        unfold normStep
        dsimp only
        split
        · rename_i heqz
          split
          · rename_i person heqp
            rw [hq] at heqp
            injection heqp with heqp'
            subst heqp'
            exact ⟨[q], zget_zset_self _ _ _,
              ⟨q, List.mem_singleton_self q, getPerson_id hq⟩⟩
          · rename_i heqp
            rw [hq] at heqp
            exact Option.noConfusion heqp
        · rename_i l0 heqz
          split
          · rename_i person heqp
            rw [hq] at heqp
            injection heqp with heqp'
            subst heqp'
            by_cases hf : (l0.find? (fun p => p.id = k)).isSome
            · rw [if_pos hf]
              rcases Option.isSome_iff_exists.mp hf with ⟨q', hq'⟩
              refine ⟨l0, heqz, q', List.mem_of_find?_eq_some hq', ?_⟩
              have := List.find?_some hq'
              simpa using this
            · rw [if_neg hf]
              exact ⟨l0 ++ [q], zget_zset_self _ _ _,
                ⟨q, List.mem_append_right _ (List.mem_singleton_self q),
                  getPerson_id hq⟩⟩
          · rename_i heqp
            rw [hq] at heqp
            exact Option.noConfusion heqp
      · exact ih _ k v (Or.inl hr) hps
    · rcases hs with ⟨lst, hlst, q, hqm, hqid⟩
      rcases normStep_gens_mono ped c acc e (v - c) lst hlst with ⟨lst1, h1, hsub⟩
      exact ih _ k v (Or.inr ⟨lst1, h1, q, hsub q hqm, hqid⟩) hps

/-- Soundness of the generation lists: every listed person is the pedigree's
record for its id, and its generation key is its normalized stored value. -/
theorem normFold_gens_sound (ped : Pedigree) (c : ℤ)
    (mg : List (String × ℤ)) :
    ∀ (l : List (String × ℤ))
      (acc : List (String × ℤ) × List (ℤ × List Person)),
      (∀ e ∈ l, e ∈ mg) →
      (∀ g lst, zget acc.2 g = some lst → ∀ q ∈ lst,
        ped.getPerson q.id = some q ∧ ∃ v, (q.id, v) ∈ mg ∧ v - c = g) →
      ∀ g lst, zget (l.foldl (normStep ped c) acc).2 g = some lst → ∀ q ∈ lst,
        ped.getPerson q.id = some q ∧ ∃ v, (q.id, v) ∈ mg ∧ v - c = g := by
  intro l
  induction l with
  | nil => intro acc _ hacc; exact hacc
  | cons e r ih =>
    intro acc hsub hacc
    rw [List.foldl_cons]
    apply ih _ (fun x hx => hsub x (List.mem_cons_of_mem _ hx))
    intro g lst hg q hq
    have hem : e ∈ mg := hsub e (List.mem_cons_self _ _)
    have hnew : ∀ person, ped.getPerson e.1 = some person → q = person →
        ped.getPerson q.id = some q ∧ ∃ v, (q.id, v) ∈ mg ∧ v - c = e.2 - c := by
      intro person hp hqp
      subst hqp
      refine ⟨by rw [getPerson_id hp]; exact hp, e.2, ?_, rfl⟩
      rw [getPerson_id hp]
      exact hem
    unfold normStep at hg
    dsimp only at hg
    split at hg
    · rename_i heqz
      split at hg
      · rename_i person heqp
        by_cases hge : g = e.2 - c
        · subst hge
          rw [zget_zset_self] at hg
          injection hg with hg'
          rw [← hg'] at hq
          exact hnew person heqp (List.mem_singleton.mp hq)
        · rw [zget_zset_ne _ _ _ _ hge] at hg
          exact hacc _ lst hg q hq
      · rename_i heqp
        by_cases hge : g = e.2 - c
        · subst hge
          rw [zget_zset_self] at hg
          injection hg with hg'
          rw [← hg'] at hq
          exact absurd hq (List.not_mem_nil q)
        · rw [zget_zset_ne _ _ _ _ hge] at hg
          exact hacc _ lst hg q hq
    · rename_i l0 heqz
      split at hg
      · rename_i person heqp
        split at hg
        · exact hacc _ lst hg q hq
        · by_cases hge : g = e.2 - c
          · subst hge
            rw [zget_zset_self] at hg
            injection hg with hg'
            rw [← hg'] at hq
            rcases List.mem_append.mp hq with hq0 | hq1
            · exact hacc _ l0 heqz q hq0
            · exact hnew person heqp (List.mem_singleton.mp hq1)
          · rw [zget_zset_ne _ _ _ _ hge] at hg
            exact hacc _ lst hg q hq
      · rename_i heqp
        exact hacc _ lst hg q hq

/-! ## Unpacking a successful `assignGenerations`/`layout` run -/

/-- A successful `assignGenerations` run exposes the fixed-point map of the
step-3 loop: the returned generations and person-generation map are its
normalization, its keys are unique, every person id is covered, and the
step-3 pass is stationary on it. -/
theorem assignGenerations_inv (ped : Pedigree) (fuel : ℕ)
    (generations : List (ℤ × List Person)) (pgen : List (String × ℤ))
    (h : assignGenerations ped fuel = some (generations, pgen)) :
    ∃ mg3 : List (String × ℤ),
      pgen = (normalizeGens ped mg3).1
      ∧ generations = (normalizeGens ped mg3).2
      ∧ skeysND mg3
      ∧ (∀ p ∈ ped.persons, (sget mg3 p.id).isSome)
      ∧ pass3 ped.persons mg3 = (mg3, false) := by
  unfold assignGenerations at h
  dsimp only at h
  cases h2 : loop2 ped.persons fuel (runCalcAll ped) with
  | none => rw [h2] at h; exact Option.noConfusion h
  | some mg2 =>
    rw [h2] at h
    replace h : (match loop3 ped.persons fuel mg2 with
      | none => (none : Option (List (ℤ × List Person) × List (String × ℤ)))
      | some mg3 =>
        some ((normalizeGens ped mg3).2, (normalizeGens ped mg3).1)) =
          some (generations, pgen) := h
    cases h3 : loop3 ped.persons fuel mg2 with
    | none => rw [h3] at h; exact Option.noConfusion h
    | some mg3 =>
      rw [h3] at h
      injection h with h'
      have hnd : skeysND mg3 :=
        loop3_preserve skeysND (fun m k v hh => sset_skeysND m k v hh) fuel
          ped.persons mg2 mg3
          (loop2_preserve skeysND (fun m k v hh => sset_skeysND m k v hh) fuel
            ped.persons (runCalcAll ped) mg2 (runCalcAll_skeysND ped) h2) h3
      have hcov : ∀ p ∈ ped.persons, (sget mg3 p.id).isSome := by
        intro p hp
        have hc1 := runCalcAll_covers ped p hp
        have hc2 := loop2_preserve (fun m => (sget m p.id).isSome)
          (fun m k v hh => sget_sset_isSome m k p.id v hh) fuel
          ped.persons (runCalcAll ped) mg2 hc1 h2
        exact loop3_preserve (fun m => (sget m p.id).isSome)
          (fun m k v hh => sget_sset_isSome m k p.id v hh) fuel
          ped.persons mg2 mg3 hc2 h3
      exact ⟨mg3, (congrArg Prod.snd h').symm, (congrArg Prod.fst h').symm,
        hnd, hcov, loop3_fix fuel ped.persons mg2 mg3 h3⟩

/-- A successful `layout` run on a non-empty pedigree comes from a successful
`assignGenerations` run returning the same person-generation map. -/
theorem layout_assign (opts : LayoutOptions) (fuel : ℕ) (ped : Pedigree)
    (nodes : NodeMap) (pgen : List (String × ℤ))
    (hemp : ¬ ped.persons.isEmpty)
    (h : layout opts fuel ped = some (nodes, pgen)) :
    ∃ generations, assignGenerations ped fuel = some (generations, pgen) := by
  unfold layout at h
  rw [if_neg hemp] at h
  cases hassign : assignGenerations ped fuel with
  | none => rw [hassign] at h; exact Option.noConfusion h
  | some r =>
    obtain ⟨generations, pg'⟩ := r
    rw [hassign] at h
    injection h with h'
    exact ⟨generations, by rw [show pg' = pgen from congrArg Prod.snd h']⟩

/-! ## C4: spouse generation equality, and C3: generation bounds -/

/-- C4, confirmed: whenever `layout` returns, any two persons of the
pedigree linked by a `spouseIds` entry (in either direction) are assigned
the same generation. -/
theorem spouse_generations_equal (opts : LayoutOptions) (fuel : ℕ)
    (ped : Pedigree) (nodes : NodeMap) (pgen : List (String × ℤ))
    (h : layout opts fuel ped = some (nodes, pgen)) :
    ∀ a ∈ ped.persons, ∀ b ∈ ped.persons,
      (b.id ∈ a.spouseIds ∨ a.id ∈ b.spouseIds) →
      ∃ g, sget pgen a.id = some g ∧ sget pgen b.id = some g := by
  intro a ha b hb hsp
  by_cases hemp : ped.persons.isEmpty
  · rw [List.isEmpty_iff.mp hemp] at ha
    exact absurd ha (List.not_mem_nil a)
  · obtain ⟨generations, hassign⟩ := layout_assign opts fuel ped nodes pgen hemp h
    obtain ⟨mg3, hpg, _, hnd, hcov, hfix⟩ :=
      assignGenerations_inv ped fuel generations pgen hassign
    rcases pass3_fix ped.persons mg3 mg3 hfix with ⟨_, _, hspouse⟩
    rcases Option.isSome_iff_exists.mp (hcov a ha) with ⟨va, hva⟩
    rcases Option.isSome_iff_exists.mp (hcov b hb) with ⟨vb, hvb⟩
    have hveq : va = vb := by
      rcases hsp with hba | hab
      · have hs := hspouse a ha b.id hba
        rw [hva, hvb] at hs
        exact hs.symm
      · have hs := hspouse b hb a.id hab
        rw [hva, hvb] at hs
        exact hs
    refine ⟨va - minAllGens mg3, ?_, ?_⟩
    · rw [hpg]
      exact normalizeGens_pg ped mg3 hnd a.id va hva
    · rw [hpg, hveq]
      exact normalizeGens_pg ped mg3 hnd b.id vb hvb

/-- A founder couple with one shared child, for the C4 witness. -/
def pedC4 : Pedigree :=
  { persons :=
      [{ id := "A", fatherId := none, motherId := none, spouseIds := ["B"],
         childrenIds := ["C"] },
       { id := "B", fatherId := none, motherId := none, spouseIds := ["A"],
         childrenIds := ["C"] },
       { id := "C", fatherId := some "A", motherId := some "B", spouseIds := [],
         childrenIds := [] }]
    relationships := [] }

/-- The `layout` result on `pedC4`. -/
def layC4 : NodeMap × List (String × ℤ) :=
  (layout DEFAULT_LAYOUT_OPTIONS 6 pedC4).getD ([], [])

/-- Witness for C4 at the founder couple. -/
theorem spouse_generations_equal_witness :
    ∃ g, sget layC4.2 "A" = some g ∧ sget layC4.2 "B" = some g :=
  spouse_generations_equal DEFAULT_LAYOUT_OPTIONS 6 pedC4 layC4.1 layC4.2
    (by with_unfolding_all rfl)
    ⟨"A", none, none, ["B"], ["C"]⟩ (List.mem_cons_self _ _)
    ⟨"B", none, none, ["A"], ["C"]⟩
    (List.mem_cons_of_mem _ (List.mem_cons_self _ _))
    (Or.inl (List.mem_singleton_self _))

/-- C3, amended: whenever `layout` returns, every person of the pedigree is
assigned a generation ≥ 0, and the parent constraint holds along
`childrenIds` links: a person listed as a child of `p` (and present in the
generation map) sits at least one generation below `p`.  (The constraint
does not hold along `fatherId`/`motherId` links, see the counterexample.) -/
theorem generation_bounds (opts : LayoutOptions) (fuel : ℕ) (ped : Pedigree)
    (nodes : NodeMap) (pgen : List (String × ℤ))
    (h : layout opts fuel ped = some (nodes, pgen)) :
    (∀ p ∈ ped.persons, ∃ g, sget pgen p.id = some g ∧ 0 ≤ g)
      ∧ ∀ p ∈ ped.persons, ∀ c ∈ p.childrenIds, ∀ gp gc,
          sget pgen p.id = some gp → sget pgen c = some gc → gp + 1 ≤ gc := by
  by_cases hemp : ped.persons.isEmpty
  · rw [List.isEmpty_iff.mp hemp]
    exact ⟨fun p hp => absurd hp (List.not_mem_nil p),
      fun p hp => absurd hp (List.not_mem_nil p)⟩
  · obtain ⟨generations, hassign⟩ := layout_assign opts fuel ped nodes pgen hemp h
    obtain ⟨mg3, hpg, _, hnd, hcov, hfix⟩ :=
      assignGenerations_inv ped fuel generations pgen hassign
    rcases pass3_fix ped.persons mg3 mg3 hfix with ⟨_, hch, _⟩
    constructor
    · intro p hp
      rcases Option.isSome_iff_exists.mp (hcov p hp) with ⟨v, hv⟩
      refine ⟨v - minAllGens mg3, ?_, ?_⟩
      · rw [hpg]
        exact normalizeGens_pg ped mg3 hnd p.id v hv
      · exact sub_nonneg.mpr (minAllGens_le mg3 p.id v (sget_mem mg3 p.id v hv))
    · intro p hp c hc gp gc hgp hgc
      rcases Option.isSome_iff_exists.mp (hcov p hp) with ⟨vp, hvp⟩
      have hgp' : gp = vp - minAllGens mg3 := by
        rw [hpg] at hgp
        rw [normalizeGens_pg ped mg3 hnd p.id vp hvp] at hgp
        exact (Option.some.inj hgp).symm
      cases hvc : sget mg3 c with
      | none =>
        rw [hpg, normalizeGens_pg_none ped mg3 c hvc] at hgc
        exact Option.noConfusion hgc
      | some vc =>
        have hgc' : gc = vc - minAllGens mg3 := by
          rw [hpg] at hgc
          rw [normalizeGens_pg ped mg3 hnd c vc hvc] at hgc
          exact (Option.some.inj hgc).symm
        have hlt := hch p hp c hc
        rw [hvc, hvp] at hlt
        have : vp < vc := lt_of_not_le hlt
        rw [hgp', hgc']
        omega

/-- The C3 counterexample pedigree: founder `f` with child `s`; `s` married
to founder `q`; `p` has `fatherId = "q"` but is listed in nobody's
`childrenIds`. -/
def pedC3 : Pedigree :=
  { persons :=
      [{ id := "f", fatherId := none, motherId := none, spouseIds := [],
         childrenIds := ["s"] },
       { id := "s", fatherId := some "f", motherId := none, spouseIds := ["q"],
         childrenIds := [] },
       { id := "q", fatherId := none, motherId := none, spouseIds := ["s"],
         childrenIds := [] },
       { id := "p", fatherId := some "q", motherId := none, spouseIds := [],
         childrenIds := [] }]
    relationships := [] }

/-- C3, the original father/mother form refuted: in `pedC3`, person `p` has
father `q` present in the pedigree, yet both end at generation 1 — the
spouse-equalization raised `q` to generation 1 and nothing re-raised `p`,
because the parent constraint is enforced only along `childrenIds` links. -/
theorem father_link_constraint_cex :
    (pedC3.getPerson "p").map Person.fatherId = some (some "q")
      ∧ ((pedC3.getPerson "q").map Person.id = some "q")
      ∧ (layout DEFAULT_LAYOUT_OPTIONS 6 pedC3).map
          (fun r => (sget r.2 "p", sget r.2 "q")) = some (some 1, some 1)
      ∧ ¬ ((1 : ℤ) + 1 ≤ 1) :=
  ⟨by with_unfolding_all rfl, by with_unfolding_all rfl,
    by with_unfolding_all rfl, by decide⟩

/-- The `layout` result on `pedC3`. -/
def layC3 : NodeMap × List (String × ℤ) :=
  (layout DEFAULT_LAYOUT_OPTIONS 6 pedC3).getD ([], [])

/-- Witness for the amended C3 at `pedC3`: the founder `f` gets a
nonnegative generation, and its `childrenIds` link to `s` is respected. -/
theorem generation_bounds_witness :
    (∃ g, sget layC3.2 "f" = some g ∧ 0 ≤ g)
      ∧ (∀ gp gc, sget layC3.2 "f" = some gp → sget layC3.2 "s" = some gc →
          gp + 1 ≤ gc) := by
  have hb := generation_bounds DEFAULT_LAYOUT_OPTIONS 6 pedC3 layC3.1 layC3.2
    (by with_unfolding_all rfl)
  refine ⟨hb.1 ⟨"f", none, none, [], ["s"]⟩ (List.mem_cons_self _ _), ?_⟩
  exact hb.2 ⟨"f", none, none, [], ["s"]⟩ (List.mem_cons_self _ _) "s"
    (List.mem_singleton_self _)

/-! ## Generic fold facts for the coverage argument -/

theorem foldl_invariant {β γ : Type} (step : β → γ → β) (P : β → Prop)
    (hstep : ∀ acc x, P acc → P (step acc x)) :
    ∀ (l : List γ) (acc : β), P acc → P (l.foldl step acc) := by
  intro l
  induction l with
  | nil => intro acc h; exact h
  | cons x r ih => intro acc h; exact ih (step acc x) (hstep acc x h)

theorem foldl_invariant_mem {β γ : Type} (step : β → γ → β) (P : β → Prop)
    (S : γ → Prop) (hstep : ∀ acc x, S x → P acc → P (step acc x)) :
    ∀ (l : List γ), (∀ x ∈ l, S x) → ∀ acc : β, P acc → P (l.foldl step acc) := by
  intro l
  induction l with
  | nil => intro _ acc h; exact h
  | cons x r ih =>
    intro hS acc h
    exact ih (fun y hy => hS y (List.mem_cons_of_mem _ hy)) (step acc x)
      (hstep acc x (hS x (List.mem_cons_self _ _)) h)

theorem foldl_growth {α β γ : Type} (pr : β → List α) (step : β → γ → β)
    (hgrow : ∀ acc x, ∃ t, pr (step acc x) = pr acc ++ t) :
    ∀ (l : List γ) (acc : β), ∃ t, pr (l.foldl step acc) = pr acc ++ t := by
  intro l
  induction l with
  | nil => intro acc; exact ⟨[], (List.append_nil _).symm⟩
  | cons x r ih =>
    intro acc
    rcases hgrow acc x with ⟨t1, ht1⟩
    rcases ih (step acc x) with ⟨t2, ht2⟩
    exact ⟨t1 ++ t2, by rw [List.foldl_cons, ht2, ht1, List.append_assoc]⟩

/-- A fold whose steps append persons, keep every processed id covered by a
person in the list, and cover the id of the element just folded, covers the
id of every folded person. -/
theorem fold_covers (step : List Person × List String → Person →
      List Person × List String)
    (hgrow : ∀ acc x, ∃ t, (step acc x).1 = acc.1 ++ t)
    (hP2 : ∀ acc x, (∀ i ∈ acc.2, ∃ q ∈ acc.1, q.id = i) →
      ∀ i ∈ (step acc x).2, ∃ q ∈ (step acc x).1, q.id = i)
    (hcover : ∀ acc x, (∀ i ∈ acc.2, ∃ q ∈ acc.1, q.id = i) →
      ∃ q ∈ (step acc x).1, q.id = x.id) :
    ∀ (l : List Person) (acc : List Person × List String),
      (∀ i ∈ acc.2, ∃ q ∈ acc.1, q.id = i) →
      ∀ p ∈ l, ∃ q ∈ (l.foldl step acc).1, q.id = p.id := by
  intro l
  induction l with
  | nil => intro acc _ p hp; exact absurd hp (List.not_mem_nil p)
  | cons x r ih =>
    intro acc hP2acc p hp
    rw [List.foldl_cons]
    rcases List.mem_cons.mp hp with rfl | hr
    · rcases hcover acc p hP2acc with ⟨q, hq, hqid⟩
      rcases foldl_growth Prod.fst step hgrow r (step acc p) with ⟨t, ht⟩
      exact ⟨q, by rw [ht]; exact List.mem_append_left _ hq, hqid⟩
    · exact ih (step acc x) (hP2 acc x hP2acc) p hr

/-! ## `mapSet` and key membership -/

theorem mapSet_pid_mem (m : NodeMap) (node : LayoutNode) (k : String)
    (h : k ∈ m.map nodePid ∨ k = nodePid node) :
    k ∈ (mapSet m node).map nodePid := by
  unfold mapSet
  by_cases hf : (m.find? (fun n => n.person.id = node.person.id)).isSome
  · rw [if_pos hf]
    have heq : (m.map (fun n =>
        if n.person.id = node.person.id then node else n)).map nodePid
          = m.map nodePid := by
      rw [List.map_map]
      apply List.map_congr_left
      intro n _
      simp only [Function.comp]
      by_cases hc : n.person.id = node.person.id
      · simp [hc, nodePid]
      · simp [hc]
    rw [heq]
    rcases h with h | rfl
    · exact h
    · rcases Option.isSome_iff_exists.mp hf with ⟨w, hw⟩
      have hwid : w.person.id = node.person.id := by
        simpa using List.find?_some hw
      exact List.mem_map.mpr ⟨w, List.mem_of_find?_eq_some hw, hwid⟩
  · rw [if_neg hf, List.map_append]
    rcases h with h | rfl
    · exact List.mem_append_left _ h
    · exact List.mem_append_right _ (by simp [nodePid])

theorem mapGet_mapSet_mono (m : NodeMap) (node : LayoutNode) (k : String)
    (h : (mapGet m k).isSome) : (mapGet (mapSet m node) k).isSome := by
  rw [mapGet_isSome_iff] at h ⊢
  exact mapSet_pid_mem m node k (Or.inl h)

theorem mapGet_mapSet_self (m : NodeMap) (node : LayoutNode) :
    (mapGet (mapSet m node) node.person.id).isSome := by
  rw [mapGet_isSome_iff]
  exact mapSet_pid_mem m node _ (Or.inr rfl)

/-! ## Integer-keyed lookup under a key-preserving map -/

theorem zget_mem {α : Type} :
    ∀ (m : List (ℤ × α)) (k : ℤ) (v : α), zget m k = some v → (k, v) ∈ m := by
  intro m
  induction m with
  | nil => intro k v h; exact Option.noConfusion h
  | cons e r ih =>
    intro k v h
    by_cases hc : e.1 = k
    · rw [show zget (e :: r) k = if e.1 = k then some e.2 else zget r k from rfl,
        if_pos hc] at h
      injection h with h'
      exact List.mem_cons.mpr (Or.inl (by rw [← hc, ← h']))
    · rw [show zget (e :: r) k = if e.1 = k then some e.2 else zget r k from rfl,
        if_neg hc] at h
      exact List.mem_cons.mpr (Or.inr (ih k v h))

theorem zget_map_some {α β : Type} (f : ℤ × α → β) :
    ∀ (l : List (ℤ × α)) (k : ℤ) (v : α),
      zget l k = some v →
      zget (l.map (fun e => (e.1, f e))) k = some (f (k, v)) := by
  intro l
  induction l with
  | nil => intro k v h; exact Option.noConfusion h
  | cons e r ih =>
    intro k v h
    rw [show zget (e :: r) k = if e.1 = k then some e.2 else zget r k from rfl] at h
    rw [List.map_cons,
      show zget ((e.1, f e) :: r.map (fun e => (e.1, f e))) k
        = if e.1 = k then some (f e) else zget (r.map (fun e => (e.1, f e))) k
        from rfl]
    by_cases hc : e.1 = k
    · rw [if_pos hc] at h ⊢
      injection h with h'
      have hke : (k, v) = e := by
        rw [← hc, ← h']
      rw [hke]
    · rw [if_neg hc] at h ⊢
      exact ih k v h

theorem zget_map_none {α β : Type} (f : ℤ × α → β) :
    ∀ (l : List (ℤ × α)) (k : ℤ),
      zget l k = none → zget (l.map (fun e => (e.1, f e))) k = none := by
  intro l
  induction l with
  | nil => intro k _; rfl
  | cons e r ih =>
    intro k h
    rw [show zget (e :: r) k = if e.1 = k then some e.2 else zget r k from rfl] at h
    rw [List.map_cons,
      show zget ((e.1, f e) :: r.map (fun e => (e.1, f e))) k
        = if e.1 = k then some (f e) else zget (r.map (fun e => (e.1, f e))) k
        from rfl]
    by_cases hc : e.1 = k
    · rw [if_pos hc] at h
      exact Option.noConfusion h
    · rw [if_neg hc] at h ⊢
      exact ih k h

theorem zget_map_rev {α β : Type} (f : ℤ × α → β)
    (l : List (ℤ × α)) (k : ℤ) (w : β)
    (h : zget (l.map (fun e => (e.1, f e))) k = some w) :
    ∃ v, zget l k = some v ∧ w = f (k, v) := by
  cases hz : zget l k with
  | none => rw [zget_map_none f l k hz] at h; exact Option.noConfusion h
  | some v =>
    rw [zget_map_some f l k v hz] at h
    injection h with h'
    exact ⟨v, rfl, h'.symm⟩

/-! ## Key preservation without side conditions -/

theorem resLoop_keys (opts : LayoutOptions) :
    ∀ (k : ℕ) (m : NodeMap) (g : ℤ), sameKeys m (resLoop opts k m g) := by
  intro k
  induction k with
  | zero => intro m g; exact sameKeys_refl m
  | succ k ih =>
    intro m g
    have hstep : resLoop opts (k + 1) m g
        = if detectCollisions opts m g then
            resLoop opts k (resolveCollisions opts m g) g
          else m := rfl
    rw [hstep]
    by_cases hdet : detectCollisions opts m g
    · rw [if_pos hdet]
      exact sameKeys_trans (resolveCollisions_sameKeys opts m g)
        (ih (resolveCollisions opts m g) g)
    · rw [if_neg hdet]
      exact sameKeys_refl m

theorem resFold_keys (opts : LayoutOptions) :
    ∀ (ks : List ℤ) (m : NodeMap),
      sameKeys m (ks.foldl (fun m g => resLoop opts 10 m g) m) := by
  intro ks
  induction ks with
  | nil => intro m; exact sameKeys_refl m
  | cons g rest ih =>
    intro m
    exact sameKeys_trans (resLoop_keys opts 10 m g) (ih _)

theorem centerLayout_sameKeys (m : NodeMap) : sameKeys m (centerLayout m) := by
  rcases centerLayout_eq_map m with ⟨ox, oy, he⟩
  show (centerLayout m).map nodePid = m.map nodePid
  rw [he, List.map_map]
  apply List.map_congr_left
  intro n _
  rfl

/-! ## Membership through the per-generation sort -/

/-- The spouse-grouping step of the main loop of
`sortGenerationWithFamilyUnits` (an alias for its inner lambda). -/
def spouseStep (persons : List Person) (acc2 : List Person × List String)
    (spouseId : String) : List Person × List String :=
  match persons.find? (fun p => p.id = spouseId) with
  | some spouse =>
    if spouse.id ∈ acc2.2 then acc2
    else (acc2.1 ++ [spouse], spouse.id :: acc2.2)
  | none => acc2

/-- The per-person step of the main loop of `sortGenerationWithFamilyUnits`. -/
def mainStep (persons : List Person) (acc : List Person × List String)
    (person : Person) : List Person × List String :=
  if person.id ∈ acc.2 then acc
  else person.spouseIds.foldl (spouseStep persons) (acc.1 ++ [person], person.id :: acc.2)

/-- The spouse list collected for one shared person. -/
def sharedSpouses (persons : List Person) (acc2 : List String)
    (e : String × List FamilyUnit) : List Person :=
  e.2.foldl
    (fun sps unit =>
      unit.parents.foldl
        (fun sps2 parentId =>
          if parentId ≠ e.1 then
            match persons.find? (fun p => p.id = parentId) with
            | some spouse =>
              if spouse.id ∈ acc2 then sps2 else sps2 ++ [spouse]
            | none => sps2
          else sps2)
        sps)
    []

/-- The shared-person step of `sortGenerationWithFamilyUnits`. -/
def sharedStep (persons : List Person) (acc : List Person × List String)
    (e : String × List FamilyUnit) : List Person × List String :=
  match persons.find? (fun p => p.id = e.1) with
  | none => acc
  | some sharedPerson =>
    if e.1 ∈ acc.2 then acc
    else
      match sharedSpouses persons acc.2 e with
      | [] => (acc.1 ++ [sharedPerson], e.1 :: acc.2)
      | s0 :: srest =>
        (acc.1 ++ [s0, sharedPerson] ++ srest,
         (srest.map Person.id) ++ [e.1, s0.id] ++ acc.2)

theorem sortGen_eq (persons : List Person)
    (genSharedPersons : List (String × List FamilyUnit)) :
    sortGenerationWithFamilyUnits persons genSharedPersons
      = if persons.length ≤ 1 then persons
        else (persons.foldl (mainStep persons)
          (genSharedPersons.foldl (sharedStep persons) ([], []))).1 := rfl

/-- Every processed id is realized by a person in the collected list. -/
def idsCovered (acc : List Person × List String) : Prop :=
  ∀ i ∈ acc.2, ∃ q ∈ acc.1, q.id = i

theorem spouseStep_grow (persons : List Person) :
    ∀ (acc2 : List Person × List String) (sid : String),
      ∃ t, (spouseStep persons acc2 sid).1 = acc2.1 ++ t := by
  intro acc2 sid
  unfold spouseStep
  split
  · split
    · exact ⟨[], (List.append_nil _).symm⟩
    · rename_i spouse heq hnin
      exact ⟨[spouse], rfl⟩
  · exact ⟨[], (List.append_nil _).symm⟩

theorem spouseStep_P2 (persons : List Person) :
    ∀ (acc2 : List Person × List String) (sid : String),
      idsCovered acc2 → idsCovered (spouseStep persons acc2 sid) := by
  intro acc2 sid h
  unfold spouseStep
  split
  · rename_i spouse heq
    split
    · exact h
    · intro i hi
      rcases List.mem_cons.mp hi with rfl | hr
      · exact ⟨spouse, List.mem_append_right _ (List.mem_singleton_self _), rfl⟩
      · rcases h i hr with ⟨q, hq, hqid⟩
        exact ⟨q, List.mem_append_left _ hq, hqid⟩
  · exact h

theorem spouseStep_sound (persons : List Person) :
    ∀ (acc2 : List Person × List String) (sid : String),
      (∀ q ∈ acc2.1, q ∈ persons) →
      ∀ q ∈ (spouseStep persons acc2 sid).1, q ∈ persons := by
  intro acc2 sid h
  unfold spouseStep
  split
  · rename_i spouse heq
    split
    · exact h
    · intro q hq
      rcases List.mem_append.mp hq with h1 | h2
      · exact h q h1
      · rw [List.mem_singleton.mp h2]
        exact List.mem_of_find?_eq_some heq
  · exact h

theorem mainStep_grow (persons : List Person) :
    ∀ (acc : List Person × List String) (x : Person),
      ∃ t, (mainStep persons acc x).1 = acc.1 ++ t := by
  intro acc x
  unfold mainStep
  split
  · exact ⟨[], (List.append_nil _).symm⟩
  · rcases foldl_growth Prod.fst (spouseStep persons) (spouseStep_grow persons)
      x.spouseIds (acc.1 ++ [x], x.id :: acc.2) with ⟨t, ht⟩
    exact ⟨[x] ++ t, by rw [ht]; exact List.append_assoc _ _ _⟩

theorem mainStep_P2 (persons : List Person) :
    ∀ (acc : List Person × List String) (x : Person),
      idsCovered acc → idsCovered (mainStep persons acc x) := by
  intro acc x h
  unfold mainStep
  split
  · exact h
  · apply foldl_invariant (spouseStep persons) idsCovered (spouseStep_P2 persons)
      x.spouseIds
    intro i hi
    rcases List.mem_cons.mp hi with rfl | hr
    · exact ⟨x, List.mem_append_right _ (List.mem_singleton_self x), rfl⟩
    · rcases h i hr with ⟨q, hq, hqid⟩
      exact ⟨q, List.mem_append_left _ hq, hqid⟩

theorem mainStep_cover (persons : List Person) :
    ∀ (acc : List Person × List String) (x : Person), idsCovered acc →
      ∃ q ∈ (mainStep persons acc x).1, q.id = x.id := by
  intro acc x h
  unfold mainStep
  split
  · rename_i hin
    exact h x.id hin
  · rcases foldl_growth Prod.fst (spouseStep persons) (spouseStep_grow persons)
      x.spouseIds (acc.1 ++ [x], x.id :: acc.2) with ⟨t, ht⟩
    refine ⟨x, ?_, rfl⟩
    rw [ht]
    exact List.mem_append_left _
      (List.mem_append_right _ (List.mem_singleton_self x))

theorem mainStep_sound (persons : List Person) :
    ∀ (acc : List Person × List String) (x : Person), x ∈ persons →
      (∀ q ∈ acc.1, q ∈ persons) →
      ∀ q ∈ (mainStep persons acc x).1, q ∈ persons := by
  intro acc x hx h
  unfold mainStep
  split
  · exact h
  · apply foldl_invariant (spouseStep persons)
      (fun acc2 => ∀ q ∈ acc2.1, q ∈ persons) (spouseStep_sound persons)
      x.spouseIds
    intro q hq
    rcases List.mem_append.mp hq with h1 | h2
    · exact h q h1
    · rw [List.mem_singleton.mp h2]
      exact hx

theorem sharedSpouses_sound (persons : List Person) (acc2 : List String)
    (e : String × List FamilyUnit) :
    ∀ x ∈ sharedSpouses persons acc2 e, x ∈ persons := by
  unfold sharedSpouses
  apply foldl_invariant _ (fun sps => ∀ x ∈ sps, x ∈ persons) ?_ e.2 []
    (fun x hx => absurd hx (List.not_mem_nil x))
  intro sps unit hsps
  apply foldl_invariant _ (fun sps2 => ∀ x ∈ sps2, x ∈ persons) ?_ unit.parents
    sps hsps
  intro sps2 pid hsps2
  dsimp only
  split
  · split
    · rename_i spouse heq
      split
      · exact hsps2
      · intro x hx
        rcases List.mem_append.mp hx with h1 | h2
        · exact hsps2 x h1
        · rw [List.mem_singleton.mp h2]
          exact List.mem_of_find?_eq_some heq
    · exact hsps2
  · exact hsps2

theorem sharedStep_P2 (persons : List Person) :
    ∀ (acc : List Person × List String) (e : String × List FamilyUnit),
      idsCovered acc → idsCovered (sharedStep persons acc e) := by
  intro acc e h
  unfold sharedStep
  split
  · exact h
  · rename_i sharedPerson heq
    have hsid : sharedPerson.id = e.1 := by
      simpa using List.find?_some heq
    split
    · exact h
    · split
      · intro i hi
        rcases List.mem_cons.mp hi with rfl | hr
        · exact ⟨sharedPerson,
            List.mem_append_right _ (List.mem_singleton_self _), hsid⟩
        · rcases h i hr with ⟨q, hq, hqid⟩
          exact ⟨q, List.mem_append_left _ hq, hqid⟩
      · rename_i s0 srest heqsp
        intro i hi
        rcases List.mem_append.mp hi with h12 | h3
        · rcases List.mem_append.mp h12 with h1 | h2
          · rcases List.mem_map.mp h1 with ⟨q, hq, hqid⟩
            exact ⟨q, List.mem_append_right _ hq, hqid⟩
          · rcases List.mem_cons.mp h2 with rfl | h2'
            · exact ⟨sharedPerson,
                List.mem_append_left _
                  (List.mem_append_right _ (by simp)), hsid⟩
            · rcases List.mem_cons.mp h2' with rfl | habs
              · exact ⟨s0,
                  List.mem_append_left _
                    (List.mem_append_right _ (by simp)), rfl⟩
              · exact absurd habs (List.not_mem_nil _)
        · rcases h i h3 with ⟨q, hq, hqid⟩
          exact ⟨q, List.mem_append_left _ (List.mem_append_left _ hq), hqid⟩

theorem sharedStep_sound (persons : List Person) :
    ∀ (acc : List Person × List String) (e : String × List FamilyUnit),
      (∀ q ∈ acc.1, q ∈ persons) →
      ∀ q ∈ (sharedStep persons acc e).1, q ∈ persons := by
  intro acc e h
  unfold sharedStep
  split
  · exact h
  · rename_i sharedPerson heq
    split
    · exact h
    · split
      · intro q hq
        rcases List.mem_append.mp hq with h1 | h2
        · exact h q h1
        · rw [List.mem_singleton.mp h2]
          exact List.mem_of_find?_eq_some heq
      · rename_i s0 srest heqsp
        have hs0 : s0 ∈ persons :=
          sharedSpouses_sound persons acc.2 e s0
            (by rw [heqsp]; exact List.mem_cons_self _ _)
        have hsr : ∀ x ∈ srest, x ∈ persons := fun x hx =>
          sharedSpouses_sound persons acc.2 e x
            (by rw [heqsp]; exact List.mem_cons_of_mem _ hx)
        intro q hq
        rcases List.mem_append.mp hq with h12 | h3
        · rcases List.mem_append.mp h12 with h1 | h2
          · exact h q h1
          · rcases List.mem_cons.mp h2 with rfl | h2'
            · exact hs0
            · rw [List.mem_singleton.mp h2']
              exact List.mem_of_find?_eq_some heq
        · exact hsr q h3

/-- Every person of a generation row keeps a same-id representative through
the per-generation sort. -/
theorem sortGen_covers (persons : List Person)
    (genSharedPersons : List (String × List FamilyUnit)) (p : Person)
    (hp : p ∈ persons) :
    ∃ q ∈ sortGenerationWithFamilyUnits persons genSharedPersons, q.id = p.id := by
  rw [sortGen_eq]
  by_cases hlen : persons.length ≤ 1
  · rw [if_pos hlen]
    exact ⟨p, hp, rfl⟩
  · rw [if_neg hlen]
    apply fold_covers (mainStep persons) (mainStep_grow persons)
      (mainStep_P2 persons) (mainStep_cover persons) persons
      (genSharedPersons.foldl (sharedStep persons) ([], [])) ?_ p hp
    apply foldl_invariant (sharedStep persons) idsCovered (sharedStep_P2 persons)
      genSharedPersons
    intro i hi
    exact absurd hi (List.not_mem_nil i)

/-- The per-generation sort emits only persons of the row. -/
theorem sortGen_sound (persons : List Person)
    (genSharedPersons : List (String × List FamilyUnit)) :
    ∀ q ∈ sortGenerationWithFamilyUnits persons genSharedPersons,
      q ∈ persons := by
  rw [sortGen_eq]
  by_cases hlen : persons.length ≤ 1
  · rw [if_pos hlen]
    exact fun q hq => hq
  · rw [if_neg hlen]
    apply foldl_invariant_mem (mainStep persons)
      (fun acc => ∀ q ∈ acc.1, q ∈ persons) (fun x => x ∈ persons)
      (mainStep_sound persons) persons (fun x hx => hx)
    apply foldl_invariant (sharedStep persons)
      (fun acc => ∀ q ∈ acc.1, q ∈ persons) (sharedStep_sound persons)
      genSharedPersons
    intro q hq
    exact absurd hq (List.not_mem_nil q)

/-! ## Coverage of the initial placement -/

/-- The per-person step of `calculatePositions` (an alias for the fold body
of `placeRow`). -/
def placeStep (opts : LayoutOptions) (gen : ℤ) (y : ℚ)
    (acc : NodeMap × ℚ × Option Person × ℕ) (person : Person) :
    NodeMap × ℚ × Option Person × ℕ :=
  let result := acc.1
  let currentX := acc.2.1
  let prevPerson := acc.2.2.1
  let i := acc.2.2.2
  let spacing :=
    match prevPerson with
    | some prev =>
      if person.id ∈ prev.spouseIds ∨ prev.id ∈ person.spouseIds then
        opts.spouseSpacing
      else opts.horizontalSpacing
    | none => opts.horizontalSpacing
  let currentX := if i > 0 then currentX + spacing + opts.nodeWidth else currentX
  let currentX :=
    match getParentCenterX person result with
    | some parentX => if gen > 0 ∧ parentX ≥ currentX then parentX else currentX
    | none => currentX
  let node : LayoutNode :=
    { person := person, x := currentX, y := y, generation := gen, order := i }
  (mapSet result node, currentX, some person, i + 1)

theorem placeRow_eq (opts : LayoutOptions) (gen : ℤ) (y : ℚ)
    (persons : List Person) (result : NodeMap) :
    placeRow opts gen y persons result
      = (persons.foldl (placeStep opts gen y) (result, 0, none, 0)).1 := rfl

/-- Each placement step writes one node for the processed person, at the
row generation. -/
theorem placeStep_shape (opts : LayoutOptions) (gen : ℤ) (y : ℚ)
    (acc : NodeMap × ℚ × Option Person × ℕ) (person : Person) :
    ∃ x, (placeStep opts gen y acc person).1
      = mapSet acc.1
          { person := person, x := x, y := y, generation := gen,
            order := acc.2.2.2 } :=
  ⟨_, rfl⟩

theorem placeRow_mem (opts : LayoutOptions) (gen : ℤ) (y : ℚ)
    (persons : List Person) (m : NodeMap) :
    ∀ n ∈ placeRow opts gen y persons m,
      n ∈ m ∨ (n.generation = gen ∧ n.person ∈ persons) := by
  rw [placeRow_eq]
  apply foldl_invariant_mem (placeStep opts gen y)
    (fun acc => ∀ n ∈ acc.1, n ∈ m ∨ (n.generation = gen ∧ n.person ∈ persons))
    (fun x => x ∈ persons) ?_ persons (fun x hx => hx) (m, 0, none, 0)
    (fun n hn => Or.inl hn)
  intro acc x hx hP n hn
  rcases placeStep_shape opts gen y acc x with ⟨xc, hsh⟩
  rw [hsh] at hn
  rcases mapSet_mem _ _ n hn with hin | rfl
  · exact hP n hin
  · exact Or.inr ⟨rfl, hx⟩

theorem placeRow_mono (opts : LayoutOptions) (gen : ℤ) (y : ℚ)
    (persons : List Person) (m : NodeMap) (k : String)
    (h : (mapGet m k).isSome) :
    (mapGet (placeRow opts gen y persons m) k).isSome := by
  rw [placeRow_eq]
  apply foldl_invariant (placeStep opts gen y)
    (fun acc => (mapGet acc.1 k).isSome) ?_ persons (m, 0, none, 0) h
  intro acc x hP
  rcases placeStep_shape opts gen y acc x with ⟨xc, hsh⟩
  rw [hsh]
  exact mapGet_mapSet_mono _ _ k hP

theorem placeRow_covers (opts : LayoutOptions) (gen : ℤ) (y : ℚ)
    (p : Person) :
    ∀ (persons : List Person) (acc : NodeMap × ℚ × Option Person × ℕ),
      ((mapGet acc.1 p.id).isSome ∨ p ∈ persons) →
      (mapGet (persons.foldl (placeStep opts gen y) acc).1 p.id).isSome := by
  intro persons
  induction persons with
  | nil =>
    intro acc hor
    rcases hor with h | h
    · exact h
    · exact absurd h (List.not_mem_nil p)
  | cons x r ih =>
    intro acc hor
    rw [List.foldl_cons]
    rcases placeStep_shape opts gen y acc x with ⟨xc, hsh⟩
    rcases hor with h | h
    · apply ih
      refine Or.inl ?_
      rw [hsh]
      exact mapGet_mapSet_mono _ _ p.id h
    · rcases List.mem_cons.mp h with rfl | hr
      · apply ih
        refine Or.inl ?_
        rw [hsh]
        exact mapGet_mapSet_self acc.1 _
      · exact ih _ (Or.inr hr)

theorem calculatePositions_eq (opts : LayoutOptions)
    (generations : List (ℤ × List Person)) :
    calculatePositions opts generations
      = ((generations.map Prod.fst).insertionSort (fun a b => a ≤ b)).foldl
          (fun result gen =>
            placeRow opts gen ((gen : ℚ) * (opts.nodeHeight + opts.verticalSpacing))
              ((zget generations gen).getD []) result)
          [] := rfl

/-- Every placed node carries a person of its generation's row. -/
theorem calculatePositions_mem (opts : LayoutOptions)
    (generations : List (ℤ × List Person)) :
    ∀ n ∈ calculatePositions opts generations,
      n.person ∈ (zget generations n.generation).getD [] := by
  rw [calculatePositions_eq]
  apply foldl_invariant _
    (fun m : NodeMap => ∀ n ∈ m,
      n.person ∈ (zget generations n.generation).getD []) ?_
    ((generations.map Prod.fst).insertionSort (fun a b => a ≤ b)) []
    (fun n hn => absurd hn (List.not_mem_nil n))
  intro m g hP n hn
  rcases placeRow_mem opts g _ _ m n hn with hin | ⟨hgen, hper⟩
  · exact hP n hin
  · rw [hgen]
    exact hper

/-- Every person of every processed generation row gets a node. -/
theorem calculatePositions_covers (opts : LayoutOptions)
    (generations : List (ℤ × List Person)) (p : Person) (g : ℤ)
    (hg : g ∈ (generations.map Prod.fst).insertionSort (fun a b => a ≤ b))
    (hp : p ∈ (zget generations g).getD []) :
    (mapGet (calculatePositions opts generations) p.id).isSome := by
  rw [calculatePositions_eq]
  have haux : ∀ (ks : List ℤ) (m : NodeMap),
      ((mapGet m p.id).isSome ∨ g ∈ ks) →
      (mapGet (ks.foldl
        (fun result gen =>
          placeRow opts gen ((gen : ℚ) * (opts.nodeHeight + opts.verticalSpacing))
            ((zget generations gen).getD []) result) m) p.id).isSome := by
    intro ks
    induction ks with
    | nil =>
      intro m hor
      rcases hor with h | h
      · exact h
      · exact absurd h (List.not_mem_nil g)
    | cons k r ih =>
      intro m hor
      rw [List.foldl_cons]
      rcases hor with h | h
      · exact ih _ (Or.inl (placeRow_mono opts k _ _ m p.id h))
      · rcases List.mem_cons.mp h with rfl | hr
        · apply ih
          refine Or.inl ?_
          rw [placeRow_eq]
          exact placeRow_covers opts g _ p _ _ (Or.inr hp)
        · exact ih _ (Or.inr hr)
  exact haux _ [] (Or.inr hg)

/-! ## The shape of a successful `layout` run -/

/-- On a non-empty pedigree, a successful `layout` run returns the centering
of some map whose nodes cover exactly the pedigree's person ids, with unique
keys, and whose generations agree with the written person generations. -/
theorem layout_run_shape (opts : LayoutOptions) (fuel : ℕ) (ped : Pedigree)
    (nodes : NodeMap) (pgen : List (String × ℤ))
    (hemp : ¬ ped.persons.isEmpty)
    (h : layout opts fuel ped = some (nodes, pgen)) :
    ∃ m3 : NodeMap, nodes = centerLayout m3
      ∧ (∀ p ∈ ped.persons, (mapGet nodes p.id).isSome)
      ∧ (∀ n ∈ nodes, ∃ p ∈ ped.persons, p.id = nodePid n)
      ∧ keysND nodes
      ∧ (∀ n ∈ nodes, sget pgen (nodePid n) = some n.generation) := by
  unfold layout at h
  rw [if_neg hemp] at h
  cases hassign : assignGenerations ped fuel with
  | none => rw [hassign] at h; exact Option.noConfusion h
  | some r =>
    obtain ⟨generations, pgen'⟩ := r
    rw [hassign] at h
    injection h with h'
    have hpp : pgen' = pgen := congrArg Prod.snd h'
    rw [hpp] at hassign h'
    have hnodes : nodes = centerLayout
        (((generations.map Prod.fst).insertionSort (fun a b => a ≤ b)).foldl
          (fun m g => resLoop opts 10 m g)
          (adjustChildrenPositions opts
            (sortGenerationsWithFamilyUnits generations ped
              (buildFamilyUnits ped pgen)
              (findSharedPersons (buildFamilyUnits ped pgen)) pgen)
            (adjustParentPositions opts
              (sortGenerationsWithFamilyUnits generations ped
                (buildFamilyUnits ped pgen)
                (findSharedPersons (buildFamilyUnits ped pgen)) pgen)
              (calculatePositions opts
                (sortGenerationsWithFamilyUnits generations ped
                  (buildFamilyUnits ped pgen)
                  (findSharedPersons (buildFamilyUnits ped pgen)) pgen))
              ped pgen))) := (congrArg Prod.fst h').symm
    obtain ⟨mg3, hpg, hgens, hnd3, hcov3, _⟩ :=
      assignGenerations_inv ped fuel generations pgen hassign
    set c := minAllGens mg3 with hc
    set sharedPs := findSharedPersons (buildFamilyUnits ped pgen) with hshp
    set sortedGens := sortGenerationsWithFamilyUnits generations ped
      (buildFamilyUnits ped pgen) sharedPs pgen with hsg
    set ks := (generations.map Prod.fst).insertionSort (fun a b => a ≤ b) with hks
    set p0 := calculatePositions opts sortedGens with hp0
    -- the per-generation sort is a key-preserving map over the rows
    have hsg_eq : sortedGens = generations.map
        (fun e => (e.1, sortGenerationWithFamilyUnits e.2
          (sharedPs.filter
            (fun sp =>
              match ped.getPerson sp.1 with
              | some _ => sget pgen sp.1 = some e.1
              | none => false)))) := rfl
    -- pass assembly, as in the collision-freedom development
    have hkeys0 := calculatePositions_spec opts sortedGens
    have hkseq : (sortedGens.map Prod.fst).insertionSort (fun a b => a ≤ b) = ks := by
      rw [hsg, sortGens_keys]
    have hpar : adjustParentPositions opts sortedGens p0 ped pgen
        = ((sortedGens.map Prod.fst).insertionSort (fun a b => a ≤ b)).reverse.foldl
          (fun m gen =>
            resLoop opts 5
              ((((zget sortedGens gen).getD []).foldl
                (parentAdjustStep opts ped pgen gen) (m, [])).1) gen) p0 := rfl
    have hparspec := adjustParentPositions_spec opts sortedGens ped pgen
      ((sortedGens.map Prod.fst).insertionSort (fun a b => a ≤ b)).reverse p0
      hkeys0.1
    have hparsub := adjustParentPositions_nodeSub opts sortedGens ped pgen
      ((sortedGens.map Prod.fst).insertionSort (fun a b => a ≤ b)).reverse p0
    rw [← hpar] at hparspec hparsub
    set p1 := adjustParentPositions opts sortedGens p0 ped pgen with hp1
    have hnd1 : keysND p1 := sameKeys_keysND hparspec.1 hkeys0.1
    have hchild : adjustChildrenPositions opts sortedGens p1
        = match (sortedGens.map Prod.fst).insertionSort (fun a b => a ≤ b) with
          | [] => p1
          | _ :: restKeys =>
            restKeys.foldl
              (fun m gen =>
                resLoop opts 5
                  ((groupSiblings ((zget sortedGens gen).getD [])).foldl
                    (childAdjustGroup opts gen) m) gen) p1 := rfl
    have hchildspec : sameKeys p1 (adjustChildrenPositions opts sortedGens p1)
        ∧ nodeSub p1 (adjustChildrenPositions opts sortedGens p1) := by
      rw [hchild]
      cases hks' : (sortedGens.map Prod.fst).insertionSort (fun a b => a ≤ b) with
      | nil => exact ⟨sameKeys_refl p1, nodeSub_refl p1⟩
      | cons k₀ restKeys =>
        exact ⟨(adjustChildrenPositions_spec opts sortedGens restKeys p1 hnd1).1,
          adjustChildrenPositions_nodeSub opts sortedGens restKeys p1⟩
    set p2 := adjustChildrenPositions opts sortedGens p1 with hp2
    set p3 := ks.foldl (fun m g => resLoop opts 10 m g) p2 with hp3
    have hkeysC : sameKeys p0 nodes := by
      rw [hnodes]
      exact sameKeys_trans
        (sameKeys_trans
          (sameKeys_trans hparspec.1 hchildspec.1)
          (resFold_keys opts ks p2))
        (centerLayout_sameKeys p3)
    have hsubC : nodeSub p0 nodes := by
      rw [hnodes]
      exact nodeSub_trans
        (nodeSub_trans
          (nodeSub_trans hparsub hchildspec.2)
          (resFold_nodeSub opts ks p2))
        (centerLayout_nodeSub p3)
    refine ⟨p3, by rw [hnodes], ?_, ?_, sameKeys_keysND hkeysC hkeys0.1, ?_⟩
    · -- coverage: every person id has a node
      intro p hp
      apply sameKeys_mapGet_isSome hkeysC
      rcases Option.isSome_iff_exists.mp (hcov3 p hp) with ⟨v, hv⟩
      have hgp : (ped.getPerson p.id).isSome := by
        rw [Pedigree.getPerson, List.find?_isSome]
        exact ⟨p, hp, by simp⟩
      have hcg : ∃ lst, zget (mg3.foldl (normStep ped c) ([], [])).2 (v - c)
          = some lst ∧ ∃ q ∈ lst, q.id = p.id :=
        normFold_gens_covers ped c mg3 ([], []) p.id v
          (Or.inl (sget_mem mg3 p.id v hv)) hgp
      rcases hcg with ⟨lst, hlst, q, hqm, hqid⟩
      have hglst : zget generations (v - c) = some lst := by
        rw [hgens, normalizeGens_eq]
        exact hlst
      have hsorted : zget sortedGens (v - c)
          = some (sortGenerationWithFamilyUnits lst
            (sharedPs.filter
              (fun sp =>
                match ped.getPerson sp.1 with
                | some _ => sget pgen sp.1 = some (v - c)
                | none => false))) := by
        rw [hsg_eq]
        exact zget_map_some _ generations (v - c) lst hglst
      rcases sortGen_covers lst _ q hqm with ⟨q', hq'm, hq'id⟩
      have hq'pid : q'.id = p.id := hq'id.trans hqid
      have hgk : (v - c) ∈ (sortedGens.map Prod.fst).insertionSort
          (fun a b => a ≤ b) :=
        (List.perm_insertionSort _ _).mem_iff.mpr
          (List.mem_map.mpr ⟨_, zget_mem _ _ _ hsorted, rfl⟩)
      have := calculatePositions_covers opts sortedGens q' (v - c) hgk
        (by rw [hsorted]; exact hq'm)
      rw [hq'pid] at this
      exact this
    · -- soundness: every node id is a person id
      intro n hn
      rcases hsubC n hn with ⟨n₀, hn₀, hpid, _⟩
      have hrow := calculatePositions_mem opts sortedGens n₀ hn₀
      cases hz : zget sortedGens n₀.generation with
      | none => rw [hz] at hrow; exact absurd hrow (List.not_mem_nil _)
      | some lst' =>
        rw [hz] at hrow
        have hz' : zget (generations.map
            (fun e => (e.1, sortGenerationWithFamilyUnits e.2
              (sharedPs.filter
                (fun sp =>
                  match ped.getPerson sp.1 with
                  | some _ => sget pgen sp.1 = some e.1
                  | none => false))))) n₀.generation = some lst' := by
          rw [← hsg_eq]
          exact hz
        rcases zget_map_rev _ generations n₀.generation lst' hz' with ⟨lst, hlst, hws⟩
        have hqlst : n₀.person ∈ lst := by
          apply sortGen_sound _ _ n₀.person
          rw [← hws]
          exact hrow
        have hsound := normFold_gens_sound ped c mg3 mg3 ([], [])
          (fun e he => he)
          (by intro g lst0 hg0; exact absurd hg0 (by simp [zget]))
          n₀.generation lst
          (by rw [← normalizeGens_eq, ← hgens]; exact hlst)
          n₀.person hqlst
        exact ⟨n₀.person, getPerson_mem hsound.1, (getPerson_id hsound.1).trans hpid⟩
    · -- generations agree with the written person generations
      intro n hn
      rcases hsubC n hn with ⟨n₀, hn₀, hpid, hgen⟩
      have hrow := calculatePositions_mem opts sortedGens n₀ hn₀
      cases hz : zget sortedGens n₀.generation with
      | none => rw [hz] at hrow; exact absurd hrow (List.not_mem_nil _)
      | some lst' =>
        rw [hz] at hrow
        have hz' : zget (generations.map
            (fun e => (e.1, sortGenerationWithFamilyUnits e.2
              (sharedPs.filter
                (fun sp =>
                  match ped.getPerson sp.1 with
                  | some _ => sget pgen sp.1 = some e.1
                  | none => false))))) n₀.generation = some lst' := by
          rw [← hsg_eq]
          exact hz
        rcases zget_map_rev _ generations n₀.generation lst' hz' with ⟨lst, hlst, hws⟩
        have hqlst : n₀.person ∈ lst := by
          apply sortGen_sound _ _ n₀.person
          rw [← hws]
          exact hrow
        have hsound := normFold_gens_sound ped c mg3 mg3 ([], [])
          (fun e he => he)
          (by intro g lst0 hg0; exact absurd hg0 (by simp [zget]))
          n₀.generation lst
          (by rw [← normalizeGens_eq, ← hgens]; exact hlst)
          n₀.person hqlst
        rcases hsound.2 with ⟨v, hvm, hvg⟩
        have hmg : sget mg3 n₀.person.id = some v := mem_sget mg3 _ v hvm hnd3
        have hpgenv : sget pgen n₀.person.id = some (v - c) := by
          rw [hpg]
          exact normalizeGens_pg ped mg3 hnd3 _ v hmg
        rw [← hpid]
        show sget pgen n₀.person.id = some n.generation
        rw [hpgenv, hvg, hgen]

/-! ## C7: global centering; C10: node/person correspondence -/

theorem foldl_min_shift :
    ∀ (l : List ℚ) (a s : ℚ),
      (l.map (fun v => v + s)).foldl min (a + s) = l.foldl min a + s := by
  intro l
  induction l with
  | nil => intro a s; rfl
  | cons b r ih =>
    intro a s
    rw [List.map_cons, List.foldl_cons, List.foldl_cons, min_add_add_right, ih]

theorem foldl_max_shift :
    ∀ (l : List ℚ) (a s : ℚ),
      (l.map (fun v => v + s)).foldl max (a + s) = l.foldl max a + s := by
  intro l
  induction l with
  | nil => intro a s; rfl
  | cons b r ih =>
    intro a s
    rw [List.map_cons, List.foldl_cons, List.foldl_cons, max_add_add_right, ih]

/-- Applied to a non-empty map, `centerLayout` yields a map whose extreme
x-coordinates cancel and whose minimal y is exactly 50. -/
theorem centerLayout_centered (n0 : LayoutNode) (rest : List LayoutNode) :
    ∃ n0' rest', centerLayout (n0 :: rest) = n0' :: rest'
      ∧ (rest'.map LayoutNode.x).foldl min n0'.x
          + (rest'.map LayoutNode.x).foldl max n0'.x = 0
      ∧ (rest'.map LayoutNode.y).foldl min n0'.y = 50 := by
  have hcl : centerLayout (n0 :: rest)
      = (n0 :: rest).map (fun n =>
          { n with
            x := n.x + -(((rest.map LayoutNode.x).foldl min n0.x)
              + ((rest.map LayoutNode.x).foldl max n0.x)) / 2,
            y := n.y + (-((rest.map LayoutNode.y).foldl min n0.y) + 50) }) := rfl
  set ox := -(((rest.map LayoutNode.x).foldl min n0.x)
    + ((rest.map LayoutNode.x).foldl max n0.x)) / 2 with hox
  set oy := -((rest.map LayoutNode.y).foldl min n0.y) + 50 with hoy
  refine ⟨_, _, by rw [hcl]; exact List.map_cons _ _ _, ?_, ?_⟩
  · have hxs : (rest.map (fun n =>
        ({ n with x := n.x + ox, y := n.y + oy } : LayoutNode))).map LayoutNode.x
          = (rest.map LayoutNode.x).map (fun v => v + ox) := by
      rw [List.map_map, List.map_map]
      rfl
    rw [hxs]
    show ((rest.map LayoutNode.x).map (fun v => v + ox)).foldl min (n0.x + ox)
        + ((rest.map LayoutNode.x).map (fun v => v + ox)).foldl max (n0.x + ox) = 0
    rw [foldl_min_shift, foldl_max_shift, hox]
    ring
  · have hys : (rest.map (fun n =>
        ({ n with x := n.x + ox, y := n.y + oy } : LayoutNode))).map LayoutNode.y
          = (rest.map LayoutNode.y).map (fun v => v + oy) := by
      rw [List.map_map, List.map_map]
      rfl
    rw [hys]
    show ((rest.map LayoutNode.y).map (fun v => v + oy)).foldl min (n0.y + oy) = 50
    rw [foldl_min_shift, hoy]
    ring

/-- C7, confirmed: on every non-empty pedigree on which `layout` returns,
the returned node map is globally centered: the minimum and maximum node x
(as computed by `centerLayout`) sum to 0, and the minimum node y is the
fixed 50 top margin. -/
theorem layout_centered (opts : LayoutOptions) (fuel : ℕ) (ped : Pedigree)
    (nodes : NodeMap) (pgen : List (String × ℤ))
    (hne : ped.persons ≠ [])
    (h : layout opts fuel ped = some (nodes, pgen)) :
    ∃ n0 rest, nodes = n0 :: rest
      ∧ (rest.map LayoutNode.x).foldl min n0.x
          + (rest.map LayoutNode.x).foldl max n0.x = 0
      ∧ (rest.map LayoutNode.y).foldl min n0.y = 50 := by
  have hemp : ¬ ped.persons.isEmpty := by
    cases hl : ped.persons with
    | nil => exact absurd hl hne
    | cons a l => simp
  obtain ⟨m3, hm3, hcov, _, _, _⟩ :=
    layout_run_shape opts fuel ped nodes pgen hemp h
  obtain ⟨p, hp⟩ : ∃ p, p ∈ ped.persons := by
    cases hl : ped.persons with
    | nil => exact absurd hl hne
    | cons a l => exact ⟨a, List.mem_cons_self _ _⟩
  have hns : (mapGet nodes p.id).isSome := hcov p hp
  cases hm : m3 with
  | nil =>
    rw [hm] at hm3
    rw [show centerLayout [] = ([] : NodeMap) from rfl] at hm3
    rw [hm3] at hns
    exact absurd hns (by rw [show mapGet [] p.id = none from rfl]; simp)
  | cons n0 rest =>
    rw [hm] at hm3
    obtain ⟨n0', rest', heq, hx, hy⟩ := centerLayout_centered n0 rest
    exact ⟨n0', rest', by rw [hm3, heq], hx, hy⟩

/-- Witness for C7 at the founder couple with a child. -/
theorem layout_centered_witness :
    ∃ n0 rest, layC4.1 = n0 :: rest
      ∧ (rest.map LayoutNode.x).foldl min n0.x
          + (rest.map LayoutNode.x).foldl max n0.x = 0
      ∧ (rest.map LayoutNode.y).foldl min n0.y = 50 :=
  layout_centered DEFAULT_LAYOUT_OPTIONS 6 pedC4 layC4.1 layC4.2
    (List.cons_ne_nil _ _) (by with_unfolding_all rfl)

/-- C10: whenever `layout` returns, the node map holds exactly one node per
person of the pedigree: every person id has a node, every node id is some
person's id (phantom ids from dangling references get no node), the node
keys are unique, and every node's generation equals the generation recorded
for that id in the returned person-generation map (the value the engine
writes onto the person record). -/
theorem layout_nodes_match_persons (opts : LayoutOptions) (fuel : ℕ)
    (ped : Pedigree) (nodes : NodeMap) (pgen : List (String × ℤ))
    (h : layout opts fuel ped = some (nodes, pgen)) :
    (∀ p ∈ ped.persons, (mapGet nodes p.id).isSome)
      ∧ (∀ n ∈ nodes, ∃ p ∈ ped.persons, p.id = nodePid n)
      ∧ keysND nodes
      ∧ (∀ n ∈ nodes, sget pgen (nodePid n) = some n.generation) := by
  by_cases hemp : ped.persons.isEmpty
  · unfold layout at h
    rw [if_pos hemp] at h
    injection h with h'
    have hn : nodes = [] := (congrArg Prod.fst h').symm
    rw [List.isEmpty_iff.mp hemp, hn]
    exact ⟨fun p hp => absurd hp (List.not_mem_nil p),
      fun n hn => absurd hn (List.not_mem_nil n),
      List.nodup_nil,
      fun n hn => absurd hn (List.not_mem_nil n)⟩
  · obtain ⟨m3, _, h1, h2, h3, h4⟩ :=
      layout_run_shape opts fuel ped nodes pgen hemp h
    exact ⟨h1, h2, h3, h4⟩

/-- Witness for C10 at the founder couple with a child. -/
theorem layout_nodes_match_persons_witness :
    (mapGet layC4.1 "C").isSome ∧ keysND layC4.1 := by
  have hw := layout_nodes_match_persons DEFAULT_LAYOUT_OPTIONS 6 pedC4
    layC4.1 layC4.2 (by with_unfolding_all rfl)
  exact ⟨hw.1 ⟨"C", some "A", some "B", [], []⟩
      (List.mem_cons_of_mem _ (List.mem_cons_of_mem _ (List.mem_cons_self _ _))),
    hw.2.2.1⟩

end PedigreeLayout
